import Mathlib

/-!
# I2C slave message queue (`drivers/i2c/i2c-slave-mqueue.c`)

A shallow embedding of the message ring of the I2C slave mqueue driver and of
its two entry points, the bus-event callback and the sysfs binary read.

Modelling conventions.

* `struct mq_msg *` pointers into `mq->queue` are slot indices.
* `int len`, `int in`, `int out` are natural numbers: the code only ever stores
  `0`, `1`, an increment guarded by `len < MQ_MSGBUF_SIZE`, or a value masked
  by `MQ_QUEUE_SIZE - 1` in them.
* `u8` stores are explicit: the header is `(addr << 1) % 256`.
* `kernfs_notify` is recorded as a count of calls in the result of each entry
  point; the spin lock is not modelled (each entry point is one atomic step).
* The two compile-time constants and the client address form `mq_config`.
  `MQ_MSGBUF_SIZE = 0` makes the very first header store fall outside the
  (empty) message buffer, so statements about transactions assume
  `1 ≤ MQ_MSGBUF_SIZE`.
-/

namespace Mqueue

/-- Modelled from the spec: the errno behind the "local error" the callback
signals for a refused byte. `EINVAL` is declared in the errno headers, which are
not among the sources; its usual value is taken. -/
def EINVAL : Int := 22

/-- Modelled from the spec: the errno behind the `Overflow` outcome of a read.
`EOVERFLOW` is declared in the errno headers, which are not among the sources;
its usual value is taken. -/
def EOVERFLOW : Int := 75

/-- Build-time configuration (`CONFIG_I2C_SLAVE_MQUEUE_MESSAGE_SIZE`,
`CONFIG_I2C_SLAVE_MQUEUE_QUEUE_SIZE`) and the client's own address
(`client->addr`). -/
structure mq_config where
  MQ_MSGBUF_SIZE : Nat
  MQ_QUEUE_SIZE : Nat
  addr : Nat
deriving DecidableEq, Repr

/-- One slot, `struct mq_msg`: a length and the `MQ_MSGBUF_SIZE` bytes `buf`
points to. -/
structure mq_msg where
  len : Nat
  buf : List Nat
deriving DecidableEq, Repr

/-- The queue, `struct mq_queue` (fields `bin`, `kn`, `client`, `lock` carry no
state of the ring). `curr` is the index of the slot `mq->curr` points to. -/
structure mq_queue where
  in_ : Nat
  out : Nat
  curr : Nat
  truncated : Bool
  queue : List mq_msg
deriving DecidableEq, Repr

/-- Modelled from the spec: the bus events. `enum i2c_slave_event` is declared in
`linux/i2c.h`, which is not among the sources; the callback switches on the
three write-side events (start of a write, byte received, stop), and the
read-side requests are the spec's "bus-layer request that is not a write". -/
inductive i2c_slave_event where
  | I2C_SLAVE_READ_REQUESTED
  | I2C_SLAVE_WRITE_REQUESTED
  | I2C_SLAVE_READ_PROCESSED
  | I2C_SLAVE_WRITE_RECEIVED
  | I2C_SLAVE_STOP
deriving DecidableEq, Repr

open i2c_slave_event

/-- `MQ_QUEUE_NEXT(x)`, that is `((x) + 1) & (MQ_QUEUE_SIZE - 1)`. -/
def MQ_QUEUE_NEXT (cfg : mq_config) (x : Nat) : Nat :=
  (x + 1) &&& (cfg.MQ_QUEUE_SIZE - 1)

/-- Read of `queue[i]`. -/
def slot (q : List mq_msg) (i : Nat) : mq_msg :=
  q.getD i ⟨0, []⟩

/-- Store `queue[i].len = n`. -/
def store_len (q : List mq_msg) (i n : Nat) : List mq_msg :=
  q.set i { slot q i with len := n }

/-- Store `queue[i].buf[j] = v`. -/
def store_byte (q : List mq_msg) (i j v : Nat) : List mq_msg :=
  q.set i { slot q i with buf := (slot q i).buf.set j v }

/-- What the callback hands back: its return value, the queue, the byte left in
`*val`, and the number of `kernfs_notify` calls made. -/
structure cb_result where
  ret : Int
  mq : mq_queue
  val : Nat
  notify : Nat
deriving DecidableEq, Repr

/-- The slave callback `i2c_slave_mqueue_callback`; `val` is the byte `*val`
on entry. -/
def i2c_slave_mqueue_callback (cfg : mq_config) (mq : mq_queue)
    (event : i2c_slave_event) (val : Nat) : cb_result :=
  let msg := mq.curr
  match event with
  | I2C_SLAVE_WRITE_REQUESTED =>
    let q1 := store_len mq.queue msg 1
    let q2 := store_byte q1 msg 0 ((cfg.addr <<< 1) % 256)
    ⟨0, { mq with truncated := false, queue := q2 }, val, 0⟩
  | I2C_SLAVE_WRITE_RECEIVED =>
    if (slot mq.queue msg).len < cfg.MQ_MSGBUF_SIZE then
      let l := (slot mq.queue msg).len
      let q1 := store_len mq.queue msg (l + 1)
      let q2 := store_byte q1 msg l val
      ⟨0, { mq with queue := q2 }, val, 0⟩
    else
      ⟨-EINVAL, { mq with truncated := true }, val, 0⟩
  | I2C_SLAVE_STOP =>
    if mq.truncated = true ∨ (slot mq.queue msg).len < 2 then
      ⟨0, mq, val, 0⟩
    else
      let in1 := MQ_QUEUE_NEXT cfg mq.in_
      let q1 := store_len mq.queue in1 0
      let out1 := if mq.out = in1 then MQ_QUEUE_NEXT cfg mq.out else mq.out
      ⟨0, { mq with in_ := in1, curr := in1, queue := q1, out := out1 }, val, 1⟩
  | _ => ⟨0, mq, 0xFF, 0⟩

/-- What the read hands back: its return value, the queue, the destination
buffer, and the number of `kernfs_notify` calls made. -/
structure read_result where
  ret : Int
  mq : mq_queue
  buf : List Nat
  notify : Nat
deriving DecidableEq, Repr

/-- The copy `memcpy(dst, src, n)` on byte lists: the first `n` bytes of `dst`
are replaced by the first `n` bytes of `src`. -/
def memcpy (dst src : List Nat) (n : Nat) : List Nat :=
  src.take n ++ dst.drop n

/-- The sysfs read `i2c_slave_mqueue_bin_read`; `buf` is the destination
buffer on entry. The comparison `msg->len <= count` is between a length that is
never negative and a `size_t`, so it is the comparison of natural numbers. -/
def i2c_slave_mqueue_bin_read (cfg : mq_config) (mq : mq_queue)
    (buf : List Nat) (pos count : Nat) : read_result :=
  if mq.out ≠ mq.in_ then
    let msg := slot mq.queue mq.out
    let out1 := MQ_QUEUE_NEXT cfg mq.out
    let more := if out1 ≠ mq.in_ then 1 else 0
    if msg.len ≤ count then
      ⟨(msg.len : Int), { mq with out := out1 }, memcpy buf msg.buf msg.len, more⟩
    else
      ⟨-EOVERFLOW, { mq with out := out1 }, buf, more⟩
  else
    ⟨0, mq, buf, 0⟩

/-- The queue a successful `i2c_slave_mqueue_probe` sets up. `mq` and
`mq->queue` are zero-allocated; the message storage is not, so its bytes are
whatever `heap` holds, slot `i` starting at offset `i * MQ_MSGBUF_SIZE`. -/
def i2c_slave_mqueue_probe (cfg : mq_config) (heap : Nat → Nat) : mq_queue :=
  { in_ := 0
    out := 0
    curr := 0
    truncated := false
    queue := (List.range cfg.MQ_QUEUE_SIZE).map fun i =>
      ⟨0, (List.range cfg.MQ_MSGBUF_SIZE).map fun j =>
        heap (i * cfg.MQ_MSGBUF_SIZE + j)⟩ }

/-- States the driver can be in: the probed queue, then any bus events and
reads. -/
inductive Reachable (cfg : mq_config) : mq_queue → Prop where
  | probe (heap : Nat → Nat) : Reachable cfg (i2c_slave_mqueue_probe cfg heap)
  | event (mq : mq_queue) (e : i2c_slave_event) (val : Nat) :
      Reachable cfg mq → Reachable cfg (i2c_slave_mqueue_callback cfg mq e val).mq
  | read (mq : mq_queue) (buf : List Nat) (pos count : Nat) :
      Reachable cfg mq → Reachable cfg (i2c_slave_mqueue_bin_read cfg mq buf pos count).mq

/-- The header byte the driver synthesises. -/
def header (cfg : mq_config) : Nat := (cfg.addr <<< 1) % 256

/-- The bytes of a slot that count: the first `len` bytes of its buffer. -/
def message (m : mq_msg) : List Nat := m.buf.take m.len

/-- Number of committed messages not yet read, `(in - out) mod MQ_QUEUE_SIZE`. -/
def pending_count (cfg : mq_config) (mq : mq_queue) : Nat :=
  (mq.in_ + cfg.MQ_QUEUE_SIZE - mq.out) % cfg.MQ_QUEUE_SIZE

/-- The committed messages not yet read, oldest first: the slots from `out` up
to, not including, `in`. -/
def pending (cfg : mq_config) (mq : mq_queue) : List (List Nat) :=
  (List.range (pending_count cfg mq)).map fun i =>
    message (slot mq.queue ((mq.out + i) % cfg.MQ_QUEUE_SIZE))

/-- One call into the driver: a bus event or a read. -/
inductive mq_op where
  | event (e : i2c_slave_event) (val : Nat)
  | read (buf : List Nat) (pos count : Nat)
deriving DecidableEq, Repr

/-- What a caller sees of one call. -/
inductive mq_obs where
  | event (ret : Int) (val notify : Nat)
  | read (ret : Int) (buf : List Nat) (notify : Nat)
deriving DecidableEq, Repr

/-- Perform one call. -/
def step (cfg : mq_config) (mq : mq_queue) : mq_op → mq_queue × mq_obs
  | .event e v =>
    let r := i2c_slave_mqueue_callback cfg mq e v
    (r.mq, .event r.ret r.val r.notify)
  | .read buf pos count =>
    let r := i2c_slave_mqueue_bin_read cfg mq buf pos count
    (r.mq, .read r.ret r.buf r.notify)

/-- Perform a sequence of calls, collecting what the caller sees. -/
def run (cfg : mq_config) : mq_queue → List mq_op → mq_queue × List mq_obs
  | mq, [] => (mq, [])
  | mq, op :: ops =>
    let p := step cfg mq op
    let q := run cfg p.1 ops
    (q.1, p.2 :: q.2)

/-- The calls of one write transaction carrying `payload`: start, one event per
byte, stop. -/
def transaction (payload : List Nat) : List mq_op :=
  .event I2C_SLAVE_WRITE_REQUESTED 0 ::
    (payload.map fun b => .event I2C_SLAVE_WRITE_RECEIVED b) ++ [.event I2C_SLAVE_STOP 0]

/-- Number of `kernfs_notify` calls one call made. -/
def mq_obs.notify : mq_obs → Nat
  | .event _ _ n => n
  | .read _ _ n => n

/-- Return value of one call. -/
def mq_obs.ret : mq_obs → Int
  | .event r _ _ => r
  | .read r _ _ => r

/-- Total number of `kernfs_notify` calls in a sequence of calls. -/
def notifications (obs : List mq_obs) : Nat :=
  (obs.map mq_obs.notify).sum

/-- The data a read delivered, if it delivered any: the first `ret` bytes of
the destination when `ret > 0`. -/
def delivered : mq_obs → Option (List Nat)
  | .read ret buf _ => if 0 < ret then some (buf.take ret.toNat) else none
  | .event _ _ _ => none

/-- The last `n` elements of a list. -/
def keep_last {α : Type} (n : Nat) (l : List α) : List α :=
  l.drop (l.length - n)

/-- Well-formedness of a queue state: `MQ_QUEUE_SIZE` slots of
`MQ_MSGBUF_SIZE` bytes, indices in range, `curr` at the write index, lengths
within the buffer. -/
structure WF (cfg : mq_config) (mq : mq_queue) : Prop where
  qlen : mq.queue.length = cfg.MQ_QUEUE_SIZE
  in_lt : mq.in_ < cfg.MQ_QUEUE_SIZE
  out_lt : mq.out < cfg.MQ_QUEUE_SIZE
  curr_eq : mq.curr = mq.in_
  buf_len : ∀ i, i < cfg.MQ_QUEUE_SIZE → (slot mq.queue i).buf.length = cfg.MQ_MSGBUF_SIZE
  len_le : ∀ i, i < cfg.MQ_QUEUE_SIZE → (slot mq.queue i).len ≤ cfg.MQ_MSGBUF_SIZE

/-- Abstract view of the driver: the pending messages, the bytes of the message
being received, and the truncation flag. -/
structure fifo where
  pending : List (List Nat)
  cur : List Nat
  truncated : Bool
deriving DecidableEq, Repr

/-- The abstract view of a queue state. -/
def abs (cfg : mq_config) (mq : mq_queue) : fifo :=
  ⟨pending cfg mq, message (slot mq.queue mq.curr), mq.truncated⟩

/-- One call on the abstract view: a bounded list that drops its head when a
commit would exceed `MQ_QUEUE_SIZE - 1` entries. -/
def fifo_step (cfg : mq_config) (a : fifo) : mq_op → fifo × mq_obs
  | .event I2C_SLAVE_WRITE_REQUESTED v =>
    ({ a with cur := [header cfg], truncated := false }, .event 0 v 0)
  | .event I2C_SLAVE_WRITE_RECEIVED v =>
    if a.cur.length < cfg.MQ_MSGBUF_SIZE then
      ({ a with cur := a.cur ++ [v] }, .event 0 v 0)
    else
      ({ a with truncated := true }, .event (-EINVAL) v 0)
  | .event I2C_SLAVE_STOP v =>
    if a.truncated = true ∨ a.cur.length < 2 then (a, .event 0 v 0)
    else
      ({ a with pending := keep_last (cfg.MQ_QUEUE_SIZE - 1) (a.pending ++ [a.cur]),
                cur := [] }, .event 0 v 1)
  | .event _ _ => (a, .event 0 0xFF 0)
  | .read buf _ count =>
    match a.pending with
    | [] => (a, .read 0 buf 0)
    | m :: rest =>
      let more := if rest = [] then 0 else 1
      if m.length ≤ count then
        ({ a with pending := rest }, .read (m.length : Int) (m ++ buf.drop m.length) more)
      else
        ({ a with pending := rest }, .read (-EOVERFLOW) buf more)

/-- Two abstract views no sequence of calls can tell apart: they agree on
everything except the bytes of a message already marked truncated. -/
def fifo_alike (a b : fifo) : Prop :=
  a.pending = b.pending ∧ a.truncated = b.truncated ∧ a.cur.length = b.cur.length ∧
    (a.truncated = false → a.cur = b.cur)

/-- A sequence of calls on the abstract view. -/
def fifo_run (cfg : mq_config) : fifo → List mq_op → fifo × List mq_obs
  | a, [] => (a, [])
  | a, op :: ops =>
    let p := fifo_step cfg a op
    let q := fifo_run cfg p.1 ops
    (q.1, p.2 :: q.2)

/-- What can happen between the start and the stop of a transaction: a byte
arrives, or the consumer reads. -/
inductive txn_item where
  | byte (b : Nat)
  | read (buf : List Nat) (pos count : Nat)
deriving DecidableEq, Repr

/-- The call a transaction item stands for. -/
def txn_item.op : txn_item → mq_op
  | .byte b => .event I2C_SLAVE_WRITE_RECEIVED b
  | .read buf pos count => .read buf pos count

/-- The payload bytes among the items of a transaction. -/
def txn_payload : List txn_item → List Nat
  | [] => []
  | .byte b :: t => b :: txn_payload t
  | .read _ _ _ :: t => txn_payload t

/-- The number of reads among the items of a transaction. -/
def txn_reads : List txn_item → Nat
  | [] => 0
  | .byte _ :: t => txn_reads t
  | .read _ _ _ :: t => txn_reads t + 1

/-- An interleaving of transactions and reads: each entry is a read between
transactions, or a whole transaction with the reads that fall inside it. -/
inductive sched_item where
  | read (buf : List Nat) (pos count : Nat)
  | txn (body : List txn_item)
deriving DecidableEq, Repr

/-- The calls of one schedule entry. -/
def sched_item.ops : sched_item → List mq_op
  | .read buf pos count => [.read buf pos count]
  | .txn body =>
    .event I2C_SLAVE_WRITE_REQUESTED 0 :: body.map txn_item.op ++ [.event I2C_SLAVE_STOP 0]

/-- The calls of a schedule. -/
def schedule_ops : List sched_item → List mq_op
  | [] => []
  | it :: rest => it.ops ++ schedule_ops rest

/-- The messages a schedule sends, in order: header and payload of each
transaction. -/
def committed (cfg : mq_config) : List sched_item → List (List Nat)
  | [] => []
  | .read _ _ _ :: rest => committed cfg rest
  | .txn body :: rest => (header cfg :: txn_payload body) :: committed cfg rest

/-- A read inside a transaction asks for at least `c` bytes. -/
def txn_item.count_ge (c : Nat) : txn_item → Prop
  | .byte _ => True
  | .read _ _ count => c ≤ count

/-- A schedule entry is well-formed: a transaction carries between 1 and
`MQ_MSGBUF_SIZE - 1` payload bytes, and every read asks for at least
`MQ_MSGBUF_SIZE` bytes. -/
def sched_item.ok (cfg : mq_config) : sched_item → Prop
  | .read _ _ count => cfg.MQ_MSGBUF_SIZE ≤ count
  | .txn body =>
    1 ≤ (txn_payload body).length ∧ (txn_payload body).length + 1 ≤ cfg.MQ_MSGBUF_SIZE ∧
      ∀ it ∈ body, it.count_ge cfg.MQ_MSGBUF_SIZE

/-- No commit finds the ring holding `retained` messages already: `n` counts the
pending messages, a read takes one away, a STOP adds one. -/
def within_retention (retained : Nat) : Nat → List mq_op → Prop
  | _, [] => True
  | n, .read _ _ _ :: ops => within_retention retained (n - 1) ops
  | n, .event I2C_SLAVE_STOP _ :: ops =>
    n + 1 ≤ retained ∧ within_retention retained (n + 1) ops
  | n, .event _ _ :: ops => within_retention retained n ops

/-- The calls of a run of write transactions, one per payload. -/
def commits : List (List Nat) → List mq_op
  | [] => []
  | p :: ps => transaction p ++ commits ps

/-- The call is a read asking for at least `c` bytes. -/
def mq_op.reads_at_least (c : Nat) : mq_op → Prop
  | .read _ _ count => c ≤ count
  | .event _ _ => False

/-- Messages as the driver commits them: at least one byte, at most the
capacity. -/
def sized (cfg : mq_config) (p : List (List Nat)) : Prop :=
  ∀ m ∈ p, 1 ≤ m.length ∧ m.length ≤ cfg.MQ_MSGBUF_SIZE

/-- The call is not the start of a write transaction. -/
def mq_op.not_start : mq_op → Prop
  | .event I2C_SLAVE_WRITE_REQUESTED _ => False
  | _ => True

/-- The store `queue[i].buf[j] = v` with its bounds checked: slot `i` has to be
one of the slots of the ring and `j` a position inside its buffer of
`MQ_MSGBUF_SIZE` bytes; a store anywhere else has no defined result. -/
def store_byte_checked (cfg : mq_config) (q : List mq_msg) (i j v : Nat) :
    Option (List mq_msg) :=
  if i < q.length ∧ j < cfg.MQ_MSGBUF_SIZE ∧ j < (slot q i).buf.length then
    some (store_byte q i j v)
  else none

/-- The slave callback `i2c_slave_mqueue_callback` once more, with each store
`msg->buf[...] = ...` bounds-checked: the result is `none` when an event stores
a byte outside the buffer of the current slot. -/
def i2c_slave_mqueue_callback_checked (cfg : mq_config) (mq : mq_queue)
    (event : i2c_slave_event) (val : Nat) : Option cb_result :=
  let msg := mq.curr
  match event with
  | I2C_SLAVE_WRITE_REQUESTED =>
    let q1 := store_len mq.queue msg 1
    (store_byte_checked cfg q1 msg 0 ((cfg.addr <<< 1) % 256)).map fun q2 =>
      ⟨0, { mq with truncated := false, queue := q2 }, val, 0⟩
  | I2C_SLAVE_WRITE_RECEIVED =>
    if (slot mq.queue msg).len < cfg.MQ_MSGBUF_SIZE then
      let l := (slot mq.queue msg).len
      let q1 := store_len mq.queue msg (l + 1)
      (store_byte_checked cfg q1 msg l val).map fun q2 =>
        ⟨0, { mq with queue := q2 }, val, 0⟩
    else
      some ⟨-EINVAL, { mq with truncated := true }, val, 0⟩
  | I2C_SLAVE_STOP =>
    if mq.truncated = true ∨ (slot mq.queue msg).len < 2 then
      some ⟨0, mq, val, 0⟩
    else
      let in1 := MQ_QUEUE_NEXT cfg mq.in_
      let q1 := store_len mq.queue in1 0
      let out1 := if mq.out = in1 then MQ_QUEUE_NEXT cfg mq.out else mq.out
      some ⟨0, { mq with in_ := in1, curr := in1, queue := q1, out := out1 }, val, 1⟩
  | _ => some ⟨0, mq, 0xFF, 0⟩

end Mqueue

/-!
# UART DMA channel set-up (`drivers/soc/aspeed/aspeed-udma.c`)

The channel request, free and control entry points of the Aspeed UDMA driver.
Registers are a map from offset to `u32` contents read with `readl` and written
with `writel`; pointers are addresses; the spin lock is not modelled. An access
to `tx_chs` or `rx_chs` outside the array has no defined result, and the
function then returns nothing (`none`).
-/

namespace Udma

/-- Modelled from the spec: the errno named `-EINVAL` in the claims; it is
declared in the errno headers, which are not among the sources, and its usual
value is taken. -/
def EINVAL : Int := 22

/-- Modelled from the spec: the errno named `-EBUSY` in the claims; it is
declared in the errno headers, which are not among the sources, and its usual
value is taken. -/
def EBUSY : Int := 16

/-- Register offset `UDMA_TX_DMA_EN`. -/
def UDMA_TX_DMA_EN : Nat := 0x000

/-- Register offset `UDMA_RX_DMA_EN`. -/
def UDMA_RX_DMA_EN : Nat := 0x004

/-- Register offset `UDMA_TX_DMA_RST`. -/
def UDMA_TX_DMA_RST : Nat := 0x020

/-- Register offset `UDMA_TX_DMA_INT_EN`. -/
def UDMA_TX_DMA_INT_EN : Nat := 0x030

/-- Register offset `UDMA_RX_DMA_INT_EN`. -/
def UDMA_RX_DMA_INT_EN : Nat := 0x038

/-- `UDMA_CHX_OFF(x)`. -/
def UDMA_CHX_OFF (x : Nat) : Nat := x * 0x20

/-- `UDMA_CHX_TX_BUF_BASE(x)`. -/
def UDMA_CHX_TX_BUF_BASE (x : Nat) : Nat := 0x048 + UDMA_CHX_OFF x

/-- `UDMA_CHX_TX_CTRL(x)`. -/
def UDMA_CHX_TX_CTRL (x : Nat) : Nat := 0x04c + UDMA_CHX_OFF x

/-- `UDMA_TX_CTRL_TMOUT_DISABLE`, that is `BIT(4)`. -/
def UDMA_TX_CTRL_TMOUT_DISABLE : Nat := 1 <<< 4

/-- `UDMA_TX_CTRL_BUFSZ_MASK`, that is `GENMASK(3, 0)`. -/
def UDMA_TX_CTRL_BUFSZ_MASK : Nat := 0xF

/-- `UDMA_TX_CTRL_BUFSZ_SHIFT`. -/
def UDMA_TX_CTRL_BUFSZ_SHIFT : Nat := 0

/-- `UDMA_CHX_RX_BUF_BASE(x)`. -/
def UDMA_CHX_RX_BUF_BASE (x : Nat) : Nat := 0x058 + UDMA_CHX_OFF x

/-- `UDMA_CHX_RX_CTRL(x)`. -/
def UDMA_CHX_RX_CTRL (x : Nat) : Nat := 0x05c + UDMA_CHX_OFF x

/-- `UDMA_RX_CTRL_TMOUT_DISABLE`, that is `BIT(4)`. -/
def UDMA_RX_CTRL_TMOUT_DISABLE : Nat := 1 <<< 4

/-- `UDMA_RX_CTRL_BUFSZ_MASK`, that is `GENMASK(3, 0)`. -/
def UDMA_RX_CTRL_BUFSZ_MASK : Nat := 0xF

/-- `UDMA_RX_CTRL_BUFSZ_SHIFT`. -/
def UDMA_RX_CTRL_BUFSZ_SHIFT : Nat := 0

/-- `UDMA_MAX_CHANNEL`. -/
def UDMA_MAX_CHANNEL : Nat := 14

/-- One channel descriptor, `struct aspeed_udma_chan`; pointers are
addresses. -/
structure aspeed_udma_chan where
  dma_addr : Nat
  rb : Nat
  rb_sz : Nat
  cb : Nat
  cb_arg : Nat
  dis_tmout : Bool
deriving DecidableEq, Repr

/-- The engine, `struct aspeed_udma`: the register file behind `regs` and the
two arrays of `UDMA_MAX_CHANNEL` channel descriptors (`dev`, `irq` and `lock`
play no part here). -/
structure aspeed_udma where
  regs : Nat → Nat
  tx_chs : List aspeed_udma_chan
  rx_chs : List aspeed_udma_chan

/-- The engine as the static `struct aspeed_udma udma[1]` starts out: all
zero. -/
def udma_zero : aspeed_udma :=
  { regs := fun _ => 0
    tx_chs := List.replicate UDMA_MAX_CHANNEL ⟨0, 0, 0, 0, 0, false⟩
    rx_chs := List.replicate UDMA_MAX_CHANNEL ⟨0, 0, 0, 0, 0, false⟩ }

/-- `readl(udma->regs + off)`. -/
def readl (u : aspeed_udma) (off : Nat) : Nat := u.regs off

/-- `writel(v, udma->regs + off)`; the value is a `u32`. -/
def writel (u : aspeed_udma) (v off : Nat) : aspeed_udma :=
  { u with regs := fun o => if o = off then v % 2 ^ 32 else u.regs o }

/-- The size code `aspeed_udma_get_bufsz_code`; the codes are the values of
`enum aspeed_udma_bufsz_code`, 0 to 11, and -1 stands for an unsupported
size. -/
def aspeed_udma_get_bufsz_code (buf_sz : Nat) : Int :=
  if buf_sz = 0x400 then 0
  else if buf_sz = 0x1000 then 1
  else if buf_sz = 0x4000 then 2
  else if buf_sz = 0x10000 then 3
  else if buf_sz = 0x20000 then 4
  else if buf_sz = 0x40000 then 5
  else if buf_sz = 0x80000 then 6
  else if buf_sz = 0x100000 then 7
  else if buf_sz = 0x200000 then 8
  else if buf_sz = 0x400000 then 9
  else if buf_sz = 0x800000 then 10
  else if buf_sz = 0x1000000 then 11
  else -1

/-- The store of a channel descriptor at `chs[ch_no]`; outside the array it has
no defined result. -/
def chan_store (chs : List aspeed_udma_chan) (ch_no : Nat) (c : aspeed_udma_chan) :
    Option (List aspeed_udma_chan) :=
  if ch_no < chs.length then some (chs.set ch_no c) else none

/-- The body of `aspeed_udma_request_chan` up to the label `out`: the value of
`retval` there and the engine. `rb_bad` and `buf_bad` are the outcomes of
`IS_ERR_OR_NULL(rb)` and `IS_ERR_OR_NULL(rb->buf)`. -/
def aspeed_udma_request_chan_retval (u : aspeed_udma) (ch_no addr rb : Nat)
    (rb_bad buf_bad : Bool) (rb_sz cb id : Nat) (dis_tmout is_tx : Bool) :
    Option (Int × aspeed_udma) :=
  if ch_no > UDMA_MAX_CHANNEL then some (-EINVAL, u)
  else if rb_bad || buf_bad then some (-EINVAL, u)
  else
    let rbsz_code := aspeed_udma_get_bufsz_code rb_sz
    if rbsz_code < 0 then some (-EINVAL, u)
    else if is_tx then
      let reg := readl u UDMA_TX_DMA_INT_EN
      if reg &&& (0x1 <<< ch_no) ≠ 0 then some (-EBUSY, u)
      else
        let reg := reg ||| (0x1 <<< ch_no)
        let u1 := writel u reg UDMA_TX_DMA_INT_EN
        let reg := readl u1 (UDMA_CHX_TX_CTRL ch_no)
        let reg := reg ||| (if dis_tmout then UDMA_TX_CTRL_TMOUT_DISABLE else 0)
        let reg := reg |||
          ((rbsz_code.toNat <<< UDMA_TX_CTRL_BUFSZ_SHIFT) &&& UDMA_TX_CTRL_BUFSZ_MASK)
        let u2 := writel u1 reg (UDMA_CHX_TX_CTRL ch_no)
        let u3 := writel u2 addr (UDMA_CHX_TX_BUF_BASE ch_no)
        (chan_store u3.tx_chs ch_no ⟨addr, rb, rb_sz, cb, id, dis_tmout⟩).map
          fun chs => (0, { u3 with tx_chs := chs })
    else
      let reg := readl u UDMA_RX_DMA_INT_EN
      if reg &&& (0x1 <<< ch_no) ≠ 0 then some (-EBUSY, u)
      else
        let reg := reg ||| (0x1 <<< ch_no)
        let u1 := writel u reg UDMA_RX_DMA_INT_EN
        let reg := readl u1 (UDMA_CHX_RX_CTRL ch_no)
        let reg := reg ||| (if dis_tmout then UDMA_RX_CTRL_TMOUT_DISABLE else 0)
        let reg := reg |||
          ((rbsz_code.toNat <<< UDMA_RX_CTRL_BUFSZ_SHIFT) &&& UDMA_RX_CTRL_BUFSZ_MASK)
        let u2 := writel u1 reg (UDMA_CHX_RX_CTRL ch_no)
        let u3 := writel u2 addr (UDMA_CHX_RX_BUF_BASE ch_no)
        (chan_store u3.rx_chs ch_no ⟨addr, rb, rb_sz, cb, id, dis_tmout⟩).map
          fun chs => (0, { u3 with rx_chs := chs })

/-- The channel request `aspeed_udma_request_chan`: the body, then
`out: return 0;`. -/
def aspeed_udma_request_chan (u : aspeed_udma) (ch_no addr rb : Nat)
    (rb_bad buf_bad : Bool) (rb_sz cb id : Nat) (dis_tmout is_tx : Bool) :
    Option (Int × aspeed_udma) :=
  (aspeed_udma_request_chan_retval u ch_no addr rb rb_bad buf_bad rb_sz cb id dis_tmout
    is_tx).map fun p => (0, p.2)

/-- The channel release `aspeed_udma_free_chan`. -/
def aspeed_udma_free_chan (u : aspeed_udma) (ch_no : Nat) (is_tx : Bool) : Int × aspeed_udma :=
  if ch_no > UDMA_MAX_CHANNEL then (-EINVAL, u)
  else
    let off := if is_tx then UDMA_TX_DMA_INT_EN else UDMA_RX_DMA_INT_EN
    let reg := readl u off
    let reg := reg &&& (0xffffffff ^^^ (0x1 <<< ch_no))
    (0, writel u reg off)

/-- Modelled from the spec: the values of `enum aspeed_udma_ops`, declared in
`linux/soc/aspeed/aspeed-udma.h`, which is not among the sources; they are taken
as given. -/
structure aspeed_udma_ops where
  ASPEED_UDMA_OP_ENABLE : Nat
  ASPEED_UDMA_OP_DISABLE : Nat
  ASPEED_UDMA_OP_RESET : Nat
deriving DecidableEq, Repr

/-- The channel control `aspeed_udma_chan_ctrl`. -/
def aspeed_udma_chan_ctrl (ops : aspeed_udma_ops) (u : aspeed_udma) (ch_no op : Nat)
    (is_tx : Bool) : aspeed_udma :=
  let reg_en_off := if is_tx then UDMA_TX_DMA_EN else UDMA_RX_DMA_EN
  let reg_rst_off := if is_tx then UDMA_TX_DMA_RST else UDMA_TX_DMA_RST
  if ch_no > UDMA_MAX_CHANNEL then u
  else
    let reg_en := readl u reg_en_off
    let reg_rst := readl u reg_rst_off
    if op = ops.ASPEED_UDMA_OP_ENABLE then
      writel u (reg_en ||| (0x1 <<< ch_no)) reg_en_off
    else if op = ops.ASPEED_UDMA_OP_DISABLE then
      writel u (reg_en &&& (0xffffffff ^^^ (0x1 <<< ch_no))) reg_en_off
    else if op = ops.ASPEED_UDMA_OP_RESET then
      let u1 := writel u (reg_en &&& (0xffffffff ^^^ (0x1 <<< ch_no))) reg_en_off
      let reg_rst := reg_rst ||| (0x1 <<< ch_no)
      let u2 := writel u1 reg_rst reg_rst_off
      let reg_rst := reg_rst &&& (0xffffffff ^^^ (0x1 <<< ch_no))
      writel u2 reg_rst reg_rst_off
    else u

end Udma

namespace Mqueue
open i2c_slave_event

/-! ## Basic facts -/

theorem MQ_QUEUE_NEXT_eq_mod (cfg : mq_config) (k x : Nat) (hN : cfg.MQ_QUEUE_SIZE = 2 ^ k) :
    MQ_QUEUE_NEXT cfg x = (x + 1) % cfg.MQ_QUEUE_SIZE := by
  unfold MQ_QUEUE_NEXT
  rw [hN, Nat.and_pow_two_sub_one_eq_mod]

theorem MQ_QUEUE_NEXT_lt (cfg : mq_config) (x : Nat) (hN : 0 < cfg.MQ_QUEUE_SIZE) :
    MQ_QUEUE_NEXT cfg x < cfg.MQ_QUEUE_SIZE := by
  unfold MQ_QUEUE_NEXT
  have := @Nat.and_le_right (x + 1) (cfg.MQ_QUEUE_SIZE - 1)
  omega

theorem slot_set (q : List mq_msg) (i j : Nat) (a : mq_msg) :
    slot (q.set i a) j = if i = j ∧ i < q.length then a else slot q j := by
  unfold slot
  by_cases h : i = j
  · subst h
    by_cases hl : i < q.length
    · simp [List.getD_eq_getElem?_getD, hl]
    · simp [List.getD_eq_getElem?_getD, hl]
      rw [List.set_eq_of_length_le (by omega)]
  · simp [List.getD_eq_getElem?_getD, h, List.getElem?_set_ne h]

theorem slot_store_len (q : List mq_msg) (i n j : Nat) :
    slot (store_len q i n) j =
      if i = j ∧ i < q.length then { slot q i with len := n } else slot q j := by
  unfold store_len; exact slot_set _ _ _ _

theorem slot_store_byte (q : List mq_msg) (i b v j : Nat) :
    slot (store_byte q i b v) j =
      if i = j ∧ i < q.length then { slot q i with buf := (slot q i).buf.set b v }
      else slot q j := by
  unfold store_byte; exact slot_set _ _ _ _

theorem length_store_len (q : List mq_msg) (i n : Nat) :
    (store_len q i n).length = q.length := by
  unfold store_len; simp

theorem length_store_byte (q : List mq_msg) (i b v : Nat) :
    (store_byte q i b v).length = q.length := by
  unfold store_byte; simp

theorem WF_probe (cfg : mq_config) (heap : Nat → Nat) (hN : 0 < cfg.MQ_QUEUE_SIZE) :
    WF cfg (i2c_slave_mqueue_probe cfg heap) := by
  refine ⟨?_, hN, hN, rfl, ?_, ?_⟩
  · simp [i2c_slave_mqueue_probe]
  · intro i hi
    simp [i2c_slave_mqueue_probe, slot, List.getD_eq_getElem?_getD, hi]
  · intro i hi
    simp [i2c_slave_mqueue_probe, slot, List.getD_eq_getElem?_getD, hi]

/-- Writing a length within the buffer keeps the slots well-formed. -/
theorem slots_store_len (cfg : mq_config) (q : List mq_msg) (c n : Nat)
    (hn : n ≤ cfg.MQ_MSGBUF_SIZE)
    (h5 : ∀ i, i < cfg.MQ_QUEUE_SIZE → (slot q i).buf.length = cfg.MQ_MSGBUF_SIZE)
    (h6 : ∀ i, i < cfg.MQ_QUEUE_SIZE → (slot q i).len ≤ cfg.MQ_MSGBUF_SIZE)
    (hc : c < cfg.MQ_QUEUE_SIZE) :
    (∀ i, i < cfg.MQ_QUEUE_SIZE → (slot (store_len q c n) i).buf.length = cfg.MQ_MSGBUF_SIZE) ∧
    (∀ i, i < cfg.MQ_QUEUE_SIZE → (slot (store_len q c n) i).len ≤ cfg.MQ_MSGBUF_SIZE) := by
  constructor
  · intro i hi
    rw [slot_store_len]
    split_ifs
    · exact h5 c hc
    · exact h5 i hi
  · intro i hi
    rw [slot_store_len]
    split_ifs
    · exact hn
    · exact h6 i hi

/-- Writing a byte keeps the slots well-formed. -/
theorem slots_store_byte (cfg : mq_config) (q : List mq_msg) (c j v : Nat)
    (h5 : ∀ i, i < cfg.MQ_QUEUE_SIZE → (slot q i).buf.length = cfg.MQ_MSGBUF_SIZE)
    (h6 : ∀ i, i < cfg.MQ_QUEUE_SIZE → (slot q i).len ≤ cfg.MQ_MSGBUF_SIZE)
    (hc : c < cfg.MQ_QUEUE_SIZE) :
    (∀ i, i < cfg.MQ_QUEUE_SIZE → (slot (store_byte q c j v) i).buf.length = cfg.MQ_MSGBUF_SIZE) ∧
    (∀ i, i < cfg.MQ_QUEUE_SIZE → (slot (store_byte q c j v) i).len ≤ cfg.MQ_MSGBUF_SIZE) := by
  constructor
  · intro i hi
    rw [slot_store_byte]
    split_ifs
    · simpa using h5 c hc
    · exact h5 i hi
  · intro i hi
    rw [slot_store_byte]
    split_ifs
    · exact h6 c hc
    · exact h6 i hi

theorem WF_callback (cfg : mq_config) (mq : mq_queue) (e : i2c_slave_event) (v : Nat)
    (hN : 0 < cfg.MQ_QUEUE_SIZE) (hcap : 1 ≤ cfg.MQ_MSGBUF_SIZE) (h : WF cfg mq) :
    WF cfg (i2c_slave_mqueue_callback cfg mq e v).mq := by
  obtain ⟨h1, h2, h3, h4, h5, h6⟩ := h
  have hc : mq.curr < cfg.MQ_QUEUE_SIZE := h4 ▸ h2
  cases e
  · exact ⟨h1, h2, h3, h4, h5, h6⟩
  · have a := slots_store_len cfg mq.queue mq.curr 1 hcap h5 h6 hc
    have b := slots_store_byte cfg _ mq.curr 0 ((cfg.addr <<< 1) % 256) a.1 a.2 hc
    exact ⟨by simp [i2c_slave_mqueue_callback, length_store_byte, length_store_len, h1],
      h2, h3, h4, b.1, b.2⟩
  · exact ⟨h1, h2, h3, h4, h5, h6⟩
  · simp only [i2c_slave_mqueue_callback]
    split_ifs with hlt
    · have a := slots_store_len cfg mq.queue mq.curr ((slot mq.queue mq.curr).len + 1)
        hlt h5 h6 hc
      have b := slots_store_byte cfg _ mq.curr (slot mq.queue mq.curr).len v a.1 a.2 hc
      exact ⟨by simp [length_store_byte, length_store_len, h1], h2, h3, h4, b.1, b.2⟩
    · exact ⟨h1, h2, h3, h4, h5, h6⟩
  · simp only [i2c_slave_mqueue_callback]
    have hn := MQ_QUEUE_NEXT_lt cfg mq.in_ hN
    have ho := MQ_QUEUE_NEXT_lt cfg mq.out hN
    have a := slots_store_len cfg mq.queue (MQ_QUEUE_NEXT cfg mq.in_) 0 (Nat.zero_le _) h5 h6 hn
    split_ifs with hd ho1
    · exact ⟨h1, h2, h3, h4, h5, h6⟩
    · exact ⟨by simp [length_store_len, h1], hn, ho, rfl, a.1, a.2⟩
    · exact ⟨by simp [length_store_len, h1], hn, h3, rfl, a.1, a.2⟩

theorem WF_bin_read (cfg : mq_config) (mq : mq_queue) (buf : List Nat) (pos count : Nat)
    (hN : 0 < cfg.MQ_QUEUE_SIZE) (h : WF cfg mq) :
    WF cfg (i2c_slave_mqueue_bin_read cfg mq buf pos count).mq := by
  obtain ⟨h1, h2, h3, h4, h5, h6⟩ := h
  have ho := MQ_QUEUE_NEXT_lt cfg mq.out hN
  simp only [i2c_slave_mqueue_bin_read]
  split_ifs <;> first
    | exact ⟨h1, h2, ho, h4, h5, h6⟩
    | exact ⟨h1, h2, h3, h4, h5, h6⟩

theorem WF_of_Reachable (cfg : mq_config) (mq : mq_queue)
    (hN : 0 < cfg.MQ_QUEUE_SIZE) (hcap : 1 ≤ cfg.MQ_MSGBUF_SIZE) (h : Reachable cfg mq) :
    WF cfg mq := by
  induction h with
  | probe heap => exact WF_probe cfg heap hN
  | event mq e v _ ih => exact WF_callback cfg mq e v hN hcap ih
  | read mq buf pos count _ ih => exact WF_bin_read cfg mq buf pos count hN ih

theorem succ_mod_cases (N x : Nat) (hx : x < N) :
    (x + 1) % N = if x + 1 < N then x + 1 else 0 := by
  split_ifs with h
  · exact Nat.mod_eq_of_lt h
  · have : x + 1 = N := by omega
    rw [this, Nat.mod_self]

theorem sub_mod_cases (N a b : Nat) (ha : a < N) (hb : b < N) :
    (a + N - b) % N = if b ≤ a then a - b else a + N - b := by
  split_ifs with h
  · have : a + N - b = (a - b) + N := by omega
    rw [this, Nat.add_mod_right, Nat.mod_eq_of_lt (by omega)]
  · exact Nat.mod_eq_of_lt (by omega)

theorem add_mod_cases (N o i : Nat) (ho : o < N) (hi : i < N) :
    (o + i) % N = if o + i < N then o + i else o + i - N := by
  split_ifs with h
  · exact Nat.mod_eq_of_lt h
  · rw [Nat.mod_eq_sub_mod (by omega), Nat.mod_eq_of_lt (by omega)]

theorem message_length (cfg : mq_config) (mq : mq_queue) (h : WF cfg mq) (i : Nat)
    (hi : i < cfg.MQ_QUEUE_SIZE) :
    (message (slot mq.queue i)).length = (slot mq.queue i).len := by
  have a := h.buf_len i hi
  have b := h.len_le i hi
  simp [message, List.length_take]
  omega

theorem pending_length (cfg : mq_config) (mq : mq_queue) :
    (pending cfg mq).length = pending_count cfg mq := by
  simp [pending]

theorem pending_count_lt (cfg : mq_config) (mq : mq_queue) (hN : 0 < cfg.MQ_QUEUE_SIZE) :
    pending_count cfg mq < cfg.MQ_QUEUE_SIZE :=
  Nat.mod_lt _ hN

theorem pending_count_eq_zero_iff (cfg : mq_config) (mq : mq_queue) (h : WF cfg mq) :
    pending_count cfg mq = 0 ↔ mq.out = mq.in_ := by
  have a := h.in_lt
  have b := h.out_lt
  unfold pending_count
  rw [sub_mod_cases _ _ _ a b]
  split_ifs <;> omega

theorem pending_of_empty (cfg : mq_config) (mq : mq_queue) (h : WF cfg mq)
    (he : mq.out = mq.in_) : pending cfg mq = [] := by
  have := (pending_count_eq_zero_iff cfg mq h).2 he
  simp [pending, this]

theorem pending_count_advance (cfg : mq_config) (mq : mq_queue) (k : Nat)
    (hN : cfg.MQ_QUEUE_SIZE = 2 ^ k) (h : WF cfg mq) (hne : mq.out ≠ mq.in_) :
    pending_count cfg mq =
      pending_count cfg { mq with out := MQ_QUEUE_NEXT cfg mq.out } + 1 := by
  have a := h.in_lt
  have b := h.out_lt
  have c : (mq.out + 1) % cfg.MQ_QUEUE_SIZE < cfg.MQ_QUEUE_SIZE := Nat.mod_lt _ (by omega)
  unfold pending_count
  simp only [MQ_QUEUE_NEXT_eq_mod cfg k _ hN]
  rw [sub_mod_cases _ _ _ a b, sub_mod_cases _ _ _ a c, succ_mod_cases _ _ b]
  split_ifs <;> omega

theorem pending_advance (cfg : mq_config) (mq : mq_queue) (k : Nat)
    (hN : cfg.MQ_QUEUE_SIZE = 2 ^ k) (h : WF cfg mq) (hne : mq.out ≠ mq.in_) :
    pending cfg mq = message (slot mq.queue mq.out) ::
      pending cfg { mq with out := MQ_QUEUE_NEXT cfg mq.out } := by
  have b := h.out_lt
  unfold pending
  rw [pending_count_advance cfg mq k hN h hne, List.range_succ_eq_map]
  simp only [List.map_cons, List.map_map, Nat.add_zero, Nat.mod_eq_of_lt b]
  congr 1
  apply List.map_congr_left
  intro i _
  simp only [Function.comp, MQ_QUEUE_NEXT_eq_mod cfg k _ hN, Nat.mod_add_mod]
  congr 3
  omega

theorem sim_read (cfg : mq_config) (mq : mq_queue) (k : Nat) (buf : List Nat) (pos count : Nat)
    (hN : cfg.MQ_QUEUE_SIZE = 2 ^ k) (h : WF cfg mq) :
    fifo_step cfg (abs cfg mq) (.read buf pos count) =
      (abs cfg (step cfg mq (.read buf pos count)).1, (step cfg mq (.read buf pos count)).2) := by
  have hpos : 0 < cfg.MQ_QUEUE_SIZE := by rw [hN]; positivity
  by_cases he : mq.out = mq.in_
  · simp [fifo_step, abs, step, i2c_slave_mqueue_bin_read, he, pending_of_empty cfg mq h he]
  · have hm := message_length cfg mq h mq.out h.out_lt
    have hadv := pending_advance cfg mq k hN h he
    have hwf := WF_bin_read cfg mq buf pos count hpos h
    have hz := pending_count_eq_zero_iff cfg _ hwf
    simp only [i2c_slave_mqueue_bin_read, he, ne_eq, not_false_eq_true, if_true] at hwf hz
    have hmore : (pending cfg { mq with out := MQ_QUEUE_NEXT cfg mq.out } = []) ↔
        MQ_QUEUE_NEXT cfg mq.out = mq.in_ := by
      rw [← List.length_eq_zero, pending_length]
      split_ifs at hz <;> simpa using hz
    simp only [fifo_step, abs, step, i2c_slave_mqueue_bin_read, he, hadv, hm, ne_eq,
      not_false_eq_true, if_true]
    by_cases hc : (slot mq.queue mq.out).len ≤ count
    · simp only [hc, if_true, hmore, memcpy, message]
      split_ifs <;> simp_all
    · simp only [hc, if_false, hmore]
      split_ifs <;> simp_all

theorem take_succ_set (l : List Nat) (n v : Nat) (h : n < l.length) :
    (l.set n v).take (n + 1) = l.take n ++ [v] := by
  induction l generalizing n with
  | nil => simp at h
  | cons a t ih =>
    cases n with
    | zero => simp
    | succ m =>
      simp only [List.length_cons, Nat.add_lt_add_iff_right] at h
      simp [ih m h]

theorem idx_ne_in (cfg : mq_config) (mq : mq_queue) (h : WF cfg mq) (i : Nat)
    (hi : i < pending_count cfg mq) :
    (mq.out + i) % cfg.MQ_QUEUE_SIZE ≠ mq.in_ := by
  have a := h.in_lt
  have b := h.out_lt
  have c := pending_count_lt cfg mq (by omega)
  unfold pending_count at hi c
  rw [sub_mod_cases _ _ _ a b] at hi c
  rw [add_mod_cases _ _ _ b (by omega)]
  split_ifs at hi c ⊢ <;> omega

theorem idx_count_eq_in (cfg : mq_config) (mq : mq_queue) (h : WF cfg mq) :
    (mq.out + pending_count cfg mq) % cfg.MQ_QUEUE_SIZE = mq.in_ := by
  have a := h.in_lt
  have b := h.out_lt
  have c := pending_count_lt cfg mq (by omega)
  unfold pending_count at c ⊢
  rw [sub_mod_cases _ _ _ a b] at c ⊢
  rw [add_mod_cases _ _ _ b c]
  split_ifs at c ⊢ <;> omega

/-- Pending messages only depend on the indices and on the slots other than the
one at the write index. -/
theorem pending_congr (cfg : mq_config) (mq mq1 : mq_queue) (h : WF cfg mq)
    (hin : mq1.in_ = mq.in_) (hout : mq1.out = mq.out)
    (hq : ∀ j, j ≠ mq.in_ → slot mq1.queue j = slot mq.queue j) :
    pending cfg mq1 = pending cfg mq := by
  have hc : pending_count cfg mq1 = pending_count cfg mq := by
    simp [pending_count, hin, hout]
  unfold pending
  rw [hc, hout]
  apply List.map_congr_left
  intro i hi
  rw [hq _ (idx_ne_in cfg mq h i (by simpa using hi))]

theorem pending_snoc (cfg : mq_config) (mq : mq_queue) (h : WF cfg mq) :
    pending cfg mq ++ [message (slot mq.queue mq.in_)] =
      (List.range (pending_count cfg mq + 1)).map fun i =>
        message (slot mq.queue ((mq.out + i) % cfg.MQ_QUEUE_SIZE)) := by
  rw [List.range_succ, List.map_append]
  simp [pending, idx_count_eq_in cfg mq h]

theorem pending_commit (cfg : mq_config) (mq : mq_queue) (k : Nat)
    (hN : cfg.MQ_QUEUE_SIZE = 2 ^ k) (h : WF cfg mq) :
    pending cfg { mq with
        in_ := MQ_QUEUE_NEXT cfg mq.in_
        curr := MQ_QUEUE_NEXT cfg mq.in_
        queue := store_len mq.queue (MQ_QUEUE_NEXT cfg mq.in_) 0
        out := if mq.out = MQ_QUEUE_NEXT cfg mq.in_ then MQ_QUEUE_NEXT cfg mq.out else mq.out } =
      keep_last (cfg.MQ_QUEUE_SIZE - 1) (pending cfg mq ++ [message (slot mq.queue mq.in_)]) := by
  have a := h.in_lt
  have b := h.out_lt
  have hpos : 0 < cfg.MQ_QUEUE_SIZE := by omega
  have c := pending_count_lt cfg mq hpos
  have hc := c
  unfold pending_count at hc
  rw [sub_mod_cases _ _ _ a b] at hc
  have hcnt : pending_count cfg mq =
      if mq.out ≤ mq.in_ then mq.in_ - mq.out else mq.in_ + cfg.MQ_QUEUE_SIZE - mq.out := by
    unfold pending_count
    rw [sub_mod_cases _ _ _ a b]
  have hni : MQ_QUEUE_NEXT cfg mq.in_ < cfg.MQ_QUEUE_SIZE := MQ_QUEUE_NEXT_lt cfg _ hpos
  have hno : MQ_QUEUE_NEXT cfg mq.out < cfg.MQ_QUEUE_SIZE := MQ_QUEUE_NEXT_lt cfg _ hpos
  have eni := MQ_QUEUE_NEXT_eq_mod cfg k mq.in_ hN
  have eno := MQ_QUEUE_NEXT_eq_mod cfg k mq.out hN
  rw [succ_mod_cases _ _ a] at eni
  rw [succ_mod_cases _ _ b] at eno
  rw [pending_snoc cfg mq h]
  by_cases hev : mq.out = MQ_QUEUE_NEXT cfg mq.in_
  · rw [if_pos hev]
    have h1 : pending_count cfg mq + 1 = (cfg.MQ_QUEUE_SIZE - 1) + 1 := by
      rw [hcnt]; split_ifs at eni ⊢ <;> omega
    have h2 : (MQ_QUEUE_NEXT cfg mq.in_ + cfg.MQ_QUEUE_SIZE - MQ_QUEUE_NEXT cfg mq.out)
        % cfg.MQ_QUEUE_SIZE = cfg.MQ_QUEUE_SIZE - 1 := by
      rw [sub_mod_cases _ _ _ hni hno]
      split_ifs at eni eno ⊢ <;> omega
    have h3 : cfg.MQ_QUEUE_SIZE - 1 + 1 - (cfg.MQ_QUEUE_SIZE - 1) = 1 := by omega
    unfold keep_last
    simp only [List.length_map, List.length_range]
    rw [h1, h3, List.range_succ_eq_map]
    unfold pending pending_count
    simp only [h2]
    simp only [List.map_cons, List.map_map, List.drop_succ_cons, List.drop_zero]
    apply List.map_congr_left
    intro i hi
    have hi' : i < cfg.MQ_QUEUE_SIZE - 1 := by simpa using hi
    simp only [Function.comp]
    have e1 : (MQ_QUEUE_NEXT cfg mq.out + i) % cfg.MQ_QUEUE_SIZE
        = (mq.out + (i + 1)) % cfg.MQ_QUEUE_SIZE := by
      rw [MQ_QUEUE_NEXT_eq_mod cfg k _ hN, Nat.mod_add_mod]
      congr 1; omega
    rw [e1, slot_store_len, if_neg]
    rintro ⟨e2, -⟩
    rw [add_mod_cases _ _ _ b (by omega)] at e2
    split_ifs at e2 <;> omega
  · rw [if_neg hev]
    have h1 : pending_count cfg mq + 1 ≤ cfg.MQ_QUEUE_SIZE - 1 := by
      rw [hcnt]; split_ifs at eni ⊢ <;> omega
    have h2 : (MQ_QUEUE_NEXT cfg mq.in_ + cfg.MQ_QUEUE_SIZE - mq.out)
        % cfg.MQ_QUEUE_SIZE = pending_count cfg mq + 1 := by
      rw [sub_mod_cases _ _ _ hni b, hcnt]
      split_ifs at eni ⊢ <;> omega
    unfold keep_last
    simp only [List.length_map, List.length_range]
    have h3 : pending_count cfg mq + 1 - (cfg.MQ_QUEUE_SIZE - 1) = 0 := by omega
    rw [h3, List.drop_zero]
    unfold pending
    have h4 : pending_count cfg { mq with
        in_ := MQ_QUEUE_NEXT cfg mq.in_
        curr := MQ_QUEUE_NEXT cfg mq.in_
        queue := store_len mq.queue (MQ_QUEUE_NEXT cfg mq.in_) 0 } = pending_count cfg mq + 1 := h2
    rw [h4]
    apply List.map_congr_left
    intro i hi
    have hi' : i < pending_count cfg mq + 1 := by simpa using hi
    simp only
    rw [slot_store_len, if_neg]
    rintro ⟨e2, -⟩
    rw [add_mod_cases _ _ _ b (by omega)] at e2
    rw [hcnt] at hi'
    split_ifs at e2 eni hi' <;> omega

theorem sim_event (cfg : mq_config) (mq : mq_queue) (k : Nat) (e : i2c_slave_event) (v : Nat)
    (hN : cfg.MQ_QUEUE_SIZE = 2 ^ k) (hcap : 1 ≤ cfg.MQ_MSGBUF_SIZE) (h : WF cfg mq) :
    fifo_step cfg (abs cfg mq) (.event e v) =
      (abs cfg (step cfg mq (.event e v)).1, (step cfg mq (.event e v)).2) := by
  have hc : mq.curr < cfg.MQ_QUEUE_SIZE := h.curr_eq ▸ h.in_lt
  have hcl : mq.curr < mq.queue.length := h.qlen ▸ hc
  have hm := message_length cfg mq h mq.curr hc
  have hb := h.buf_len mq.curr hc
  cases e
  · simp [fifo_step, step, i2c_slave_mqueue_callback]
  · have hp : pending cfg (i2c_slave_mqueue_callback cfg mq I2C_SLAVE_WRITE_REQUESTED v).mq
        = pending cfg mq := by
      refine pending_congr cfg mq _ h rfl rfl ?_
      intro j hj
      have : ¬ (mq.curr = j) := fun e => hj (e ▸ h.curr_eq)
      simp [i2c_slave_mqueue_callback, slot_store_byte, slot_store_len, this]
    have hcur : message (slot
        (i2c_slave_mqueue_callback cfg mq I2C_SLAVE_WRITE_REQUESTED v).mq.queue mq.curr)
        = [header cfg] := by
      simp only [i2c_slave_mqueue_callback, slot_store_byte, slot_store_len, length_store_len,
        hcl, and_self, if_true, message, header]
      cases hbuf : (slot mq.queue mq.curr).buf with
      | nil => rw [hbuf] at hb; simp at hb; omega
      | cons x t => simp
    simp only [fifo_step, step, abs]
    rw [hp]
    have hcu : (i2c_slave_mqueue_callback cfg mq I2C_SLAVE_WRITE_REQUESTED v).mq.curr
        = mq.curr := rfl
    rw [hcu, hcur]
    rfl
  · simp [fifo_step, step, i2c_slave_mqueue_callback]
  · by_cases hlt : (slot mq.queue mq.curr).len < cfg.MQ_MSGBUF_SIZE
    · have hp : pending cfg (i2c_slave_mqueue_callback cfg mq I2C_SLAVE_WRITE_RECEIVED v).mq
          = pending cfg mq := by
        refine pending_congr cfg mq _ h ?_ ?_ ?_
        · simp only [i2c_slave_mqueue_callback, hlt, if_true]
        · simp only [i2c_slave_mqueue_callback, hlt, if_true]
        intro j hj
        have : ¬ (mq.curr = j) := fun e => hj (e ▸ h.curr_eq)
        simp [i2c_slave_mqueue_callback, hlt, slot_store_byte, slot_store_len, this]
      have hcur : message (slot
          (i2c_slave_mqueue_callback cfg mq I2C_SLAVE_WRITE_RECEIVED v).mq.queue mq.curr)
          = message (slot mq.queue mq.curr) ++ [v] := by
        simp only [i2c_slave_mqueue_callback, hlt, if_true, slot_store_byte, slot_store_len,
          length_store_len, hcl, and_self, message]
        exact take_succ_set _ _ _ (by omega)
      have hcu : (i2c_slave_mqueue_callback cfg mq I2C_SLAVE_WRITE_RECEIVED v).mq.curr
          = mq.curr := by
        simp only [i2c_slave_mqueue_callback, hlt, if_true]
      simp only [fifo_step, step, abs, hm, hlt, if_true]
      rw [hp, hcu, hcur]
      simp [i2c_slave_mqueue_callback, hlt]
    · simp only [fifo_step, step, i2c_slave_mqueue_callback, abs, hm, hlt, if_false]
      rfl
  · simp only [fifo_step, step, i2c_slave_mqueue_callback, abs, hm]
    by_cases hd : mq.truncated = true ∨ (slot mq.queue mq.curr).len < 2
    · simp only [hd, if_true]
    · simp only [hd, if_false]
      have hpos : 0 < cfg.MQ_QUEUE_SIZE := by omega
      have hni : MQ_QUEUE_NEXT cfg mq.in_ < mq.queue.length :=
        h.qlen ▸ MQ_QUEUE_NEXT_lt cfg _ hpos
      have hcur : message (slot (store_len mq.queue (MQ_QUEUE_NEXT cfg mq.in_) 0)
          (MQ_QUEUE_NEXT cfg mq.in_)) = [] := by
        simp [slot_store_len, hni, message]
      rw [pending_commit cfg mq k hN h, hcur, h.curr_eq]

theorem WF_step (cfg : mq_config) (mq : mq_queue) (op : mq_op)
    (hN : 0 < cfg.MQ_QUEUE_SIZE) (hcap : 1 ≤ cfg.MQ_MSGBUF_SIZE) (h : WF cfg mq) :
    WF cfg (step cfg mq op).1 := by
  cases op with
  | event e v => exact WF_callback cfg mq e v hN hcap h
  | read buf pos count => exact WF_bin_read cfg mq buf pos count hN h

theorem sim_step (cfg : mq_config) (mq : mq_queue) (k : Nat) (op : mq_op)
    (hN : cfg.MQ_QUEUE_SIZE = 2 ^ k) (hcap : 1 ≤ cfg.MQ_MSGBUF_SIZE) (h : WF cfg mq) :
    fifo_step cfg (abs cfg mq) op = (abs cfg (step cfg mq op).1, (step cfg mq op).2) := by
  cases op with
  | event e v => exact sim_event cfg mq k e v hN hcap h
  | read buf pos count => exact sim_read cfg mq k buf pos count hN h

theorem WF_run (cfg : mq_config) (mq : mq_queue) (ops : List mq_op)
    (hN : 0 < cfg.MQ_QUEUE_SIZE) (hcap : 1 ≤ cfg.MQ_MSGBUF_SIZE) (h : WF cfg mq) :
    WF cfg (run cfg mq ops).1 := by
  induction ops generalizing mq with
  | nil => exact h
  | cons op ops ih => exact ih _ (WF_step cfg mq op hN hcap h)

/-- The driver and the abstract view produce the same observations, and end in
matching states. -/
theorem sim_run (cfg : mq_config) (mq : mq_queue) (k : Nat) (ops : List mq_op)
    (hN : cfg.MQ_QUEUE_SIZE = 2 ^ k) (hcap : 1 ≤ cfg.MQ_MSGBUF_SIZE) (h : WF cfg mq) :
    fifo_run cfg (abs cfg mq) ops = (abs cfg (run cfg mq ops).1, (run cfg mq ops).2) := by
  have hpos : 0 < cfg.MQ_QUEUE_SIZE := by rw [hN]; positivity
  induction ops generalizing mq with
  | nil => rfl
  | cons op ops ih =>
    simp only [fifo_run, run]
    rw [sim_step cfg mq k op hN hcap h]
    simp only [ih _ (WF_step cfg mq op hpos hcap h)]

theorem run_append (cfg : mq_config) (mq : mq_queue) (o1 o2 : List mq_op) :
    run cfg mq (o1 ++ o2) =
      ((run cfg (run cfg mq o1).1 o2).1, (run cfg mq o1).2 ++ (run cfg (run cfg mq o1).1 o2).2) := by
  induction o1 generalizing mq with
  | nil => rfl
  | cons op ops ih =>
    rw [List.cons_append]
    simp only [run]
    rw [ih]
    rfl

theorem fifo_run_append (cfg : mq_config) (a : fifo) (o1 o2 : List mq_op) :
    fifo_run cfg a (o1 ++ o2) =
      ((fifo_run cfg (fifo_run cfg a o1).1 o2).1,
        (fifo_run cfg a o1).2 ++ (fifo_run cfg (fifo_run cfg a o1).1 o2).2) := by
  induction o1 generalizing a with
  | nil => rfl
  | cons op ops ih =>
    rw [List.cons_append]
    simp only [fifo_run]
    rw [ih]
    rfl

theorem Reachable_run (cfg : mq_config) (mq : mq_queue) (ops : List mq_op)
    (h : Reachable cfg mq) : Reachable cfg (run cfg mq ops).1 := by
  induction ops generalizing mq with
  | nil => exact h
  | cons op ops ih =>
    cases op with
    | event e v => exact ih _ (Reachable.event mq e v h)
    | read buf pos count => exact ih _ (Reachable.read mq buf pos count h)

theorem abs_run (cfg : mq_config) (mq : mq_queue) (k : Nat) (ops : List mq_op)
    (hN : cfg.MQ_QUEUE_SIZE = 2 ^ k) (hcap : 1 ≤ cfg.MQ_MSGBUF_SIZE) (h : WF cfg mq) :
    abs cfg (run cfg mq ops).1 = (fifo_run cfg (abs cfg mq) ops).1 ∧
    (run cfg mq ops).2 = (fifo_run cfg (abs cfg mq) ops).2 := by
  rw [sim_run cfg mq k ops hN hcap h]
  exact ⟨rfl, rfl⟩

/-- Receiving bytes on the abstract view: they are appended up to the capacity;
one byte too many sets the flag. -/
theorem fifo_bytes (cfg : mq_config) (a : fifo) (bs : List Nat)
    (hl : a.cur.length ≤ cfg.MQ_MSGBUF_SIZE) :
    (fifo_run cfg a (bs.map fun b => .event I2C_SLAVE_WRITE_RECEIVED b)).1 =
      { pending := a.pending
        cur := a.cur ++ bs.take (cfg.MQ_MSGBUF_SIZE - a.cur.length)
        truncated := a.truncated || decide (cfg.MQ_MSGBUF_SIZE < a.cur.length + bs.length) } := by
  induction bs generalizing a with
  | nil =>
    have : ¬ (cfg.MQ_MSGBUF_SIZE < a.cur.length) := by omega
    simp [fifo_run, this]
  | cons b t ih =>
    simp only [List.map_cons, fifo_run, fifo_step]
    by_cases hlt : a.cur.length < cfg.MQ_MSGBUF_SIZE
    · simp only [hlt, if_true]
      rw [ih _ (by simp; omega)]
      have e : cfg.MQ_MSGBUF_SIZE - a.cur.length =
          (cfg.MQ_MSGBUF_SIZE - (a.cur.length + 1)) + 1 := by omega
      have e2 : (cfg.MQ_MSGBUF_SIZE < a.cur.length + 1 + t.length) ↔
          (cfg.MQ_MSGBUF_SIZE < a.cur.length + (t.length + 1)) := by omega
      simp only [List.length_append, List.length_singleton, List.length_cons, fifo.mk.injEq,
        true_and]
      refine ⟨?_, ?_⟩
      · rw [e, List.take_succ_cons]
        simp
      · simp only [List.length_nil, Nat.zero_add, e2]
    · simp only [hlt, if_false]
      rw [ih { a with truncated := true } hl]
      have e : cfg.MQ_MSGBUF_SIZE - a.cur.length = 0 := by omega
      have e2 : cfg.MQ_MSGBUF_SIZE < a.cur.length + (t.length + 1) := by omega
      simp only [e, List.take_zero, List.append_nil, List.length_cons, Bool.true_or, e2,
        decide_True, Bool.or_true]

/-- A well-formed transaction on the abstract view commits header and payload. -/
theorem fifo_transaction (cfg : mq_config) (a : fifo) (bs : List Nat)
    (h1 : 1 ≤ bs.length) (h2 : bs.length + 1 ≤ cfg.MQ_MSGBUF_SIZE) :
    (fifo_run cfg a (transaction bs)).1 =
      { pending := keep_last (cfg.MQ_QUEUE_SIZE - 1) (a.pending ++ [header cfg :: bs])
        cur := []
        truncated := false } := by
  unfold transaction
  rw [show (mq_op.event I2C_SLAVE_WRITE_REQUESTED 0 ::
      (bs.map fun b => mq_op.event I2C_SLAVE_WRITE_RECEIVED b) ++ [.event I2C_SLAVE_STOP 0])
      = [mq_op.event I2C_SLAVE_WRITE_REQUESTED 0] ++
        ((bs.map fun b => mq_op.event I2C_SLAVE_WRITE_RECEIVED b) ++ [.event I2C_SLAVE_STOP 0])
      from rfl]
  rw [fifo_run_append, fifo_run_append]
  simp only [fifo_run, fifo_step]
  rw [fifo_bytes cfg _ bs (by simp; omega)]
  have e : bs.take (cfg.MQ_MSGBUF_SIZE - 1) = bs := List.take_of_length_le (by omega)
  have hd : ¬ (cfg.MQ_MSGBUF_SIZE < 1 + bs.length) := by omega
  have hl : ¬ (bs.length + 1 < 2) := by omega
  simp [e, hd, hl]

/-- An oversized transaction on the abstract view leaves the pending list as
it was and ends with the flag set. -/
theorem fifo_oversized (cfg : mq_config) (a : fifo) (bs : List Nat)
    (hcap : 1 ≤ cfg.MQ_MSGBUF_SIZE) (h : cfg.MQ_MSGBUF_SIZE ≤ bs.length) :
    (fifo_run cfg a (transaction bs)).1 =
      { pending := a.pending
        cur := header cfg :: bs.take (cfg.MQ_MSGBUF_SIZE - 1)
        truncated := true } := by
  unfold transaction
  rw [show (mq_op.event I2C_SLAVE_WRITE_REQUESTED 0 ::
      (bs.map fun b => mq_op.event I2C_SLAVE_WRITE_RECEIVED b) ++ [.event I2C_SLAVE_STOP 0])
      = [mq_op.event I2C_SLAVE_WRITE_REQUESTED 0] ++
        ((bs.map fun b => mq_op.event I2C_SLAVE_WRITE_RECEIVED b) ++ [.event I2C_SLAVE_STOP 0])
      from rfl]
  rw [fifo_run_append, fifo_run_append]
  simp only [fifo_run, fifo_step]
  rw [fifo_bytes cfg _ bs (by simp; omega)]
  have hd : cfg.MQ_MSGBUF_SIZE < 1 + bs.length := by omega
  simp [hd]

theorem fifo_alike_step (cfg : mq_config) (a b : fifo) (op : mq_op) (h : fifo_alike a b) :
    (fifo_step cfg a op).2 = (fifo_step cfg b op).2 ∧
      fifo_alike (fifo_step cfg a op).1 (fifo_step cfg b op).1 := by
  obtain ⟨p, c, t⟩ := a
  obtain ⟨p1, c1, t1⟩ := b
  obtain ⟨h1, h2, h3, h4⟩ := h
  simp only at h1 h2 h3 h4
  subst h1 h2
  cases op with
  | event e v =>
    cases e
    · exact ⟨rfl, rfl, rfl, h3, h4⟩
    · exact ⟨rfl, rfl, rfl, rfl, fun _ => rfl⟩
    · exact ⟨rfl, rfl, rfl, h3, h4⟩
    · simp only [fifo_step, h3]
      split_ifs
      · refine ⟨rfl, rfl, rfl, by simp [h3], fun ht => ?_⟩
        simp only at ht
        simp only [h4 ht]
      · exact ⟨rfl, rfl, rfl, h3, fun ht => by simp at ht⟩
    · simp only [fifo_step, h3]
      split_ifs with hd
      · exact ⟨rfl, rfl, rfl, h3, h4⟩
      · have ht : t = false := by
          cases t
          · rfl
          · exact absurd (Or.inl rfl) hd
        have hc := h4 ht
        subst hc
        exact ⟨rfl, rfl, rfl, rfl, fun _ => rfl⟩
  | read buf pos count =>
    cases p with
    | nil => exact ⟨rfl, rfl, rfl, h3, h4⟩
    | cons m rest =>
      simp only [fifo_step]
      split_ifs <;> exact ⟨rfl, rfl, rfl, h3, h4⟩

theorem fifo_alike_run (cfg : mq_config) (a b : fifo) (ops : List mq_op) (h : fifo_alike a b) :
    (fifo_run cfg a ops).2 = (fifo_run cfg b ops).2 := by
  induction ops generalizing a b with
  | nil => rfl
  | cons op ops ih =>
    have hs := fifo_alike_step cfg a b op h
    simp only [fifo_run, hs.1, ih _ _ hs.2]

/-! ## Further facts about the driver and its abstract view -/

theorem idx_of_Reachable (cfg : mq_config) (mq : mq_queue) (hN : 0 < cfg.MQ_QUEUE_SIZE)
    (h : Reachable cfg mq) : mq.in_ < cfg.MQ_QUEUE_SIZE ∧ mq.out < cfg.MQ_QUEUE_SIZE := by
  induction h with
  | probe heap => exact ⟨hN, hN⟩
  | event mq e v _ ih =>
    have hn := MQ_QUEUE_NEXT_lt cfg mq.in_ hN
    have ho := MQ_QUEUE_NEXT_lt cfg mq.out hN
    cases e <;> simp only [i2c_slave_mqueue_callback] <;> try exact ih
    · split_ifs <;> exact ih
    · split_ifs <;> first | exact ih | exact ⟨hn, ho⟩ | exact ⟨hn, ih.2⟩
  | read mq buf pos count _ ih =>
    have ho := MQ_QUEUE_NEXT_lt cfg mq.out hN
    simp only [i2c_slave_mqueue_bin_read]
    split_ifs <;> first | exact ih | exact ⟨ih.1, ho⟩

theorem MQ_QUEUE_NEXT_ne_self (cfg : mq_config) (k x : Nat) (hN : cfg.MQ_QUEUE_SIZE = 2 ^ k)
    (h2 : 2 ≤ cfg.MQ_QUEUE_SIZE) (hx : x < cfg.MQ_QUEUE_SIZE) : MQ_QUEUE_NEXT cfg x ≠ x := by
  rw [MQ_QUEUE_NEXT_eq_mod cfg k x hN, succ_mod_cases _ _ hx]
  split_ifs <;> omega

theorem bin_read_of_empty (cfg : mq_config) (mq : mq_queue) (buf : List Nat) (pos count : Nat)
    (h : mq.out = mq.in_) :
    i2c_slave_mqueue_bin_read cfg mq buf pos count = ⟨0, mq, buf, 0⟩ := by
  simp [i2c_slave_mqueue_bin_read, h]

/-- What a read does, in terms of the pending messages: nothing when there is
none. -/
theorem bin_read_pending_nil (cfg : mq_config) (mq : mq_queue) (buf : List Nat)
    (pos count : Nat) (h : WF cfg mq) (hp : pending cfg mq = []) :
    i2c_slave_mqueue_bin_read cfg mq buf pos count = ⟨0, mq, buf, 0⟩ := by
  apply bin_read_of_empty
  apply (pending_count_eq_zero_iff cfg mq h).1
  rw [← pending_length, hp]
  rfl

/-- What a read does, in terms of the pending messages: it removes the oldest
one, and delivers it when it fits. -/
theorem bin_read_pending_cons (cfg : mq_config) (mq : mq_queue) (k : Nat) (buf : List Nat)
    (pos count : Nat) (m : List Nat) (rest : List (List Nat))
    (hN : cfg.MQ_QUEUE_SIZE = 2 ^ k) (h : WF cfg mq) (hp : pending cfg mq = m :: rest) :
    pending cfg (i2c_slave_mqueue_bin_read cfg mq buf pos count).mq = rest ∧
    (i2c_slave_mqueue_bin_read cfg mq buf pos count).notify = (if rest = [] then 0 else 1) ∧
    (m.length ≤ count →
      (i2c_slave_mqueue_bin_read cfg mq buf pos count).ret = (m.length : Int) ∧
      (i2c_slave_mqueue_bin_read cfg mq buf pos count).buf = m ++ buf.drop m.length) ∧
    (count < m.length →
      (i2c_slave_mqueue_bin_read cfg mq buf pos count).ret = -EOVERFLOW ∧
      (i2c_slave_mqueue_bin_read cfg mq buf pos count).buf = buf) := by
  have hs := sim_read cfg mq k buf pos count hN h
  simp only [fifo_step, abs, hp, step] at hs
  by_cases hc : m.length ≤ count
  · simp only [hc, if_true, Prod.mk.injEq, fifo.mk.injEq, mq_obs.read.injEq] at hs
    obtain ⟨⟨h1, -, -⟩, h2, h3, h4⟩ := hs
    refine ⟨h1.symm, h4.symm, fun _ => ⟨h2.symm, h3.symm⟩, fun hlt => ?_⟩
    omega
  · simp only [hc, if_false, Prod.mk.injEq, fifo.mk.injEq, mq_obs.read.injEq] at hs
    obtain ⟨⟨h1, -, -⟩, h2, h3, h4⟩ := hs
    refine ⟨h1.symm, h4.symm, fun hle => absurd hle hc, fun _ => ⟨h2.symm, h3.symm⟩⟩

/-- What a well-formed transaction does, in terms of the pending messages. -/
theorem transaction_pending (cfg : mq_config) (mq : mq_queue) (k : Nat) (bs : List Nat)
    (hN : cfg.MQ_QUEUE_SIZE = 2 ^ k) (h : WF cfg mq)
    (h1 : 1 ≤ bs.length) (h2 : bs.length + 1 ≤ cfg.MQ_MSGBUF_SIZE) :
    pending cfg (run cfg mq (transaction bs)).1 =
      keep_last (cfg.MQ_QUEUE_SIZE - 1) (pending cfg mq ++ [header cfg :: bs]) := by
  have ha := (abs_run cfg mq k (transaction bs) hN (by omega) h).1
  rw [fifo_transaction cfg _ bs h1 h2] at ha
  have := congrArg fifo.pending ha
  simpa [abs] using this

theorem notifications_append (o1 o2 : List mq_obs) :
    notifications (o1 ++ o2) = notifications o1 + notifications o2 := by
  simp [notifications]

/-- Receiving bytes moves neither index and notifies nobody. -/
theorem run_bytes_frame (cfg : mq_config) (mq : mq_queue) (bs : List Nat) :
    (run cfg mq (bs.map fun b => .event I2C_SLAVE_WRITE_RECEIVED b)).1.in_ = mq.in_ ∧
    (run cfg mq (bs.map fun b => .event I2C_SLAVE_WRITE_RECEIVED b)).1.out = mq.out ∧
    notifications (run cfg mq (bs.map fun b => .event I2C_SLAVE_WRITE_RECEIVED b)).2 = 0 := by
  induction bs generalizing mq with
  | nil => exact ⟨rfl, rfl, rfl⟩
  | cons b t ih =>
    simp only [List.map_cons, run, step]
    obtain ⟨h1, h2, h3⟩ := ih (i2c_slave_mqueue_callback cfg mq I2C_SLAVE_WRITE_RECEIVED b).mq
    rw [h1, h2]
    have hn : notifications (mq_obs.event
        (i2c_slave_mqueue_callback cfg mq I2C_SLAVE_WRITE_RECEIVED b).ret
        (i2c_slave_mqueue_callback cfg mq I2C_SLAVE_WRITE_RECEIVED b).val
        (i2c_slave_mqueue_callback cfg mq I2C_SLAVE_WRITE_RECEIVED b).notify ::
        (run cfg (i2c_slave_mqueue_callback cfg mq I2C_SLAVE_WRITE_RECEIVED b).mq
          (t.map fun b => .event I2C_SLAVE_WRITE_RECEIVED b)).2) =
        (i2c_slave_mqueue_callback cfg mq I2C_SLAVE_WRITE_RECEIVED b).notify +
        notifications (run cfg (i2c_slave_mqueue_callback cfg mq I2C_SLAVE_WRITE_RECEIVED b).mq
          (t.map fun b => .event I2C_SLAVE_WRITE_RECEIVED b)).2 := by
      simp [notifications, mq_obs.notify]
    rw [hn, h3]
    simp only [i2c_slave_mqueue_callback]
    split_ifs <;> exact ⟨rfl, rfl, rfl⟩

theorem transaction_split (bs : List Nat) :
    transaction bs = (mq_op.event I2C_SLAVE_WRITE_REQUESTED 0 ::
      (bs.map fun b => mq_op.event I2C_SLAVE_WRITE_RECEIVED b)) ++
      [mq_op.event I2C_SLAVE_STOP 0] := rfl

/-- Before its STOP, a transaction has moved neither index and notified
nobody. -/
theorem run_body_frame (cfg : mq_config) (mq : mq_queue) (bs : List Nat) :
    (run cfg mq (mq_op.event I2C_SLAVE_WRITE_REQUESTED 0 ::
      (bs.map fun b => mq_op.event I2C_SLAVE_WRITE_RECEIVED b))).1.in_ = mq.in_ ∧
    (run cfg mq (mq_op.event I2C_SLAVE_WRITE_REQUESTED 0 ::
      (bs.map fun b => mq_op.event I2C_SLAVE_WRITE_RECEIVED b))).1.out = mq.out ∧
    notifications (run cfg mq (mq_op.event I2C_SLAVE_WRITE_REQUESTED 0 ::
      (bs.map fun b => mq_op.event I2C_SLAVE_WRITE_RECEIVED b))).2 = 0 := by
  simp only [run, step]
  obtain ⟨h1, h2, h3⟩ :=
    run_bytes_frame cfg (i2c_slave_mqueue_callback cfg mq I2C_SLAVE_WRITE_REQUESTED 0).mq bs
  rw [h1, h2]
  refine ⟨rfl, rfl, ?_⟩
  simp only [notifications, List.map_cons, List.sum_cons] at h3 ⊢
  rw [h3]
  rfl

theorem stop_keeps_truncated (cfg : mq_config) (mq : mq_queue) (v : Nat) :
    (i2c_slave_mqueue_callback cfg mq I2C_SLAVE_STOP v).mq.truncated = mq.truncated := by
  simp only [i2c_slave_mqueue_callback]
  split_ifs <;> rfl

theorem delivered_read_fit (m x : List Nat) (n : Nat) (h : 1 ≤ m.length) :
    delivered (.read (m.length : Int) (m ++ x) n) = some m := by
  have : (0 : Int) < (m.length : Int) := by omega
  simp [delivered, this]

/-- One read asking for the full capacity, on the abstract view. -/
theorem fifo_read_full (cfg : mq_config) (a : fifo) (buf : List Nat) (pos count : Nat)
    (hs : sized cfg a.pending) (hc : cfg.MQ_MSGBUF_SIZE ≤ count) :
    (fifo_step cfg a (.read buf pos count)).1 = { a with pending := a.pending.drop 1 } ∧
    delivered (fifo_step cfg a (.read buf pos count)).2 = a.pending.head? := by
  obtain ⟨p, c, t⟩ := a
  cases p with
  | nil => exact ⟨rfl, by simp [fifo_step, delivered]⟩
  | cons m rest =>
    have hm := hs m (List.mem_cons_self _ _)
    have hle : m.length ≤ count := by omega
    simp only [fifo_step, hle, if_true, List.drop_succ_cons, List.drop_zero, List.head?_cons,
      true_and]
    exact delivered_read_fit m _ _ hm.1

theorem sized_drop (cfg : mq_config) (p : List (List Nat)) (n : Nat) (hs : sized cfg p) :
    sized cfg (p.drop n) :=
  fun m hm => hs m (List.mem_of_mem_drop hm)

/-- The items of a transaction on the abstract view: bytes accumulate, reads
take pending messages from the head. -/
theorem fifo_body (cfg : mq_config) (a : fifo) (body : List txn_item)
    (ht : a.truncated = false)
    (hl : a.cur.length + (txn_payload body).length ≤ cfg.MQ_MSGBUF_SIZE)
    (hs : sized cfg a.pending)
    (hc : ∀ it ∈ body, it.count_ge cfg.MQ_MSGBUF_SIZE) :
    (fifo_run cfg a (body.map txn_item.op)).1 =
      { pending := a.pending.drop (txn_reads body)
        cur := a.cur ++ txn_payload body
        truncated := false } ∧
    (fifo_run cfg a (body.map txn_item.op)).2.filterMap delivered =
      a.pending.take (txn_reads body) := by
  induction body generalizing a with
  | nil =>
    obtain ⟨p, c, t⟩ := a
    simp only at ht
    subst ht
    simp [fifo_run, txn_payload, txn_reads]
  | cons it rest ih =>
    have hc1 : ∀ it ∈ rest, it.count_ge cfg.MQ_MSGBUF_SIZE :=
      fun x hx => hc x (List.mem_cons_of_mem _ hx)
    cases it with
    | byte b =>
      simp only [txn_payload, List.length_cons] at hl
      have hlt : a.cur.length < cfg.MQ_MSGBUF_SIZE := by omega
      simp only [List.map_cons, txn_item.op, fifo_run, fifo_step, hlt, if_true, txn_payload,
        txn_reads]
      obtain ⟨h1, h2⟩ := ih { a with cur := a.cur ++ [b] } ht (by simp; omega) hs hc1
      rw [h1]
      refine ⟨by simp, ?_⟩
      rw [List.filterMap_cons_none (by rfl)]
      exact h2
    | read buf pos count =>
      have hcnt : cfg.MQ_MSGBUF_SIZE ≤ count := hc _ (List.mem_cons_self _ _)
      obtain ⟨r1, r2⟩ := fifo_read_full cfg a buf pos count hs hcnt
      simp only [txn_payload] at hl
      simp only [List.map_cons, txn_item.op, fifo_run, txn_payload, txn_reads]
      generalize fifo_step cfg a (.read buf pos count) = st at r1 r2
      obtain ⟨a1, o⟩ := st
      simp only at r1 r2
      subst r1
      obtain ⟨h1, h2⟩ := ih { a with pending := a.pending.drop 1 } ht hl
        (sized_drop cfg _ 1 hs) hc1
      rw [h1]
      constructor
      · simp only [List.drop_drop, fifo.mk.injEq, and_true]
        congr 1
        omega
      · cases hp : a.pending with
        | nil =>
          rw [hp] at r2 h2
          rw [List.filterMap_cons_none r2, h2]
          simp
        | cons m rest1 =>
          rw [hp] at r2 h2
          rw [List.filterMap_cons_some r2, h2]
          simp

theorem within_retention_body (retained n : Nat) (body : List txn_item) (ops : List mq_op) :
    within_retention retained n (body.map txn_item.op ++ ops) ↔
      within_retention retained (n - txn_reads body) ops := by
  induction body generalizing n with
  | nil => simp [txn_reads]
  | cons it rest ih =>
    cases it with
    | byte b =>
      simp only [List.map_cons, txn_item.op, List.cons_append, within_retention, txn_reads]
      exact ih n
    | read buf pos count =>
      simp only [List.map_cons, txn_item.op, List.cons_append, within_retention, txn_reads]
      have h := ih (n - 1)
      rw [show n - 1 - txn_reads rest = n - (txn_reads rest + 1) by omega] at h
      exact h

theorem keep_last_of_le {α : Type} (n : Nat) (l : List α) (h : l.length ≤ n) :
    keep_last n l = l := by
  have : l.length - n = 0 := by omega
  simp [keep_last, this]

theorem committed_cons (cfg : mq_config) (it : sched_item) (rest : List sched_item) :
    committed cfg (it :: rest) = committed cfg [it] ++ committed cfg rest := by
  cases it <;> simp [committed]

/-- One schedule entry on the abstract view: what its reads deliver, followed
by what is pending afterwards, is what was pending before followed by what it
sends. -/
theorem fifo_item (cfg : mq_config) (a : fifo) (it : sched_item) (ops : List mq_op)
    (hok : it.ok cfg) (hs : sized cfg a.pending)
    (hfit : within_retention (cfg.MQ_QUEUE_SIZE - 1) a.pending.length (it.ops ++ ops)) :
    (fifo_run cfg a it.ops).2.filterMap delivered ++ (fifo_run cfg a it.ops).1.pending =
      a.pending ++ committed cfg [it] ∧
    sized cfg (fifo_run cfg a it.ops).1.pending ∧
    within_retention (cfg.MQ_QUEUE_SIZE - 1) (fifo_run cfg a it.ops).1.pending.length ops := by
  cases it with
  | read buf pos count =>
    obtain ⟨r1, r2⟩ := fifo_read_full cfg a buf pos count hs hok
    simp only [sched_item.ops, fifo_run, committed, List.append_nil]
    simp only [sched_item.ops, List.singleton_append, within_retention] at hfit
    generalize fifo_step cfg a (.read buf pos count) = st at r1 r2
    obtain ⟨a1, o⟩ := st
    simp only at r1 r2
    subst r1
    refine ⟨?_, sized_drop cfg _ 1 hs, by simpa using hfit⟩
    cases hp : a.pending with
    | nil => rw [hp] at r2; simp [r2]
    | cons m rest => rw [hp] at r2; simp [r2]
  | txn body =>
    obtain ⟨k1, k2, k3⟩ := hok
    have hb := fifo_body cfg { a with cur := [header cfg], truncated := false } body rfl
      (by simp; omega) hs k3
    have hfit1 : within_retention (cfg.MQ_QUEUE_SIZE - 1) a.pending.length
        (body.map txn_item.op ++ (mq_op.event I2C_SLAVE_STOP 0 :: ops)) := by
      have e : (sched_item.txn body).ops ++ ops = mq_op.event I2C_SLAVE_WRITE_REQUESTED 0 ::
          (body.map txn_item.op ++ (mq_op.event I2C_SLAVE_STOP 0 :: ops)) := by
        simp [sched_item.ops]
      rw [e] at hfit
      exact hfit
    rw [within_retention_body] at hfit1
    obtain ⟨f1, f2⟩ : a.pending.length - txn_reads body + 1 ≤ cfg.MQ_QUEUE_SIZE - 1 ∧
        within_retention (cfg.MQ_QUEUE_SIZE - 1) (a.pending.length - txn_reads body + 1) ops :=
      hfit1
    have e : (sched_item.txn body).ops = [mq_op.event I2C_SLAVE_WRITE_REQUESTED 0] ++
        (body.map txn_item.op ++ [mq_op.event I2C_SLAVE_STOP 0]) := rfl
    rw [e, fifo_run_append, fifo_run_append]
    simp only [fifo_run, fifo_step]
    generalize fifo_run cfg { a with cur := [header cfg], truncated := false }
      (body.map txn_item.op) = rb at hb
    obtain ⟨b1, b2⟩ := hb
    obtain ⟨a1, o⟩ := rb
    simp only at b1 b2
    subst b1
    have hd : ¬ (false = true ∨ ([header cfg] ++ txn_payload body).length < 2) := by
      simp; omega
    have hk : keep_last (cfg.MQ_QUEUE_SIZE - 1)
        (a.pending.drop (txn_reads body) ++ [[header cfg] ++ txn_payload body]) =
        a.pending.drop (txn_reads body) ++ [[header cfg] ++ txn_payload body] :=
      keep_last_of_le _ _ (by simp; omega)
    simp only [fifo_run, fifo_step, hd, if_false, hk]
    refine ⟨?_, ?_, ?_⟩
    · simp only [List.filterMap_append, b2]
      simp only [delivered, committed, List.filterMap_cons, List.filterMap_nil, List.nil_append,
        List.append_nil, List.singleton_append]
      rw [← List.append_assoc, List.take_append_drop]
    · intro m hm
      rcases List.mem_append.1 hm with h | h
      · exact hs m (List.mem_of_mem_drop h)
      · simp only [List.mem_singleton] at h
        subst h
        simp; omega
    · simpa using f2

theorem fifo_schedule (cfg : mq_config) (a : fifo) (sched : List sched_item)
    (hok : ∀ it ∈ sched, it.ok cfg) (hs : sized cfg a.pending)
    (hfit : within_retention (cfg.MQ_QUEUE_SIZE - 1) a.pending.length (schedule_ops sched)) :
    (fifo_run cfg a (schedule_ops sched)).2.filterMap delivered ++
      (fifo_run cfg a (schedule_ops sched)).1.pending = a.pending ++ committed cfg sched := by
  induction sched generalizing a with
  | nil => simp [schedule_ops, fifo_run, committed]
  | cons it rest ih =>
    simp only [schedule_ops] at hfit ⊢
    obtain ⟨h1, h2, h3⟩ := fifo_item cfg a it (schedule_ops rest)
      (hok it (List.mem_cons_self _ _)) hs hfit
    have h4 := ih (fifo_run cfg a it.ops).1 (fun x hx => hok x (List.mem_cons_of_mem _ hx)) h2 h3
    rw [fifo_run_append, committed_cons]
    simp only [List.filterMap_append, List.append_assoc]
    rw [h4, ← List.append_assoc, h1, List.append_assoc]

theorem abs_probe (cfg : mq_config) (heap : Nat → Nat) (hN : 0 < cfg.MQ_QUEUE_SIZE) :
    (abs cfg (i2c_slave_mqueue_probe cfg heap)).pending = [] :=
  pending_of_empty cfg _ (WF_probe cfg heap hN) rfl

theorem keep_last_length_le {α : Type} (n : Nat) (l : List α) : (keep_last n l).length ≤ n := by
  simp [keep_last]
  omega

theorem keep_last_append {α : Type} (n : Nat) (l l1 : List α) :
    keep_last n (keep_last n l ++ l1) = keep_last n (l ++ l1) := by
  unfold keep_last
  simp only [List.length_append, List.length_drop, List.drop_append_eq_append_drop,
    List.drop_drop]
  congr 1
  · congr 1
    omega
  · congr 1
    omega

/-- A run of well-formed transactions on the abstract view keeps the last
`MQ_QUEUE_SIZE - 1` messages. -/
theorem fifo_commits (cfg : mq_config) (a : fifo) (payloads : List (List Nat))
    (hp : ∀ p ∈ payloads, 1 ≤ p.length ∧ p.length + 1 ≤ cfg.MQ_MSGBUF_SIZE)
    (ha : a.pending.length ≤ cfg.MQ_QUEUE_SIZE - 1) :
    (fifo_run cfg a (commits payloads)).1.pending =
      keep_last (cfg.MQ_QUEUE_SIZE - 1)
        (a.pending ++ payloads.map fun p => header cfg :: p) := by
  induction payloads generalizing a with
  | nil => simp [commits, fifo_run, keep_last_of_le _ _ ha]
  | cons p ps ih =>
    obtain ⟨p1, p2⟩ := hp p (List.mem_cons_self _ _)
    have ht := fifo_transaction cfg a p p1 p2
    simp only [commits]
    rw [fifo_run_append]
    simp only
    rw [ih _ (fun x hx => hp x (List.mem_cons_of_mem _ hx))
      (by rw [ht]; exact keep_last_length_le _ _), ht]
    simp only [List.map_cons]
    rw [keep_last_append, List.append_assoc]
    rfl

theorem range_map_getElem? {α : Type} (l : List α) :
    ((List.range l.length).map fun i => l[i]?) = l.map some := by
  apply List.ext_getElem (by simp)
  intro i h1 h2
  simp

/-- Successive reads asking for the full capacity, on the abstract view: the
`i`-th delivers the `i`-th pending message, or nothing once the list is
exhausted. -/
theorem fifo_reads (cfg : mq_config) (a : fifo) (rs : List mq_op)
    (hr : ∀ op ∈ rs, op.reads_at_least cfg.MQ_MSGBUF_SIZE) (hs : sized cfg a.pending) :
    (fifo_run cfg a rs).2.map delivered = ((List.range rs.length).map fun i => a.pending[i]?) ∧
    (fifo_run cfg a rs).1 = { a with pending := a.pending.drop rs.length } := by
  induction rs generalizing a with
  | nil => simp [fifo_run]
  | cons op rest ih =>
    have h0 := hr op (List.mem_cons_self _ _)
    cases op with
    | event e v => exact absurd h0 (by simp [mq_op.reads_at_least])
    | read buf pos count =>
      obtain ⟨r1, r2⟩ := fifo_read_full cfg a buf pos count hs h0
      simp only [fifo_run]
      generalize fifo_step cfg a (.read buf pos count) = st at r1 r2
      obtain ⟨a1, o⟩ := st
      simp only at r1 r2
      subst r1
      obtain ⟨h1, h2⟩ := ih { a with pending := a.pending.drop 1 }
        (fun x hx => hr x (List.mem_cons_of_mem _ hx)) (sized_drop cfg _ 1 hs)
      rw [h2]
      constructor
      · simp only [List.map_cons, h1, r2, List.length_cons, List.range_succ_eq_map,
          List.map_map]
        congr 1
        · cases a.pending <;> simp
        · apply List.map_congr_left
          intro i _
          simp [List.getElem?_drop, Nat.add_comm]
      · simp only [List.drop_drop, List.length_cons, fifo.mk.injEq, and_true]
        congr 1
        omega

/-- In a reachable state the flag is only set while the current slot is full. -/
theorem truncated_full (cfg : mq_config) (mq : mq_queue) (hN : 0 < cfg.MQ_QUEUE_SIZE)
    (hcap : 1 ≤ cfg.MQ_MSGBUF_SIZE) (h : Reachable cfg mq) (ht : mq.truncated = true) :
    (slot mq.queue mq.curr).len = cfg.MQ_MSGBUF_SIZE := by
  induction h with
  | probe heap => simp [i2c_slave_mqueue_probe] at ht
  | event mq e v hr ih =>
    have hwf := WF_of_Reachable cfg mq hN hcap hr
    have hc : mq.curr < cfg.MQ_QUEUE_SIZE := hwf.curr_eq ▸ hwf.in_lt
    have hle := hwf.len_le mq.curr hc
    cases e
    · exact ih ht
    · simp [i2c_slave_mqueue_callback] at ht
    · exact ih ht
    · by_cases hlt : (slot mq.queue mq.curr).len < cfg.MQ_MSGBUF_SIZE
      · simp only [i2c_slave_mqueue_callback, hlt, if_true] at ht
        have := ih ht
        omega
      · simp only [i2c_slave_mqueue_callback, hlt, if_false]
        omega
    · by_cases hd : mq.truncated = true ∨ (slot mq.queue mq.curr).len < 2
      · simp only [i2c_slave_mqueue_callback, hd, if_true] at ht ⊢
        exact ih ht
      · simp only [i2c_slave_mqueue_callback, hd, if_false] at ht
        exact absurd (Or.inl ht) hd
  | read mq buf pos count hr ih =>
    have e1 : (i2c_slave_mqueue_bin_read cfg mq buf pos count).mq.truncated = mq.truncated := by
      simp only [i2c_slave_mqueue_bin_read]; split_ifs <;> rfl
    have e2 : (i2c_slave_mqueue_bin_read cfg mq buf pos count).mq.queue = mq.queue := by
      simp only [i2c_slave_mqueue_bin_read]; split_ifs <;> rfl
    have e3 : (i2c_slave_mqueue_bin_read cfg mq buf pos count).mq.curr = mq.curr := by
      simp only [i2c_slave_mqueue_bin_read]; split_ifs <;> rfl
    rw [e2, e3]
    exact ih (e1 ▸ ht)

/-- A byte arriving at a full slot is refused and changes nothing but the
flag. -/
theorem callback_full (cfg : mq_config) (mq : mq_queue) (v : Nat)
    (h : ¬ (slot mq.queue mq.curr).len < cfg.MQ_MSGBUF_SIZE) :
    i2c_slave_mqueue_callback cfg mq I2C_SLAVE_WRITE_RECEIVED v =
      ⟨-EINVAL, { mq with truncated := true }, v, 0⟩ := by
  simp only [i2c_slave_mqueue_callback, h, if_false]

/-- Once the flag is set, only the start of a transaction clears it. -/
theorem truncated_step (cfg : mq_config) (mq : mq_queue) (op : mq_op)
    (hN : 0 < cfg.MQ_QUEUE_SIZE) (hcap : 1 ≤ cfg.MQ_MSGBUF_SIZE) (hr : Reachable cfg mq)
    (ht : mq.truncated = true) (ho : op.not_start) :
    (step cfg mq op).1.truncated = true := by
  have hf := truncated_full cfg mq hN hcap hr ht
  cases op with
  | event e v =>
    cases e
    · exact ht
    · exact absurd ho (by simp [mq_op.not_start])
    · exact ht
    · simp only [step, callback_full cfg mq v (by omega)]
    · simp only [step, i2c_slave_mqueue_callback, ht, true_or, if_true]
  | read buf pos count =>
    simp only [step, i2c_slave_mqueue_bin_read]
    split_ifs <;> exact ht

theorem truncated_run (cfg : mq_config) (mq : mq_queue) (ops : List mq_op)
    (hN : 0 < cfg.MQ_QUEUE_SIZE) (hcap : 1 ≤ cfg.MQ_MSGBUF_SIZE) (hr : Reachable cfg mq)
    (ht : mq.truncated = true) (ho : ∀ op ∈ ops, op.not_start) :
    (run cfg mq ops).1.truncated = true := by
  induction ops generalizing mq with
  | nil => exact ht
  | cons op rest ih =>
    have h1 := truncated_step cfg mq op hN hcap hr ht (ho op (List.mem_cons_self _ _))
    have h2 : Reachable cfg (step cfg mq op).1 := Reachable_run cfg mq [op] hr
    exact ih _ h2 h1 (fun x hx => ho x (List.mem_cons_of_mem _ hx))

theorem keep_last_snoc {α : Type} (n : Nat) (l : List α) (x : α) (hn : 1 ≤ n) :
    keep_last n (l ++ [x]) = keep_last (n - 1) l ++ [x] := by
  unfold keep_last
  have e : (l ++ [x]).length - n = l.length - (n - 1) := by
    simp only [List.length_append, List.length_singleton]
    omega
  rw [e, List.drop_append_of_le_length (by omega)]

theorem mem_keep_last {α : Type} (n : Nat) (l : List α) (x : α) (h : x ∈ keep_last n l) :
    x ∈ l :=
  List.mem_of_mem_drop h

/-- Reads of any size, on the abstract view, remove one pending message each. -/
theorem fifo_reads_drop (cfg : mq_config) (a : fifo) (rs : List mq_op)
    (hr : ∀ op ∈ rs, op.reads_at_least 0) :
    (fifo_run cfg a rs).1 = { a with pending := a.pending.drop rs.length } := by
  induction rs generalizing a with
  | nil => simp [fifo_run]
  | cons op rest ih =>
    have h0 := hr op (List.mem_cons_self _ _)
    cases op with
    | event e v => exact absurd h0 (by simp [mq_op.reads_at_least])
    | read buf pos count =>
      have h1 : (fifo_step cfg a (.read buf pos count)).1 =
          { a with pending := a.pending.drop 1 } := by
        obtain ⟨p, c, t⟩ := a
        cases p with
        | nil => rfl
        | cons m rest1 =>
          simp only [fifo_step]
          split_ifs <;> rfl
      simp only [fifo_run]
      rw [ih _ (fun x hx => hr x (List.mem_cons_of_mem _ hx)), h1]
      simp only [List.drop_drop, List.length_cons, fifo.mk.injEq, and_true]
      congr 1
      omega

/-- A transaction of any length on the abstract view: it commits header and
payload when the payload has between 1 and `cap - 1` bytes, and nothing
otherwise. -/
theorem fifo_transaction_any (cfg : mq_config) (a : fifo) (bs : List Nat)
    (hcap : 1 ≤ cfg.MQ_MSGBUF_SIZE) :
    (fifo_run cfg a (transaction bs)).1.pending =
      if 1 ≤ bs.length ∧ bs.length + 1 ≤ cfg.MQ_MSGBUF_SIZE then
        keep_last (cfg.MQ_QUEUE_SIZE - 1) (a.pending ++ [header cfg :: bs])
      else a.pending := by
  by_cases h1 : 1 ≤ bs.length
  · by_cases h2 : bs.length + 1 ≤ cfg.MQ_MSGBUF_SIZE
    · rw [if_pos ⟨h1, h2⟩, fifo_transaction cfg a bs h1 h2]
    · rw [if_neg (fun h => h2 h.2), fifo_oversized cfg a bs hcap (by omega)]
  · rw [if_neg (fun h => h1 h.1)]
    have : bs = [] := List.length_eq_zero.1 (by omega)
    subst this
    simp [transaction, fifo_run, fifo_step]

theorem fifo_bytes_quiet (cfg : mq_config) (a : fifo) (bs : List Nat) :
    notifications (fifo_run cfg a (bs.map fun b => .event I2C_SLAVE_WRITE_RECEIVED b)).2 = 0 := by
  induction bs generalizing a with
  | nil => rfl
  | cons b t ih =>
    simp only [List.map_cons, fifo_run, fifo_step]
    split_ifs
    · have := ih { a with cur := a.cur ++ [b] }
      simp only [notifications, List.map_cons, List.sum_cons] at this ⊢
      rw [this]
      rfl
    · have := ih { a with truncated := true }
      simp only [notifications, List.map_cons, List.sum_cons] at this ⊢
      rw [this]
      rfl

/-- A well-formed transaction notifies exactly once, on the abstract view. -/
theorem fifo_transaction_notifies (cfg : mq_config) (a : fifo) (bs : List Nat)
    (h1 : 1 ≤ bs.length) (h2 : bs.length + 1 ≤ cfg.MQ_MSGBUF_SIZE) :
    notifications (fifo_run cfg a (transaction bs)).2 = 1 := by
  have hsp : transaction bs = [mq_op.event I2C_SLAVE_WRITE_REQUESTED 0] ++
      ((bs.map fun b => mq_op.event I2C_SLAVE_WRITE_RECEIVED b) ++
        [mq_op.event I2C_SLAVE_STOP 0]) := rfl
  rw [hsp, fifo_run_append, fifo_run_append]
  simp only [notifications_append]
  simp only [fifo_run, fifo_step]
  rw [fifo_bytes_quiet, fifo_bytes cfg _ bs (by simp; omega)]
  have e : bs.take (cfg.MQ_MSGBUF_SIZE - 1) = bs := List.take_of_length_le (by omega)
  have hd : ¬ (cfg.MQ_MSGBUF_SIZE < 1 + bs.length) := by omega
  have hl : ¬ (bs.length + 1 < 2) := by omega
  simp [e, hd, hl, notifications, mq_obs.notify]

theorem curr_of_Reachable (cfg : mq_config) (mq : mq_queue) (h : Reachable cfg mq) :
    mq.curr = mq.in_ := by
  induction h with
  | probe heap => rfl
  | event mq e v _ ih =>
    cases e <;> simp only [i2c_slave_mqueue_callback] <;> try exact ih
    · split_ifs <;> exact ih
    · split_ifs <;> first | exact ih | rfl
  | read mq buf pos count _ ih =>
    simp only [i2c_slave_mqueue_bin_read]
    split_ifs <;> exact ih

theorem qlen_of_Reachable (cfg : mq_config) (mq : mq_queue) (h : Reachable cfg mq) :
    mq.queue.length = cfg.MQ_QUEUE_SIZE := by
  induction h with
  | probe heap => simp [i2c_slave_mqueue_probe]
  | event mq e v _ ih =>
    cases e <;> simp only [i2c_slave_mqueue_callback] <;> try exact ih
    · simp only [length_store_byte, length_store_len, ih]
    · split_ifs
      · simp only [length_store_byte, length_store_len, ih]
      · exact ih
    · split_ifs <;> first | exact ih | simp only [length_store_len, ih]
  | read mq buf pos count _ ih =>
    simp only [i2c_slave_mqueue_bin_read]
    split_ifs <;> exact ih

theorem stop_after_stop (cfg : mq_config) (mq : mq_queue) (v w : Nat) :
    i2c_slave_mqueue_callback cfg (i2c_slave_mqueue_callback cfg mq I2C_SLAVE_STOP v).mq
        I2C_SLAVE_STOP w =
      ⟨0, (i2c_slave_mqueue_callback cfg mq I2C_SLAVE_STOP v).mq, w, 0⟩ := by
  by_cases hd : mq.truncated = true ∨ (slot mq.queue mq.curr).len < 2
  · have e : i2c_slave_mqueue_callback cfg mq I2C_SLAVE_STOP v = ⟨0, mq, v, 0⟩ := by
      simp only [i2c_slave_mqueue_callback, hd, if_true]
    rw [e]
    simp only [i2c_slave_mqueue_callback, hd, if_true]
  · have hl : (slot (i2c_slave_mqueue_callback cfg mq I2C_SLAVE_STOP v).mq.queue
        (i2c_slave_mqueue_callback cfg mq I2C_SLAVE_STOP v).mq.curr).len < 2 := by
      simp only [i2c_slave_mqueue_callback, hd, if_false]
      rw [slot_store_len]
      split_ifs with hc
      · exact Nat.zero_lt_two
      · have hq : ¬ (MQ_QUEUE_NEXT cfg mq.in_ < mq.queue.length) := by simpa using hc
        simp [slot, List.getD_eq_getElem?_getD, List.getElem?_eq_none (Nat.le_of_not_lt hq)]
    generalize (i2c_slave_mqueue_callback cfg mq I2C_SLAVE_STOP v).mq = m at hl
    simp only [i2c_slave_mqueue_callback, hl, or_true, if_true]

theorem bin_read_fit (cfg : mq_config) (mq : mq_queue) (buf : List Nat) (pos count : Nat)
    (h1 : mq.out ≠ mq.in_) (h2 : (slot mq.queue mq.out).len ≤ count) :
    i2c_slave_mqueue_bin_read cfg mq buf pos count =
      ⟨((slot mq.queue mq.out).len : Int), { mq with out := MQ_QUEUE_NEXT cfg mq.out },
        memcpy buf (slot mq.queue mq.out).buf (slot mq.queue mq.out).len,
        if MQ_QUEUE_NEXT cfg mq.out ≠ mq.in_ then 1 else 0⟩ := by
  simp only [i2c_slave_mqueue_bin_read, h1, ne_eq, not_false_eq_true, if_true, h2]

theorem bin_read_too_small (cfg : mq_config) (mq : mq_queue) (buf : List Nat) (pos count : Nat)
    (h1 : mq.out ≠ mq.in_) (h2 : ¬ (slot mq.queue mq.out).len ≤ count) :
    i2c_slave_mqueue_bin_read cfg mq buf pos count =
      ⟨-EOVERFLOW, { mq with out := MQ_QUEUE_NEXT cfg mq.out }, buf,
        if MQ_QUEUE_NEXT cfg mq.out ≠ mq.in_ then 1 else 0⟩ := by
  simp only [i2c_slave_mqueue_bin_read, h1, ne_eq, not_false_eq_true, if_true, h2, if_false]

/-- Every step of the abstract view keeps pending messages at 2 bytes or
more. -/
theorem fifo_step_two (cfg : mq_config) (a : fifo) (op : mq_op)
    (h : ∀ m ∈ a.pending, 2 ≤ m.length) :
    ∀ m ∈ (fifo_step cfg a op).1.pending, 2 ≤ m.length := by
  obtain ⟨p, c, t⟩ := a
  cases op with
  | event e v =>
    cases e
    · exact h
    · exact h
    · exact h
    · simp only [fifo_step]
      split_ifs <;> exact h
    · simp only [fifo_step]
      split_ifs with hd
      · exact h
      · intro m hm
        rcases List.mem_append.1 (mem_keep_last _ _ _ hm) with h1 | h1
        · exact h m h1
        · simp only [List.mem_singleton] at h1
          subst h1
          by_contra hc
          exact hd (Or.inr (by omega))
  | read buf pos count =>
    cases p with
    | nil => exact h
    | cons m0 rest =>
      simp only [fifo_step]
      split_ifs <;> exact fun m hm => h m (List.mem_cons_of_mem _ hm)

theorem pending_two (cfg : mq_config) (k : Nat) (mq : mq_queue)
    (hN : cfg.MQ_QUEUE_SIZE = 2 ^ k) (hcap : 1 ≤ cfg.MQ_MSGBUF_SIZE) (hr : Reachable cfg mq) :
    ∀ m ∈ pending cfg mq, 2 ≤ m.length := by
  have hpos : 0 < cfg.MQ_QUEUE_SIZE := by rw [hN]; positivity
  induction hr with
  | probe heap =>
    have := abs_probe cfg heap hpos
    simp only [abs] at this
    rw [this]
    intro m hm
    simp at hm
  | event mq e v hr ih =>
    have hwf := WF_of_Reachable cfg mq hpos hcap hr
    have hs := congrArg (fun p => p.1.pending) (sim_step cfg mq k (.event e v) hN hcap hwf)
    simp only [abs] at hs
    have h2 := fifo_step_two cfg (abs cfg mq) (.event e v) ih
    rw [show (fifo_step cfg (abs cfg mq) (.event e v)).1.pending =
      pending cfg (step cfg mq (.event e v)).1 from hs] at h2
    exact h2
  | read mq buf pos count hr ih =>
    have hwf := WF_of_Reachable cfg mq hpos hcap hr
    have hs := congrArg (fun p => p.1.pending)
      (sim_step cfg mq k (.read buf pos count) hN hcap hwf)
    simp only [abs] at hs
    have h2 := fifo_step_two cfg (abs cfg mq) (.read buf pos count) ih
    rw [show (fifo_step cfg (abs cfg mq) (.read buf pos count)).1.pending =
      pending cfg (step cfg mq (.read buf pos count)).1 from hs] at h2
    exact h2

/-- A run of well-formed transactions on an empty ring, then as many full-size
reads as messages were retained: the reads deliver the retained messages, the
last `MQ_QUEUE_SIZE - 1` committed ones, in order, and the ring is empty
again. -/
theorem commits_then_reads (cfg : mq_config) (k : Nat) (mq : mq_queue)
    (payloads : List (List Nat)) (rs : List mq_op)
    (hN : cfg.MQ_QUEUE_SIZE = 2 ^ k) (hcap : 1 ≤ cfg.MQ_MSGBUF_SIZE) (hwf : WF cfg mq)
    (he : pending cfg mq = [])
    (hp : ∀ p ∈ payloads, 1 ≤ p.length ∧ p.length + 1 ≤ cfg.MQ_MSGBUF_SIZE)
    (hr : ∀ op ∈ rs, op.reads_at_least cfg.MQ_MSGBUF_SIZE)
    (hrl : rs.length =
      (keep_last (cfg.MQ_QUEUE_SIZE - 1) (payloads.map fun p => header cfg :: p)).length) :
    (run cfg (run cfg mq (commits payloads)).1 rs).2.map delivered =
      (keep_last (cfg.MQ_QUEUE_SIZE - 1) (payloads.map fun p => header cfg :: p)).map some ∧
    pending cfg (run cfg (run cfg mq (commits payloads)).1 rs).1 = [] := by
  have hpos : 0 < cfg.MQ_QUEUE_SIZE := by rw [hN]; positivity
  have hwf1 := WF_run cfg _ (commits payloads) hpos hcap hwf
  have e1 := (abs_run cfg _ k (commits payloads) hN hcap hwf).1
  obtain ⟨e2, e3⟩ := abs_run cfg _ k rs hN hcap hwf1
  have hp0 : (abs cfg mq).pending = [] := he
  have hc := fifo_commits cfg (abs cfg mq) payloads hp (by rw [hp0]; exact Nat.zero_le _)
  rw [hp0, List.nil_append, ← e1] at hc
  have hsz : sized cfg (abs cfg (run cfg mq (commits payloads)).1).pending := by
    rw [hc]
    intro m hm
    obtain ⟨p, hp1, rfl⟩ := List.mem_map.1 (mem_keep_last _ _ _ hm)
    have := hp p hp1
    simp only [List.length_cons]
    omega
  obtain ⟨g1, g2⟩ := fifo_reads cfg _ rs hr hsz
  constructor
  · rw [e3, g1, hc, hrl, range_map_getElem?]
  · have := congrArg fifo.pending (e2.trans g2)
    simp only [abs] at this
    rw [this]
    have hc' : pending cfg (run cfg mq (commits payloads)).1 =
        keep_last (cfg.MQ_QUEUE_SIZE - 1) (payloads.map fun p => header cfg :: p) := hc
    rw [hc', hrl]
    exact List.drop_length _

/-- A checked store inside the slot's buffer is the plain store. -/
theorem store_byte_checked_inside (cfg : mq_config) (q : List mq_msg) (i j v : Nat)
    (hi : i < q.length) (hj : j < cfg.MQ_MSGBUF_SIZE) (hb : j < (slot q i).buf.length) :
    store_byte_checked cfg q i j v = some (store_byte q i j v) := by
  unfold store_byte_checked
  rw [if_pos ⟨hi, hj, hb⟩]

/-- A checked store at a position at or beyond `MQ_MSGBUF_SIZE` has no
result. -/
theorem store_byte_checked_outside (cfg : mq_config) (q : List mq_msg) (i j v : Nat)
    (hj : cfg.MQ_MSGBUF_SIZE ≤ j) : store_byte_checked cfg q i j v = none := by
  unfold store_byte_checked
  rw [if_neg]
  intro h
  omega

/-- In a well-formed state no event stores a byte outside the current slot's
buffer: the checked callback has a result, the one of the callback. -/
theorem callback_checked_of_WF (cfg : mq_config) (mq : mq_queue) (e : i2c_slave_event)
    (v : Nat) (hcap : 1 ≤ cfg.MQ_MSGBUF_SIZE) (h : WF cfg mq) :
    i2c_slave_mqueue_callback_checked cfg mq e v =
      some (i2c_slave_mqueue_callback cfg mq e v) := by
  have hc : mq.curr < cfg.MQ_QUEUE_SIZE := h.curr_eq ▸ h.in_lt
  have hq : mq.curr < mq.queue.length := h.qlen ▸ hc
  have hb := h.buf_len mq.curr hc
  cases e
  · rfl
  · have hs : store_byte_checked cfg (store_len mq.queue mq.curr 1) mq.curr 0
        ((cfg.addr <<< 1) % 256) =
        some (store_byte (store_len mq.queue mq.curr 1) mq.curr 0 ((cfg.addr <<< 1) % 256)) := by
      apply store_byte_checked_inside
      · rw [length_store_len]; exact hq
      · omega
      · rw [slot_store_len, if_pos ⟨rfl, hq⟩]
        show 0 < (slot mq.queue mq.curr).buf.length
        omega
    simp only [i2c_slave_mqueue_callback_checked, i2c_slave_mqueue_callback, hs, Option.map_some']
  · rfl
  · by_cases hl : (slot mq.queue mq.curr).len < cfg.MQ_MSGBUF_SIZE
    · have hs : store_byte_checked cfg
          (store_len mq.queue mq.curr ((slot mq.queue mq.curr).len + 1)) mq.curr
          (slot mq.queue mq.curr).len v =
          some (store_byte (store_len mq.queue mq.curr ((slot mq.queue mq.curr).len + 1))
            mq.curr (slot mq.queue mq.curr).len v) := by
        apply store_byte_checked_inside
        · rw [length_store_len]; exact hq
        · exact hl
        · rw [slot_store_len, if_pos ⟨rfl, hq⟩]
          show (slot mq.queue mq.curr).len < (slot mq.queue mq.curr).buf.length
          omega
      simp only [i2c_slave_mqueue_callback_checked, i2c_slave_mqueue_callback, hl, if_true, hs,
        Option.map_some']
    · simp only [i2c_slave_mqueue_callback_checked, i2c_slave_mqueue_callback, hl, if_false]
  · simp only [i2c_slave_mqueue_callback_checked, i2c_slave_mqueue_callback]
    split_ifs <;> rfl

/-- The byte an event stores is in the current slot's buffer afterwards, at the
position it was stored at. -/
theorem callback_stored_byte (cfg : mq_config) (mq : mq_queue) (v : Nat)
    (hcap : 1 ≤ cfg.MQ_MSGBUF_SIZE) (h : WF cfg mq) :
    (slot (i2c_slave_mqueue_callback cfg mq I2C_SLAVE_WRITE_REQUESTED v).mq.queue
        mq.curr).buf[0]? = some ((cfg.addr <<< 1) % 256) ∧
    ((slot mq.queue mq.curr).len < cfg.MQ_MSGBUF_SIZE →
      (slot (i2c_slave_mqueue_callback cfg mq I2C_SLAVE_WRITE_RECEIVED v).mq.queue
        mq.curr).buf[(slot mq.queue mq.curr).len]? = some v) := by
  have hc : mq.curr < cfg.MQ_QUEUE_SIZE := h.curr_eq ▸ h.in_lt
  have hq : mq.curr < mq.queue.length := h.qlen ▸ hc
  have hb := h.buf_len mq.curr hc
  constructor
  · simp only [i2c_slave_mqueue_callback]
    rw [slot_store_byte, if_pos ⟨rfl, by rw [length_store_len]; exact hq⟩]
    rw [slot_store_len, if_pos ⟨rfl, hq⟩]
    show ((slot mq.queue mq.curr).buf.set 0 ((cfg.addr <<< 1) % 256))[0]? = _
    rw [List.getElem?_set_self (by omega)]
  · intro hl
    simp only [i2c_slave_mqueue_callback, hl, if_true]
    rw [slot_store_byte, if_pos ⟨rfl, by rw [length_store_len]; exact hq⟩]
    rw [slot_store_len, if_pos ⟨rfl, hq⟩]
    show ((slot mq.queue mq.curr).buf.set (slot mq.queue mq.curr).len v)[
      (slot mq.queue mq.curr).len]? = _
    rw [List.getElem?_set_self (by omega)]

/-- No event changes the size of a slot's buffer. -/
theorem callback_buf_length (cfg : mq_config) (mq : mq_queue) (e : i2c_slave_event)
    (v i : Nat) :
    (slot (i2c_slave_mqueue_callback cfg mq e v).mq.queue i).buf.length =
      (slot mq.queue i).buf.length := by
  cases e
  · rfl
  · simp only [i2c_slave_mqueue_callback, slot_store_byte, slot_store_len, length_store_len]
    split_ifs <;> simp_all
  · rfl
  · simp only [i2c_slave_mqueue_callback]
    split_ifs
    · simp only [slot_store_byte, slot_store_len, length_store_len]
      split_ifs <;> simp_all
    · rfl
  · simp only [i2c_slave_mqueue_callback]
    split_ifs
    · rfl
    all_goals
      simp only [slot_store_len]
      split_ifs <;> simp_all

/-! ## The claims -/

/-- C1. Round trip of one message: with at least 2 slots (a power of two) and a
capacity of at least 2, from a reachable state with an empty ring, the
transaction WRITE_REQUESTED, WRITE_RECEIVED(b1) .. WRITE_RECEIVED(bk), STOP with
`1 ≤ k ≤ cap - 1` followed by a read with `count ≥ k + 1` returns `k + 1` and
puts the header byte, `(addr << 1)` as a `u8`, then `b1 .. bk` at the start of
the destination; for a 7-bit address the header is `addr << 1` itself. -/
theorem round_trip_one_message (cfg : mq_config) (k : Nat) (mq : mq_queue) (bs buf : List Nat)
    (pos count : Nat) (hN : cfg.MQ_QUEUE_SIZE = 2 ^ k) (h2 : 2 ≤ cfg.MQ_QUEUE_SIZE)
    (hcap : 2 ≤ cfg.MQ_MSGBUF_SIZE) (hr : Reachable cfg mq) (he : mq.out = mq.in_)
    (h1 : 1 ≤ bs.length) (hk : bs.length ≤ cfg.MQ_MSGBUF_SIZE - 1)
    (hc : bs.length + 1 ≤ count) :
    (i2c_slave_mqueue_bin_read cfg (run cfg mq (transaction bs)).1 buf pos count).ret =
      (bs.length : Int) + 1 ∧
    (i2c_slave_mqueue_bin_read cfg (run cfg mq (transaction bs)).1 buf pos count).buf =
      ((cfg.addr <<< 1) % 256 :: bs) ++ buf.drop (bs.length + 1) ∧
    (cfg.addr < 128 → (cfg.addr <<< 1) % 256 = cfg.addr <<< 1) := by
  have hpos : 0 < cfg.MQ_QUEUE_SIZE := by omega
  have hwf := WF_of_Reachable cfg mq hpos (by omega) hr
  have hwf1 := WF_run cfg mq (transaction bs) hpos (by omega) hwf
  have hp := transaction_pending cfg mq k bs hN hwf h1 (by omega)
  rw [pending_of_empty cfg mq hwf he] at hp
  have hk1 : keep_last (cfg.MQ_QUEUE_SIZE - 1) ([] ++ [header cfg :: bs]) = [header cfg :: bs] := by
    have : 1 - (cfg.MQ_QUEUE_SIZE - 1) = 0 := by omega
    simp [keep_last, this]
  rw [hk1] at hp
  have hrd := bin_read_pending_cons cfg _ k buf pos count _ _ hN hwf1 hp
  have hlen : (header cfg :: bs).length ≤ count := by simpa using hc
  obtain ⟨hret, hbuf⟩ := hrd.2.2.1 hlen
  refine ⟨?_, ?_, ?_⟩
  · rw [hret]; simp
  · rw [hbuf]; simp [header]
  · intro ha
    apply Nat.mod_eq_of_lt
    rw [Nat.shiftLeft_eq]
    omega

/-- The round trip at capacity 8, 4 slots, address 0x42, payload `[0x10, 0x20]`:
the read returns 3 and delivers `[0x84, 0x10, 0x20]`. -/
theorem round_trip_one_message_witness :
    (i2c_slave_mqueue_bin_read ⟨8, 4, 0x42⟩
      (run ⟨8, 4, 0x42⟩ (i2c_slave_mqueue_probe ⟨8, 4, 0x42⟩ (fun _ => 0))
        (transaction [0x10, 0x20])).1 [0, 0, 0, 0, 0, 0, 0, 0] 0 8).ret = 3 ∧
    (i2c_slave_mqueue_bin_read ⟨8, 4, 0x42⟩
      (run ⟨8, 4, 0x42⟩ (i2c_slave_mqueue_probe ⟨8, 4, 0x42⟩ (fun _ => 0))
        (transaction [0x10, 0x20])).1 [0, 0, 0, 0, 0, 0, 0, 0] 0 8).buf =
      [0x84, 0x10, 0x20, 0, 0, 0, 0, 0] :=
  have h := round_trip_one_message ⟨8, 4, 0x42⟩ 2
    (i2c_slave_mqueue_probe ⟨8, 4, 0x42⟩ (fun _ => 0)) [0x10, 0x20] [0, 0, 0, 0, 0, 0, 0, 0] 0 8
    (by decide) (by decide) (by decide) (Reachable.probe _) (by decide) (by decide) (by decide)
    (by decide)
  ⟨h.1, h.2.1⟩

/-- C2. FIFO order: from the probed queue, for every schedule of well-formed
transactions and reads asking for at least the capacity, reads falling between
or inside transactions, in which no commit finds `MQ_QUEUE_SIZE - 1` messages
pending, the data the reads deliver followed by what is still pending is exactly
the list of committed messages in commit order; so the `i`-th read that delivers
data delivers the `i`-th committed message, none reordered or duplicated. -/
theorem fifo_order (cfg : mq_config) (k : Nat) (heap : Nat → Nat) (sched : List sched_item)
    (hN : cfg.MQ_QUEUE_SIZE = 2 ^ k) (hcap : 1 ≤ cfg.MQ_MSGBUF_SIZE)
    (hok : ∀ it ∈ sched, it.ok cfg)
    (hfit : within_retention (cfg.MQ_QUEUE_SIZE - 1) 0 (schedule_ops sched)) :
    (run cfg (i2c_slave_mqueue_probe cfg heap) (schedule_ops sched)).2.filterMap delivered ++
      pending cfg (run cfg (i2c_slave_mqueue_probe cfg heap) (schedule_ops sched)).1 =
      committed cfg sched ∧
    ∀ (i : Nat) (m : List Nat),
      ((run cfg (i2c_slave_mqueue_probe cfg heap) (schedule_ops sched)).2.filterMap delivered)[i]?
        = some m → (committed cfg sched)[i]? = some m := by
  have hpos : 0 < cfg.MQ_QUEUE_SIZE := by rw [hN]; positivity
  have hwf := WF_probe cfg heap hpos
  obtain ⟨e1, e2⟩ := abs_run cfg _ k (schedule_ops sched) hN hcap hwf
  have hp := abs_probe cfg heap hpos
  have hs : sized cfg (abs cfg (i2c_slave_mqueue_probe cfg heap)).pending := by
    rw [hp]; intro m hm; simp at hm
  have hf := fifo_schedule cfg (abs cfg (i2c_slave_mqueue_probe cfg heap)) sched hok hs
    (by rw [hp]; exact hfit)
  rw [hp, List.nil_append, ← e1, ← e2] at hf
  have hfin : (run cfg (i2c_slave_mqueue_probe cfg heap) (schedule_ops sched)).2.filterMap
      delivered ++ pending cfg (run cfg (i2c_slave_mqueue_probe cfg heap) (schedule_ops sched)).1 =
      committed cfg sched := hf
  refine ⟨hfin, ?_⟩
  intro i m hi
  rw [← hfin]
  have hlt := (List.getElem?_eq_some.1 hi).1
  rw [List.getElem?_append_left hlt]
  exact hi

/-- FIFO order on a schedule with a read inside the second transaction: two
messages are delivered in commit order and the third is still pending. -/
theorem fifo_order_witness :
    (run ⟨8, 4, 0x42⟩ (i2c_slave_mqueue_probe ⟨8, 4, 0x42⟩ (fun _ => 0))
        (schedule_ops [.txn [.byte 0x10, .byte 0x20], .txn [.byte 1, .read [] 0 8],
          .read [] 0 8, .txn [.byte 2]])).2.filterMap delivered ++
      pending ⟨8, 4, 0x42⟩
        (run ⟨8, 4, 0x42⟩ (i2c_slave_mqueue_probe ⟨8, 4, 0x42⟩ (fun _ => 0))
          (schedule_ops [.txn [.byte 0x10, .byte 0x20], .txn [.byte 1, .read [] 0 8],
            .read [] 0 8, .txn [.byte 2]])).1 =
      [[0x84, 0x10, 0x20], [0x84, 1], [0x84, 2]] ∧
    (run ⟨8, 4, 0x42⟩ (i2c_slave_mqueue_probe ⟨8, 4, 0x42⟩ (fun _ => 0))
        (schedule_ops [.txn [.byte 0x10, .byte 0x20], .txn [.byte 1, .read [] 0 8],
          .read [] 0 8, .txn [.byte 2]])).2.filterMap delivered =
      [[0x84, 0x10, 0x20], [0x84, 1]] :=
  ⟨(fifo_order ⟨8, 4, 0x42⟩ 2 (fun _ => 0)
      [.txn [.byte 0x10, .byte 0x20], .txn [.byte 1, .read [] 0 8], .read [] 0 8, .txn [.byte 2]]
      (by decide) (by decide)
      (by simp [sched_item.ok, txn_payload, txn_item.count_ge])
      (by simp [schedule_ops, sched_item.ops, txn_item.op, within_retention])).1,
    by decide⟩

/-- C3 as stated fails: with 4 slots, after the 5 transactions `[1]` .. `[5]`
four reads deliver the last 3 messages and then nothing, not the last 4. -/
theorem overflow_last_n_fails :
    (run ⟨8, 4, 0x42⟩
      (run ⟨8, 4, 0x42⟩ (i2c_slave_mqueue_probe ⟨8, 4, 0x42⟩ (fun _ => 0))
        (commits [[1], [2], [3], [4], [5]])).1
      [.read [] 0 8, .read [] 0 8, .read [] 0 8, .read [] 0 8]).2.map delivered =
      [some [0x84, 3], some [0x84, 4], some [0x84, 5], none] ∧
    (run ⟨8, 4, 0x42⟩
      (run ⟨8, 4, 0x42⟩ (i2c_slave_mqueue_probe ⟨8, 4, 0x42⟩ (fun _ => 0))
        (commits [[1], [2], [3], [4], [5]])).1
      [.read [] 0 8, .read [] 0 8, .read [] 0 8, .read [] 0 8]).2.map delivered ≠
      [some [0x84, 2], some [0x84, 3], some [0x84, 4], some [0x84, 5]] := by
  decide

/-- C3, amended. Overflow keeps the last `N - 1`: with `N` slots (a power of
two), from the probed queue, after `N + 1` well-formed transactions and no read
in between, `N - 1` successive reads asking for at least the capacity deliver
exactly the last `N - 1` committed messages in commit order (the two oldest
are gone), after which nothing is pending and a further read returns 0. -/
theorem overflow_keeps_last (cfg : mq_config) (k : Nat) (heap : Nat → Nat)
    (payloads : List (List Nat)) (rs : List mq_op)
    (hN : cfg.MQ_QUEUE_SIZE = 2 ^ k) (hcap : 1 ≤ cfg.MQ_MSGBUF_SIZE)
    (hp : ∀ p ∈ payloads, 1 ≤ p.length ∧ p.length + 1 ≤ cfg.MQ_MSGBUF_SIZE)
    (hlen : payloads.length = cfg.MQ_QUEUE_SIZE + 1)
    (hr : ∀ op ∈ rs, op.reads_at_least cfg.MQ_MSGBUF_SIZE)
    (hrl : rs.length = cfg.MQ_QUEUE_SIZE - 1) :
    (run cfg (run cfg (i2c_slave_mqueue_probe cfg heap) (commits payloads)).1 rs).2.map delivered =
      ((payloads.drop 2).map fun p => some (header cfg :: p)) ∧
    pending cfg (run cfg (run cfg (i2c_slave_mqueue_probe cfg heap) (commits payloads)).1 rs).1
      = [] ∧
    ∀ (buf : List Nat) (pos count : Nat),
      i2c_slave_mqueue_bin_read cfg
        (run cfg (run cfg (i2c_slave_mqueue_probe cfg heap) (commits payloads)).1 rs).1
        buf pos count =
      ⟨0, (run cfg (run cfg (i2c_slave_mqueue_probe cfg heap) (commits payloads)).1 rs).1,
        buf, 0⟩ := by
  have hpos : 0 < cfg.MQ_QUEUE_SIZE := by rw [hN]; positivity
  have hwf := WF_probe cfg heap hpos
  have hwf1 := WF_run cfg _ (commits payloads) hpos hcap hwf
  have hwf2 := WF_run cfg _ rs hpos hcap hwf1
  have e1 := (abs_run cfg _ k (commits payloads) hN hcap hwf).1
  obtain ⟨e2, e3⟩ := abs_run cfg _ k rs hN hcap hwf1
  have hp0 := abs_probe cfg heap hpos
  have hc := fifo_commits cfg (abs cfg (i2c_slave_mqueue_probe cfg heap)) payloads hp
    (by rw [hp0]; exact Nat.zero_le _)
  rw [hp0, List.nil_append, ← e1] at hc
  have hkl : keep_last (cfg.MQ_QUEUE_SIZE - 1) (payloads.map fun p => header cfg :: p) =
      (payloads.drop 2).map fun p => header cfg :: p := by
    unfold keep_last
    rw [List.length_map, hlen, ← List.map_drop]
    congr 2
    omega
  rw [hkl] at hc
  have hsz : sized cfg (abs cfg (run cfg (i2c_slave_mqueue_probe cfg heap)
      (commits payloads)).1).pending := by
    rw [hc]
    intro m hm
    obtain ⟨p, hp1, rfl⟩ := List.mem_map.1 hm
    have := hp p (List.mem_of_mem_drop hp1)
    simp only [List.length_cons]
    omega
  obtain ⟨g1, g2⟩ := fifo_reads cfg _ rs hr hsz
  have hl : ((payloads.drop 2).map fun p => header cfg :: p).length = rs.length := by
    simp only [List.length_map, List.length_drop, hlen, hrl]
    omega
  have hpe : pending cfg (run cfg (run cfg (i2c_slave_mqueue_probe cfg heap)
      (commits payloads)).1 rs).1 = [] := by
    have := congrArg fifo.pending (e2.trans g2)
    simp only [abs] at this
    rw [this]
    have hc' : pending cfg (run cfg (i2c_slave_mqueue_probe cfg heap) (commits payloads)).1 =
        (payloads.drop 2).map fun p => header cfg :: p := hc
    rw [hc', ← hl]
    exact List.drop_length _
  refine ⟨?_, hpe, fun buf pos count => bin_read_pending_nil cfg _ buf pos count hwf2 hpe⟩
  rw [e3, g1, hc, ← hl, range_map_getElem?, List.map_map]
  rfl

/-- Overflow with 4 slots and 5 commits: three reads deliver the last 3
messages. -/
theorem overflow_keeps_last_witness :
    (run ⟨8, 4, 0x42⟩
      (run ⟨8, 4, 0x42⟩ (i2c_slave_mqueue_probe ⟨8, 4, 0x42⟩ (fun _ => 0))
        (commits [[1], [2], [3], [4], [5]])).1
      [.read [] 0 8, .read [] 0 8, .read [] 0 8]).2.map delivered =
      [some [0x84, 3], some [0x84, 4], some [0x84, 5]] :=
  (overflow_keeps_last ⟨8, 4, 0x42⟩ 2 (fun _ => 0) [[1], [2], [3], [4], [5]]
    [.read [] 0 8, .read [] 0 8, .read [] 0 8]
    (by decide) (by decide) (by decide) (by decide)
    (by simp [mq_op.reads_at_least]) (by decide)).1

/-- C4. An oversized transaction is never committed: from a reachable state (power
of two slots, capacity at least 1), after WRITE_REQUESTED, `k ≥ cap` payload
bytes and STOP the truncated flag is set, `in` and `out` are what they were, no
notification was made, the pending messages are the same, and whatever calls
follow, what they return and deliver does not depend on the bytes of the
oversized transaction. -/
theorem oversized_never_committed (cfg : mq_config) (k : Nat) (mq : mq_queue) (bs : List Nat)
    (hN : cfg.MQ_QUEUE_SIZE = 2 ^ k) (hcap : 1 ≤ cfg.MQ_MSGBUF_SIZE)
    (hr : Reachable cfg mq) (hk : cfg.MQ_MSGBUF_SIZE ≤ bs.length) :
    (run cfg mq (transaction bs)).1.truncated = true ∧
    (run cfg mq (transaction bs)).1.in_ = mq.in_ ∧
    (run cfg mq (transaction bs)).1.out = mq.out ∧
    notifications (run cfg mq (transaction bs)).2 = 0 ∧
    pending cfg (run cfg mq (transaction bs)).1 = pending cfg mq ∧
    ∀ (bs1 : List Nat) (ops : List mq_op), cfg.MQ_MSGBUF_SIZE ≤ bs1.length →
      (run cfg (run cfg mq (transaction bs)).1 ops).2 =
        (run cfg (run cfg mq (transaction bs1)).1 ops).2 := by
  have hpos : 0 < cfg.MQ_QUEUE_SIZE := by rw [hN]; positivity
  have hwf := WF_of_Reachable cfg mq hpos hcap hr
  have habs : ∀ l : List Nat, cfg.MQ_MSGBUF_SIZE ≤ l.length →
      abs cfg (run cfg mq (transaction l)).1 =
        { pending := pending cfg mq
          cur := header cfg :: l.take (cfg.MQ_MSGBUF_SIZE - 1)
          truncated := true } := by
    intro l hl
    rw [(abs_run cfg mq k (transaction l) hN hcap hwf).1, fifo_oversized cfg _ l hcap hl]
    rfl
  have ht : (run cfg mq (transaction bs)).1.truncated = true :=
    congrArg fifo.truncated (habs bs hk)
  have hsplit := run_append cfg mq (mq_op.event I2C_SLAVE_WRITE_REQUESTED 0 ::
      (bs.map fun b => mq_op.event I2C_SLAVE_WRITE_RECEIVED b)) [mq_op.event I2C_SLAVE_STOP 0]
  rw [← transaction_split] at hsplit
  obtain ⟨f1, f2, f3⟩ := run_body_frame cfg mq bs
  generalize run cfg mq (mq_op.event I2C_SLAVE_WRITE_REQUESTED 0 ::
      (bs.map fun b => mq_op.event I2C_SLAVE_WRITE_RECEIVED b)) = s at hsplit f1 f2 f3
  have hstop : i2c_slave_mqueue_callback cfg s.1 I2C_SLAVE_STOP 0 = ⟨0, s.1, 0, 0⟩ := by
    have e : s.1.truncated = true := by
      rw [← stop_keeps_truncated cfg _ 0, ← ht, hsplit]
      rfl
    simp only [i2c_slave_mqueue_callback, e, true_or, if_true]
  have hfin : run cfg mq (transaction bs) = (s.1, s.2 ++ [mq_obs.event 0 0 0]) := by
    rw [hsplit]
    simp only [run, step, hstop]
  refine ⟨ht, ?_, ?_, ?_, ?_, ?_⟩
  · rw [hfin]; exact f1
  · rw [hfin]; exact f2
  · rw [hfin]
    simp only [notifications_append, f3]
    rfl
  · exact congrArg fifo.pending (habs bs hk)
  · intro bs1 ops h1
    have w := WF_run cfg mq (transaction bs) hpos hcap hwf
    have w1 := WF_run cfg mq (transaction bs1) hpos hcap hwf
    rw [(abs_run cfg _ k ops hN hcap w).2, (abs_run cfg _ k ops hN hcap w1).2]
    apply fifo_alike_run
    rw [habs bs hk, habs bs1 h1]
    refine ⟨rfl, rfl, ?_, fun h => by simp at h⟩
    simp only [List.length_cons, List.length_take]
    omega

/-- Header plus 8 payload bytes against a capacity of 8: truncated is set and both
indices stay at 0. -/
theorem oversized_never_committed_witness :
    (run ⟨8, 4, 0x42⟩ (i2c_slave_mqueue_probe ⟨8, 4, 0x42⟩ (fun _ => 0))
      (transaction [1, 2, 3, 4, 5, 6, 7, 8])).1.truncated = true ∧
    (run ⟨8, 4, 0x42⟩ (i2c_slave_mqueue_probe ⟨8, 4, 0x42⟩ (fun _ => 0))
      (transaction [1, 2, 3, 4, 5, 6, 7, 8])).1.in_ = 0 ∧
    (run ⟨8, 4, 0x42⟩ (i2c_slave_mqueue_probe ⟨8, 4, 0x42⟩ (fun _ => 0))
      (transaction [1, 2, 3, 4, 5, 6, 7, 8])).1.out = 0 :=
  have h := oversized_never_committed ⟨8, 4, 0x42⟩ 2
    (i2c_slave_mqueue_probe ⟨8, 4, 0x42⟩ (fun _ => 0)) [1, 2, 3, 4, 5, 6, 7, 8]
    (by decide) (by decide) (Reachable.probe _) (by decide)
  ⟨h.1, h.2.1, h.2.2.1⟩

/-- C5. A STOP that discards is a no-op: when `truncated` is set or the current
slot holds fewer than 2 bytes, STOP returns 0, leaves the queue and `*val` as they
were and notifies nobody; in particular the STOP of a header-only transaction
(WRITE_REQUESTED directly followed by STOP) does so, from any state. -/
theorem stop_discard_is_noop (cfg : mq_config) (mq : mq_queue) (val : Nat)
    (h : mq.truncated = true ∨ (slot mq.queue mq.curr).len < 2) :
    i2c_slave_mqueue_callback cfg mq I2C_SLAVE_STOP val = ⟨0, mq, val, 0⟩ ∧
    ∀ (mq0 : mq_queue) (v0 : Nat),
      i2c_slave_mqueue_callback cfg
        (i2c_slave_mqueue_callback cfg mq0 I2C_SLAVE_WRITE_REQUESTED v0).mq I2C_SLAVE_STOP val =
      ⟨0, (i2c_slave_mqueue_callback cfg mq0 I2C_SLAVE_WRITE_REQUESTED v0).mq, val, 0⟩ := by
  constructor
  · simp only [i2c_slave_mqueue_callback, h, if_true]
  · intro mq0 v0
    have hl : (slot (i2c_slave_mqueue_callback cfg mq0 I2C_SLAVE_WRITE_REQUESTED v0).mq.queue
        (i2c_slave_mqueue_callback cfg mq0 I2C_SLAVE_WRITE_REQUESTED v0).mq.curr).len < 2 := by
      simp only [i2c_slave_mqueue_callback, slot_store_byte, slot_store_len, length_store_len]
      by_cases hc : mq0.curr < mq0.queue.length
      · simp [hc]
      · simp only [hc, and_false, if_false]
        have : slot mq0.queue mq0.curr = ⟨0, []⟩ := by
          simp [slot, List.getD_eq_getElem?_getD, List.getElem?_eq_none (Nat.le_of_not_lt hc)]
        simp [this]
    generalize (i2c_slave_mqueue_callback cfg mq0 I2C_SLAVE_WRITE_REQUESTED v0).mq = m at hl
    simp only [i2c_slave_mqueue_callback, hl, or_true, if_true]

/-- The STOP of a header-only transaction on the probed queue changes nothing. -/
theorem stop_discard_is_noop_witness :
    ((i2c_slave_mqueue_callback ⟨8, 4, 0x42⟩ (i2c_slave_mqueue_probe ⟨8, 4, 0x42⟩ (fun _ => 0))
        I2C_SLAVE_WRITE_REQUESTED 0).mq.truncated = true ∨
      (slot (i2c_slave_mqueue_callback ⟨8, 4, 0x42⟩
          (i2c_slave_mqueue_probe ⟨8, 4, 0x42⟩ (fun _ => 0)) I2C_SLAVE_WRITE_REQUESTED 0).mq.queue
        (i2c_slave_mqueue_callback ⟨8, 4, 0x42⟩ (i2c_slave_mqueue_probe ⟨8, 4, 0x42⟩ (fun _ => 0))
          I2C_SLAVE_WRITE_REQUESTED 0).mq.curr).len < 2) ∧
    i2c_slave_mqueue_callback ⟨8, 4, 0x42⟩
        (i2c_slave_mqueue_callback ⟨8, 4, 0x42⟩ (i2c_slave_mqueue_probe ⟨8, 4, 0x42⟩ (fun _ => 0))
          I2C_SLAVE_WRITE_REQUESTED 0).mq I2C_SLAVE_STOP 0 =
      ⟨0, (i2c_slave_mqueue_callback ⟨8, 4, 0x42⟩
        (i2c_slave_mqueue_probe ⟨8, 4, 0x42⟩ (fun _ => 0)) I2C_SLAVE_WRITE_REQUESTED 0).mq, 0, 0⟩ :=
  ⟨by decide, (stop_discard_is_noop ⟨8, 4, 0x42⟩ _ 0 (by decide)).1⟩

/-- C6. A too-small destination drops the message: in a reachable state with a
non-empty ring whose oldest message has length `L`, a read with `count < L`
returns -EOVERFLOW, leaves the destination untouched and advances `out` to the
next slot, a different one, so the pending messages lose their head; the next
read then reports empty if nothing else was pending, and otherwise acts on the
following message: it delivers it when it fits and drops it as well when not. -/
theorem small_destination_drops (cfg : mq_config) (k : Nat) (mq : mq_queue) (buf : List Nat)
    (pos count : Nat) (hN : cfg.MQ_QUEUE_SIZE = 2 ^ k) (hcap : 1 ≤ cfg.MQ_MSGBUF_SIZE)
    (hr : Reachable cfg mq) (hne : mq.out ≠ mq.in_)
    (hlt : count < (slot mq.queue mq.out).len) :
    (i2c_slave_mqueue_bin_read cfg mq buf pos count).ret = -EOVERFLOW ∧
    (i2c_slave_mqueue_bin_read cfg mq buf pos count).buf = buf ∧
    (i2c_slave_mqueue_bin_read cfg mq buf pos count).mq =
      { mq with out := MQ_QUEUE_NEXT cfg mq.out } ∧
    MQ_QUEUE_NEXT cfg mq.out ≠ mq.out ∧
    pending cfg mq = message (slot mq.queue mq.out) ::
      pending cfg (i2c_slave_mqueue_bin_read cfg mq buf pos count).mq ∧
    ∀ (buf2 : List Nat) (pos2 count2 : Nat),
      (pending cfg (i2c_slave_mqueue_bin_read cfg mq buf pos count).mq = [] →
        i2c_slave_mqueue_bin_read cfg (i2c_slave_mqueue_bin_read cfg mq buf pos count).mq
          buf2 pos2 count2 = ⟨0, (i2c_slave_mqueue_bin_read cfg mq buf pos count).mq, buf2, 0⟩) ∧
      (∀ (m2 : List Nat) (rest : List (List Nat)),
        pending cfg (i2c_slave_mqueue_bin_read cfg mq buf pos count).mq = m2 :: rest →
        (m2.length ≤ count2 →
          (i2c_slave_mqueue_bin_read cfg (i2c_slave_mqueue_bin_read cfg mq buf pos count).mq
            buf2 pos2 count2).ret = (m2.length : Int) ∧
          (i2c_slave_mqueue_bin_read cfg (i2c_slave_mqueue_bin_read cfg mq buf pos count).mq
            buf2 pos2 count2).buf = m2 ++ buf2.drop m2.length) ∧
        (count2 < m2.length →
          (i2c_slave_mqueue_bin_read cfg (i2c_slave_mqueue_bin_read cfg mq buf pos count).mq
            buf2 pos2 count2).ret = -EOVERFLOW ∧
          (i2c_slave_mqueue_bin_read cfg (i2c_slave_mqueue_bin_read cfg mq buf pos count).mq
            buf2 pos2 count2).buf = buf2)) := by
  have hpos : 0 < cfg.MQ_QUEUE_SIZE := by rw [hN]; positivity
  have hwf := WF_of_Reachable cfg mq hpos hcap hr
  have hwf1 := WF_bin_read cfg mq buf pos count hpos hwf
  have hnl : ¬ ((slot mq.queue mq.out).len ≤ count) := by omega
  have hmq : (i2c_slave_mqueue_bin_read cfg mq buf pos count).mq =
      { mq with out := MQ_QUEUE_NEXT cfg mq.out } := by
    simp only [i2c_slave_mqueue_bin_read, hne, ne_eq, not_false_eq_true, if_true, hnl, if_false]
  have h2 : 2 ≤ cfg.MQ_QUEUE_SIZE := by
    have a := hwf.in_lt
    have b := hwf.out_lt
    omega
  refine ⟨?_, ?_, hmq, MQ_QUEUE_NEXT_ne_self cfg k _ hN h2 hwf.out_lt, ?_, ?_⟩
  · simp only [i2c_slave_mqueue_bin_read, hne, ne_eq, not_false_eq_true, if_true, hnl, if_false]
  · simp only [i2c_slave_mqueue_bin_read, hne, ne_eq, not_false_eq_true, if_true, hnl, if_false]
  · rw [hmq]
    exact pending_advance cfg mq k hN hwf hne
  · intro buf2 pos2 count2
    refine ⟨fun hp => bin_read_pending_nil cfg _ buf2 pos2 count2 hwf1 hp, ?_⟩
    intro m2 rest hp
    have hrd := bin_read_pending_cons cfg _ k buf2 pos2 count2 m2 rest hN hwf1 hp
    exact ⟨hrd.2.2.1, hrd.2.2.2⟩

/-- With `[0x84, 0x10, 0x20]` and `[0x84, 0x01]` pending, a read of 2 bytes drops
the first message and the next read of 2 bytes delivers the second. -/
theorem small_destination_drops_witness :
    (i2c_slave_mqueue_bin_read ⟨8, 4, 0x42⟩
      (run ⟨8, 4, 0x42⟩ (i2c_slave_mqueue_probe ⟨8, 4, 0x42⟩ (fun _ => 0))
        (transaction [0x10, 0x20] ++ transaction [0x01])).1 [9, 9, 9] 0 2).ret = -EOVERFLOW ∧
    (i2c_slave_mqueue_bin_read ⟨8, 4, 0x42⟩
      (i2c_slave_mqueue_bin_read ⟨8, 4, 0x42⟩
        (run ⟨8, 4, 0x42⟩ (i2c_slave_mqueue_probe ⟨8, 4, 0x42⟩ (fun _ => 0))
          (transaction [0x10, 0x20] ++ transaction [0x01])).1 [9, 9, 9] 0 2).mq
      [9, 9, 9] 0 2).buf = [0x84, 0x01, 9] :=
  ⟨(small_destination_drops ⟨8, 4, 0x42⟩ 2
      (run ⟨8, 4, 0x42⟩ (i2c_slave_mqueue_probe ⟨8, 4, 0x42⟩ (fun _ => 0))
        (transaction [0x10, 0x20] ++ transaction [0x01])).1 [9, 9, 9] 0 2
      (by decide) (by decide) (Reachable_run _ _ _ (Reachable.probe _)) (by decide)
      (by decide)).1,
    by decide⟩

/-- C7. Reading an empty ring (`out == in`) returns 0, copies nothing to the
destination, leaves the whole queue unchanged and notifies nobody. -/
theorem read_empty_ring (cfg : mq_config) (mq : mq_queue) (buf : List Nat) (pos count : Nat)
    (h : mq.out = mq.in_) :
    i2c_slave_mqueue_bin_read cfg mq buf pos count = ⟨0, mq, buf, 0⟩ :=
  bin_read_of_empty cfg mq buf pos count h

/-- A read on the probed queue returns 0 and leaves the destination alone. -/
theorem read_empty_ring_witness :
    (i2c_slave_mqueue_probe ⟨8, 4, 0x42⟩ (fun _ => 0)).out =
        (i2c_slave_mqueue_probe ⟨8, 4, 0x42⟩ (fun _ => 0)).in_ ∧
      i2c_slave_mqueue_bin_read ⟨8, 4, 0x42⟩ (i2c_slave_mqueue_probe ⟨8, 4, 0x42⟩ (fun _ => 0))
        [7, 7, 7] 0 3 = ⟨0, i2c_slave_mqueue_probe ⟨8, 4, 0x42⟩ (fun _ => 0), [7, 7, 7], 0⟩ :=
  ⟨rfl, read_empty_ring _ _ _ _ _ rfl⟩

/-- C8 as stated fails for a one-slot ring: with `MQ_QUEUE_SIZE = 1` (a power of
two), the STOP that commits the transaction `[0x10]` notifies, yet leaves
`out == in`. -/
theorem commit_readiness_one_slot :
    (⟨8, 1, 0x42⟩ : mq_config).MQ_QUEUE_SIZE = 2 ^ 0 ∧
    Reachable ⟨8, 1, 0x42⟩
      (i2c_slave_mqueue_callback ⟨8, 1, 0x42⟩
        (i2c_slave_mqueue_callback ⟨8, 1, 0x42⟩ (i2c_slave_mqueue_probe ⟨8, 1, 0x42⟩ (fun _ => 0))
          I2C_SLAVE_WRITE_REQUESTED 0).mq I2C_SLAVE_WRITE_RECEIVED 0x10).mq ∧
    (i2c_slave_mqueue_callback ⟨8, 1, 0x42⟩
        (i2c_slave_mqueue_callback ⟨8, 1, 0x42⟩ (i2c_slave_mqueue_probe ⟨8, 1, 0x42⟩ (fun _ => 0))
          I2C_SLAVE_WRITE_REQUESTED 0).mq I2C_SLAVE_WRITE_RECEIVED 0x10).mq.truncated = false ∧
    2 ≤ (slot (i2c_slave_mqueue_callback ⟨8, 1, 0x42⟩
        (i2c_slave_mqueue_callback ⟨8, 1, 0x42⟩ (i2c_slave_mqueue_probe ⟨8, 1, 0x42⟩ (fun _ => 0))
          I2C_SLAVE_WRITE_REQUESTED 0).mq I2C_SLAVE_WRITE_RECEIVED 0x10).mq.queue 0).len ∧
    (i2c_slave_mqueue_callback ⟨8, 1, 0x42⟩
      (i2c_slave_mqueue_callback ⟨8, 1, 0x42⟩
        (i2c_slave_mqueue_callback ⟨8, 1, 0x42⟩ (i2c_slave_mqueue_probe ⟨8, 1, 0x42⟩ (fun _ => 0))
          I2C_SLAVE_WRITE_REQUESTED 0).mq I2C_SLAVE_WRITE_RECEIVED 0x10).mq
      I2C_SLAVE_STOP 0).notify = 1 ∧
    (i2c_slave_mqueue_callback ⟨8, 1, 0x42⟩
      (i2c_slave_mqueue_callback ⟨8, 1, 0x42⟩
        (i2c_slave_mqueue_callback ⟨8, 1, 0x42⟩ (i2c_slave_mqueue_probe ⟨8, 1, 0x42⟩ (fun _ => 0))
          I2C_SLAVE_WRITE_REQUESTED 0).mq I2C_SLAVE_WRITE_RECEIVED 0x10).mq
      I2C_SLAVE_STOP 0).mq.out =
    (i2c_slave_mqueue_callback ⟨8, 1, 0x42⟩
      (i2c_slave_mqueue_callback ⟨8, 1, 0x42⟩
        (i2c_slave_mqueue_callback ⟨8, 1, 0x42⟩ (i2c_slave_mqueue_probe ⟨8, 1, 0x42⟩ (fun _ => 0))
          I2C_SLAVE_WRITE_REQUESTED 0).mq I2C_SLAVE_WRITE_RECEIVED 0x10).mq
      I2C_SLAVE_STOP 0).mq.in_ :=
  ⟨by decide, Reachable.event _ _ _ (Reachable.event _ _ _ (Reachable.probe _)), by decide,
    by decide, by decide, by decide⟩

/-- C8, amended. With a power-of-two slot count of at least 2, in every
state, reachable or not, a STOP that commits (truncated clear, at least 2 bytes
in the current slot) leaves the ring non-empty, `out != in`, and notifies exactly once. -/
theorem commit_makes_ready (cfg : mq_config) (k : Nat) (mq : mq_queue) (val : Nat)
    (hN : cfg.MQ_QUEUE_SIZE = 2 ^ k) (h2 : 2 ≤ cfg.MQ_QUEUE_SIZE)
    (ht : mq.truncated = false) (hl : 2 ≤ (slot mq.queue mq.curr).len) :
    (i2c_slave_mqueue_callback cfg mq I2C_SLAVE_STOP val).mq.out ≠
      (i2c_slave_mqueue_callback cfg mq I2C_SLAVE_STOP val).mq.in_ ∧
    (i2c_slave_mqueue_callback cfg mq I2C_SLAVE_STOP val).notify = 1 := by
  have hpos : 0 < cfg.MQ_QUEUE_SIZE := by omega
  have hn := MQ_QUEUE_NEXT_lt cfg mq.in_ hpos
  have hd : ¬ (mq.truncated = true ∨ (slot mq.queue mq.curr).len < 2) := by
    rw [ht]; simp; omega
  simp only [i2c_slave_mqueue_callback, hd, if_false]
  refine ⟨?_, trivial⟩
  split_ifs with he
  · rw [he]
    exact MQ_QUEUE_NEXT_ne_self cfg k _ hN h2 hn
  · exact he

/-- With 4 slots the STOP committing `[0x10]` leaves `out != in`. -/
theorem commit_makes_ready_witness :
    (⟨8, 4, 0x42⟩ : mq_config).MQ_QUEUE_SIZE = 2 ^ 2 ∧
    (i2c_slave_mqueue_callback ⟨8, 4, 0x42⟩
      (i2c_slave_mqueue_callback ⟨8, 4, 0x42⟩
        (i2c_slave_mqueue_callback ⟨8, 4, 0x42⟩ (i2c_slave_mqueue_probe ⟨8, 4, 0x42⟩ (fun _ => 0))
          I2C_SLAVE_WRITE_REQUESTED 0).mq I2C_SLAVE_WRITE_RECEIVED 0x10).mq
      I2C_SLAVE_STOP 0).mq.out ≠
    (i2c_slave_mqueue_callback ⟨8, 4, 0x42⟩
      (i2c_slave_mqueue_callback ⟨8, 4, 0x42⟩
        (i2c_slave_mqueue_callback ⟨8, 4, 0x42⟩ (i2c_slave_mqueue_probe ⟨8, 4, 0x42⟩ (fun _ => 0))
          I2C_SLAVE_WRITE_REQUESTED 0).mq I2C_SLAVE_WRITE_RECEIVED 0x10).mq
      I2C_SLAVE_STOP 0).mq.in_ :=
  ⟨by decide, (commit_makes_ready ⟨8, 4, 0x42⟩ 2 _ 0 (by decide) (by decide)
    (by decide) (by decide)).1⟩

/-- C9. In every reachable state with exactly one pending message, a read,
whether it copies the message or returns -EOVERFLOW, leaves `out == in` and
notifies nobody, and any further read reports the empty ring: it returns 0 and
changes nothing. -/
theorem read_drains_last (cfg : mq_config) (k : Nat) (mq : mq_queue) (buf : List Nat)
    (pos count : Nat) (hN : cfg.MQ_QUEUE_SIZE = 2 ^ k) (hr : Reachable cfg mq)
    (h1 : pending_count cfg mq = 1) :
    ((i2c_slave_mqueue_bin_read cfg mq buf pos count).ret = ((slot mq.queue mq.out).len : Int) ∨
      (i2c_slave_mqueue_bin_read cfg mq buf pos count).ret = -EOVERFLOW) ∧
    (i2c_slave_mqueue_bin_read cfg mq buf pos count).mq.out =
      (i2c_slave_mqueue_bin_read cfg mq buf pos count).mq.in_ ∧
    (i2c_slave_mqueue_bin_read cfg mq buf pos count).notify = 0 ∧
    ∀ (buf2 : List Nat) (pos2 count2 : Nat),
      i2c_slave_mqueue_bin_read cfg (i2c_slave_mqueue_bin_read cfg mq buf pos count).mq
          buf2 pos2 count2 =
        ⟨0, (i2c_slave_mqueue_bin_read cfg mq buf pos count).mq, buf2, 0⟩ := by
  have hpos : 0 < cfg.MQ_QUEUE_SIZE := by rw [hN]; positivity
  obtain ⟨a, b⟩ := idx_of_Reachable cfg mq hpos hr
  have hne : mq.out ≠ mq.in_ := by
    intro he
    unfold pending_count at h1
    rw [sub_mod_cases _ _ _ a b] at h1
    split_ifs at h1 <;> omega
  have hnx : MQ_QUEUE_NEXT cfg mq.out = mq.in_ := by
    rw [MQ_QUEUE_NEXT_eq_mod cfg k _ hN, succ_mod_cases _ _ b]
    unfold pending_count at h1
    rw [sub_mod_cases _ _ _ a b] at h1
    split_ifs at h1 ⊢ <;> omega
  have hout : (i2c_slave_mqueue_bin_read cfg mq buf pos count).mq.out =
      (i2c_slave_mqueue_bin_read cfg mq buf pos count).mq.in_ := by
    simp only [i2c_slave_mqueue_bin_read, hne, ne_eq, not_false_eq_true, if_true]
    split_ifs <;> exact hnx
  refine ⟨?_, hout, ?_, ?_⟩
  · simp only [i2c_slave_mqueue_bin_read, hne, ne_eq, not_false_eq_true, if_true]
    split_ifs <;> simp
  · simp only [i2c_slave_mqueue_bin_read, hne, ne_eq, not_false_eq_true, if_true, hnx]
    split_ifs <;> simp_all
  · intro buf2 pos2 count2
    exact bin_read_of_empty cfg _ buf2 pos2 count2 hout

/-- With one message pending, a read of 3 bytes leaves `out == in`. -/
theorem read_drains_last_witness :
    pending_count ⟨8, 4, 0x42⟩
      (run ⟨8, 4, 0x42⟩ (i2c_slave_mqueue_probe ⟨8, 4, 0x42⟩ (fun _ => 0))
        (transaction [0x10, 0x20])).1 = 1 ∧
    (i2c_slave_mqueue_bin_read ⟨8, 4, 0x42⟩
      (run ⟨8, 4, 0x42⟩ (i2c_slave_mqueue_probe ⟨8, 4, 0x42⟩ (fun _ => 0))
        (transaction [0x10, 0x20])).1 [9, 9, 9] 0 3).mq.out =
    (i2c_slave_mqueue_bin_read ⟨8, 4, 0x42⟩
      (run ⟨8, 4, 0x42⟩ (i2c_slave_mqueue_probe ⟨8, 4, 0x42⟩ (fun _ => 0))
        (transaction [0x10, 0x20])).1 [9, 9, 9] 0 3).mq.in_ :=
  ⟨by decide,
    (read_drains_last ⟨8, 4, 0x42⟩ 2
      (run ⟨8, 4, 0x42⟩ (i2c_slave_mqueue_probe ⟨8, 4, 0x42⟩ (fun _ => 0))
        (transaction [0x10, 0x20])).1 [9, 9, 9] 0 3
      (by decide) (Reachable_run _ _ _ (Reachable.probe _)) (by decide)).2.1⟩

/-- C10. The read notifies exactly when the ring was non-empty before the call
and is still non-empty once `out` has been advanced, and it notifies at most
once. -/
theorem read_notifies_iff_more (cfg : mq_config) (mq : mq_queue) (buf : List Nat)
    (pos count : Nat) :
    ((i2c_slave_mqueue_bin_read cfg mq buf pos count).notify = 1 ↔
      (mq.out ≠ mq.in_ ∧
        (i2c_slave_mqueue_bin_read cfg mq buf pos count).mq.out ≠
          (i2c_slave_mqueue_bin_read cfg mq buf pos count).mq.in_)) ∧
    (i2c_slave_mqueue_bin_read cfg mq buf pos count).notify ≤ 1 ∧
    (mq.out ≠ mq.in_ →
      (i2c_slave_mqueue_bin_read cfg mq buf pos count).mq.out = MQ_QUEUE_NEXT cfg mq.out ∧
      (i2c_slave_mqueue_bin_read cfg mq buf pos count).mq.in_ = mq.in_) := by
  simp only [i2c_slave_mqueue_bin_read]
  split_ifs <;> simp_all

/-- C11. A successful read returns exactly one message and never more than
asked: in a reachable state with a non-empty ring whose oldest message has
length `L ≤ count`, the read returns `L`, puts the `L` bytes of that message at
positions `0 .. L-1` of the destination and leaves every later position as it
was, advances `out` by exactly one slot and changes nothing else of the queue,
and `L ≤ count`, `L ≤ cap`. -/
theorem read_returns_one_message (cfg : mq_config) (k : Nat) (mq : mq_queue) (buf : List Nat)
    (pos count : Nat) (hN : cfg.MQ_QUEUE_SIZE = 2 ^ k) (hcap : 1 ≤ cfg.MQ_MSGBUF_SIZE)
    (hr : Reachable cfg mq) (hne : mq.out ≠ mq.in_)
    (hle : (slot mq.queue mq.out).len ≤ count) :
    (i2c_slave_mqueue_bin_read cfg mq buf pos count).ret = ((slot mq.queue mq.out).len : Int) ∧
    (i2c_slave_mqueue_bin_read cfg mq buf pos count).buf =
      message (slot mq.queue mq.out) ++ buf.drop (slot mq.queue mq.out).len ∧
    (message (slot mq.queue mq.out)).length = (slot mq.queue mq.out).len ∧
    (∀ i, i < (slot mq.queue mq.out).len →
      (i2c_slave_mqueue_bin_read cfg mq buf pos count).buf[i]? = (slot mq.queue mq.out).buf[i]?) ∧
    (∀ j, (i2c_slave_mqueue_bin_read cfg mq buf pos count).buf[(slot mq.queue mq.out).len + j]? =
      buf[(slot mq.queue mq.out).len + j]?) ∧
    (i2c_slave_mqueue_bin_read cfg mq buf pos count).mq =
      { mq with out := (mq.out + 1) % cfg.MQ_QUEUE_SIZE } ∧
    pending cfg mq = message (slot mq.queue mq.out) ::
      pending cfg (i2c_slave_mqueue_bin_read cfg mq buf pos count).mq ∧
    (slot mq.queue mq.out).len ≤ count ∧
    (slot mq.queue mq.out).len ≤ cfg.MQ_MSGBUF_SIZE := by
  have hpos : 0 < cfg.MQ_QUEUE_SIZE := by rw [hN]; positivity
  have hwf := WF_of_Reachable cfg mq hpos hcap hr
  have hml := message_length cfg mq hwf mq.out hwf.out_lt
  have hmq : (i2c_slave_mqueue_bin_read cfg mq buf pos count).mq =
      { mq with out := MQ_QUEUE_NEXT cfg mq.out } := by
    simp only [i2c_slave_mqueue_bin_read, hne, ne_eq, not_false_eq_true, if_true, hle]
  have hbuf : (i2c_slave_mqueue_bin_read cfg mq buf pos count).buf =
      message (slot mq.queue mq.out) ++ buf.drop (slot mq.queue mq.out).len := by
    simp only [i2c_slave_mqueue_bin_read, hne, ne_eq, not_false_eq_true, if_true, hle, memcpy,
      message]
  refine ⟨?_, hbuf, hml, ?_, ?_, ?_, ?_, hle, hwf.len_le _ hwf.out_lt⟩
  · simp only [i2c_slave_mqueue_bin_read, hne, ne_eq, not_false_eq_true, if_true, hle]
  · intro i hi
    rw [hbuf, List.getElem?_append_left (by omega)]
    simp only [message, List.getElem?_take, hi, if_true]
  · intro j
    rw [hbuf, List.getElem?_append_right (by omega), hml]
    simp
  · rw [hmq, MQ_QUEUE_NEXT_eq_mod cfg k _ hN]
  · rw [hmq]
    exact pending_advance cfg mq k hN hwf hne

/-- With `[0x84, 0x10, 0x20]` pending, a read of 8 bytes into a buffer of nines
returns 3 and overwrites the first three positions only. -/
theorem read_returns_one_message_witness :
    (i2c_slave_mqueue_bin_read ⟨8, 4, 0x42⟩
      (run ⟨8, 4, 0x42⟩ (i2c_slave_mqueue_probe ⟨8, 4, 0x42⟩ (fun _ => 0))
        (transaction [0x10, 0x20])).1 [9, 9, 9, 9, 9, 9, 9, 9] 0 8).ret = 3 ∧
    (i2c_slave_mqueue_bin_read ⟨8, 4, 0x42⟩
      (run ⟨8, 4, 0x42⟩ (i2c_slave_mqueue_probe ⟨8, 4, 0x42⟩ (fun _ => 0))
        (transaction [0x10, 0x20])).1 [9, 9, 9, 9, 9, 9, 9, 9] 0 8).buf =
      [0x84, 0x10, 0x20, 9, 9, 9, 9, 9] :=
  ⟨(read_returns_one_message ⟨8, 4, 0x42⟩ 2
      (run ⟨8, 4, 0x42⟩ (i2c_slave_mqueue_probe ⟨8, 4, 0x42⟩ (fun _ => 0))
        (transaction [0x10, 0x20])).1 [9, 9, 9, 9, 9, 9, 9, 9] 0 8
      (by decide) (by decide) (Reachable_run _ _ _ (Reachable.probe _)) (by decide)
      (by decide)).1,
    by decide⟩

/-- C12. A byte beyond capacity is refused: in every state whose current slot
holds `cap` bytes, WRITE_RECEIVED returns -EINVAL, sets truncated and changes
nothing else (slots, lengths, indices, `*val`), without a notification;
consequently, from a reachable state with truncated set, after any calls other
than WRITE_REQUESTED a further WRITE_RECEIVED is refused with the same error and
leaves the whole queue as it was. -/
theorem byte_beyond_capacity_refused (cfg : mq_config) (mq : mq_queue) (v : Nat)
    (hfull : (slot mq.queue mq.curr).len = cfg.MQ_MSGBUF_SIZE) :
    i2c_slave_mqueue_callback cfg mq I2C_SLAVE_WRITE_RECEIVED v =
      ⟨-EINVAL, { mq with truncated := true }, v, 0⟩ ∧
    ∀ (mq0 : mq_queue) (ops : List mq_op) (w : Nat),
      0 < cfg.MQ_QUEUE_SIZE → 1 ≤ cfg.MQ_MSGBUF_SIZE → Reachable cfg mq0 →
      mq0.truncated = true → (∀ op ∈ ops, op.not_start) →
      i2c_slave_mqueue_callback cfg (run cfg mq0 ops).1 I2C_SLAVE_WRITE_RECEIVED w =
        ⟨-EINVAL, (run cfg mq0 ops).1, w, 0⟩ := by
  refine ⟨callback_full cfg mq v (by omega), ?_⟩
  intro mq0 ops w hN hcap hr ht ho
  have h1 := truncated_run cfg mq0 ops hN hcap hr ht ho
  have h2 := truncated_full cfg _ hN hcap (Reachable_run cfg mq0 ops hr) h1
  rw [callback_full cfg _ w (by omega)]
  generalize (run cfg mq0 ops).1 = s at h1
  cases s
  simp only at h1
  subst h1
  rfl

/-- Header and 7 bytes fill a slot of capacity 8; the next byte is refused. -/
theorem byte_beyond_capacity_refused_witness :
    (slot (run ⟨8, 4, 0x42⟩ (i2c_slave_mqueue_probe ⟨8, 4, 0x42⟩ (fun _ => 0))
        [.event I2C_SLAVE_WRITE_REQUESTED 0, .event I2C_SLAVE_WRITE_RECEIVED 1,
          .event I2C_SLAVE_WRITE_RECEIVED 2, .event I2C_SLAVE_WRITE_RECEIVED 3,
          .event I2C_SLAVE_WRITE_RECEIVED 4, .event I2C_SLAVE_WRITE_RECEIVED 5,
          .event I2C_SLAVE_WRITE_RECEIVED 6, .event I2C_SLAVE_WRITE_RECEIVED 7]).1.queue 0).len
      = 8 ∧
    (i2c_slave_mqueue_callback ⟨8, 4, 0x42⟩
      (run ⟨8, 4, 0x42⟩ (i2c_slave_mqueue_probe ⟨8, 4, 0x42⟩ (fun _ => 0))
        [.event I2C_SLAVE_WRITE_REQUESTED 0, .event I2C_SLAVE_WRITE_RECEIVED 1,
          .event I2C_SLAVE_WRITE_RECEIVED 2, .event I2C_SLAVE_WRITE_RECEIVED 3,
          .event I2C_SLAVE_WRITE_RECEIVED 4, .event I2C_SLAVE_WRITE_RECEIVED 5,
          .event I2C_SLAVE_WRITE_RECEIVED 6, .event I2C_SLAVE_WRITE_RECEIVED 7]).1
      I2C_SLAVE_WRITE_RECEIVED 8).ret = -EINVAL ∧
    i2c_slave_mqueue_callback ⟨8, 4, 0x42⟩
      (run ⟨8, 4, 0x42⟩
        (run ⟨8, 4, 0x42⟩ (i2c_slave_mqueue_probe ⟨8, 4, 0x42⟩ (fun _ => 0))
          (transaction [1, 2, 3, 4, 5, 6, 7, 8])).1
        [.event I2C_SLAVE_STOP 0, .read [] 0 8]).1 I2C_SLAVE_WRITE_RECEIVED 9 =
      ⟨-EINVAL, (run ⟨8, 4, 0x42⟩
        (run ⟨8, 4, 0x42⟩ (i2c_slave_mqueue_probe ⟨8, 4, 0x42⟩ (fun _ => 0))
          (transaction [1, 2, 3, 4, 5, 6, 7, 8])).1
        [.event I2C_SLAVE_STOP 0, .read [] 0 8]).1, 9, 0⟩ :=
  ⟨by decide,
    congrArg cb_result.ret (byte_beyond_capacity_refused ⟨8, 4, 0x42⟩
      (run ⟨8, 4, 0x42⟩ (i2c_slave_mqueue_probe ⟨8, 4, 0x42⟩ (fun _ => 0))
        [.event I2C_SLAVE_WRITE_REQUESTED 0, .event I2C_SLAVE_WRITE_RECEIVED 1,
          .event I2C_SLAVE_WRITE_RECEIVED 2, .event I2C_SLAVE_WRITE_RECEIVED 3,
          .event I2C_SLAVE_WRITE_RECEIVED 4, .event I2C_SLAVE_WRITE_RECEIVED 5,
          .event I2C_SLAVE_WRITE_RECEIVED 6, .event I2C_SLAVE_WRITE_RECEIVED 7]).1
      8 (by decide)).1,
    (byte_beyond_capacity_refused ⟨8, 4, 0x42⟩
      (run ⟨8, 4, 0x42⟩ (i2c_slave_mqueue_probe ⟨8, 4, 0x42⟩ (fun _ => 0))
        [.event I2C_SLAVE_WRITE_REQUESTED 0, .event I2C_SLAVE_WRITE_RECEIVED 1,
          .event I2C_SLAVE_WRITE_RECEIVED 2, .event I2C_SLAVE_WRITE_RECEIVED 3,
          .event I2C_SLAVE_WRITE_RECEIVED 4, .event I2C_SLAVE_WRITE_RECEIVED 5,
          .event I2C_SLAVE_WRITE_RECEIVED 6, .event I2C_SLAVE_WRITE_RECEIVED 7]).1
      8 (by decide)).2
      (run ⟨8, 4, 0x42⟩ (i2c_slave_mqueue_probe ⟨8, 4, 0x42⟩ (fun _ => 0))
        (transaction [1, 2, 3, 4, 5, 6, 7, 8])).1
      [.event I2C_SLAVE_STOP 0, .read [] 0 8] 9 (by decide) (by decide)
      (Reachable_run _ _ _ (Reachable.probe _)) (by decide)
      (by simp [mq_op.not_start])⟩

/-- C13. A byte within capacity is appended: in a reachable state whose current
slot holds `len < cap` bytes, WRITE_RECEIVED(v) returns 0 without a
notification, stores `v` at position `len` of the current slot and makes its
length `len + 1`; the other bytes of the slot, the truncated flag, `in`, `out`,
the current slot index and every other slot are unchanged. -/
theorem byte_within_capacity_appended (cfg : mq_config) (mq : mq_queue) (v : Nat)
    (hN : 0 < cfg.MQ_QUEUE_SIZE) (hr : Reachable cfg mq)
    (hlt : (slot mq.queue mq.curr).len < cfg.MQ_MSGBUF_SIZE) :
    (i2c_slave_mqueue_callback cfg mq I2C_SLAVE_WRITE_RECEIVED v).ret = 0 ∧
    (i2c_slave_mqueue_callback cfg mq I2C_SLAVE_WRITE_RECEIVED v).val = v ∧
    (i2c_slave_mqueue_callback cfg mq I2C_SLAVE_WRITE_RECEIVED v).notify = 0 ∧
    slot (i2c_slave_mqueue_callback cfg mq I2C_SLAVE_WRITE_RECEIVED v).mq.queue mq.curr =
      ⟨(slot mq.queue mq.curr).len + 1,
        (slot mq.queue mq.curr).buf.set (slot mq.queue mq.curr).len v⟩ ∧
    ((slot mq.queue mq.curr).buf.set (slot mq.queue mq.curr).len v)[(slot mq.queue mq.curr).len]?
      = some v ∧
    (∀ i, i ≠ (slot mq.queue mq.curr).len →
      ((slot mq.queue mq.curr).buf.set (slot mq.queue mq.curr).len v)[i]? =
        (slot mq.queue mq.curr).buf[i]?) ∧
    (∀ j, j ≠ mq.curr →
      slot (i2c_slave_mqueue_callback cfg mq I2C_SLAVE_WRITE_RECEIVED v).mq.queue j =
        slot mq.queue j) ∧
    (i2c_slave_mqueue_callback cfg mq I2C_SLAVE_WRITE_RECEIVED v).mq.queue.length =
      mq.queue.length ∧
    (i2c_slave_mqueue_callback cfg mq I2C_SLAVE_WRITE_RECEIVED v).mq.truncated = mq.truncated ∧
    (i2c_slave_mqueue_callback cfg mq I2C_SLAVE_WRITE_RECEIVED v).mq.in_ = mq.in_ ∧
    (i2c_slave_mqueue_callback cfg mq I2C_SLAVE_WRITE_RECEIVED v).mq.out = mq.out ∧
    (i2c_slave_mqueue_callback cfg mq I2C_SLAVE_WRITE_RECEIVED v).mq.curr = mq.curr := by
  have hwf := WF_of_Reachable cfg mq hN (by omega) hr
  have hc : mq.curr < cfg.MQ_QUEUE_SIZE := hwf.curr_eq ▸ hwf.in_lt
  have hcl : mq.curr < mq.queue.length := hwf.qlen ▸ hc
  have hb := hwf.buf_len mq.curr hc
  simp only [i2c_slave_mqueue_callback, hlt, if_true]
  refine ⟨trivial, trivial, trivial, ?_, ?_, ?_, ?_, ?_, trivial, trivial, trivial, trivial⟩
  · simp only [slot_store_byte, slot_store_len, length_store_len, hcl, and_self, if_true]
  · rw [List.getElem?_set_self (by omega)]
  · intro i hi
    rw [List.getElem?_set_ne (Ne.symm hi)]
  · intro j hj
    have : ¬ (mq.curr = j) := fun e => hj e.symm
    simp only [slot_store_byte, slot_store_len, this, false_and, if_false]
  · simp only [length_store_byte, length_store_len]

/-- After the start of a transaction on the probed queue, the byte 0x10 lands at
position 1 and the length becomes 2. -/
theorem byte_within_capacity_appended_witness :
    (slot (i2c_slave_mqueue_callback ⟨8, 4, 0x42⟩
        (i2c_slave_mqueue_callback ⟨8, 4, 0x42⟩ (i2c_slave_mqueue_probe ⟨8, 4, 0x42⟩ (fun _ => 0))
          I2C_SLAVE_WRITE_REQUESTED 0).mq I2C_SLAVE_WRITE_RECEIVED 0x10).mq.queue 0) =
      ⟨2, [0x84, 0x10, 0, 0, 0, 0, 0, 0]⟩ :=
  (byte_within_capacity_appended ⟨8, 4, 0x42⟩
    (i2c_slave_mqueue_callback ⟨8, 4, 0x42⟩ (i2c_slave_mqueue_probe ⟨8, 4, 0x42⟩ (fun _ => 0))
      I2C_SLAVE_WRITE_REQUESTED 0).mq 0x10 (by decide)
    (Reachable.event _ _ _ (Reachable.probe _)) (by decide)).2.2.2.1

/-- C14. Start of transaction: in a reachable state (capacity at least 1),
WRITE_REQUESTED returns 0 without a notification, clears truncated, sets the
length of the current slot to 1 and its byte 0 to `addr << 1` as a `u8` (which
is `addr << 1` itself for a 7-bit address), whatever the slot and the flag held
before; the other bytes of the slot, `in`, `out`, the current slot index and
every other slot are unchanged. -/
theorem start_of_transaction (cfg : mq_config) (mq : mq_queue) (v : Nat)
    (hN : 0 < cfg.MQ_QUEUE_SIZE) (hcap : 1 ≤ cfg.MQ_MSGBUF_SIZE) (hr : Reachable cfg mq) :
    (i2c_slave_mqueue_callback cfg mq I2C_SLAVE_WRITE_REQUESTED v).ret = 0 ∧
    (i2c_slave_mqueue_callback cfg mq I2C_SLAVE_WRITE_REQUESTED v).val = v ∧
    (i2c_slave_mqueue_callback cfg mq I2C_SLAVE_WRITE_REQUESTED v).notify = 0 ∧
    (i2c_slave_mqueue_callback cfg mq I2C_SLAVE_WRITE_REQUESTED v).mq.truncated = false ∧
    slot (i2c_slave_mqueue_callback cfg mq I2C_SLAVE_WRITE_REQUESTED v).mq.queue mq.curr =
      ⟨1, (slot mq.queue mq.curr).buf.set 0 ((cfg.addr <<< 1) % 256)⟩ ∧
    ((slot mq.queue mq.curr).buf.set 0 ((cfg.addr <<< 1) % 256))[0]? =
      some ((cfg.addr <<< 1) % 256) ∧
    (cfg.addr < 128 → (cfg.addr <<< 1) % 256 = cfg.addr <<< 1) ∧
    (∀ i, i ≠ 0 → ((slot mq.queue mq.curr).buf.set 0 ((cfg.addr <<< 1) % 256))[i]? =
      (slot mq.queue mq.curr).buf[i]?) ∧
    (∀ j, j ≠ mq.curr →
      slot (i2c_slave_mqueue_callback cfg mq I2C_SLAVE_WRITE_REQUESTED v).mq.queue j =
        slot mq.queue j) ∧
    (i2c_slave_mqueue_callback cfg mq I2C_SLAVE_WRITE_REQUESTED v).mq.queue.length =
      mq.queue.length ∧
    (i2c_slave_mqueue_callback cfg mq I2C_SLAVE_WRITE_REQUESTED v).mq.in_ = mq.in_ ∧
    (i2c_slave_mqueue_callback cfg mq I2C_SLAVE_WRITE_REQUESTED v).mq.out = mq.out ∧
    (i2c_slave_mqueue_callback cfg mq I2C_SLAVE_WRITE_REQUESTED v).mq.curr = mq.curr := by
  have hwf := WF_of_Reachable cfg mq hN hcap hr
  have hc : mq.curr < cfg.MQ_QUEUE_SIZE := hwf.curr_eq ▸ hwf.in_lt
  have hcl : mq.curr < mq.queue.length := hwf.qlen ▸ hc
  have hb := hwf.buf_len mq.curr hc
  simp only [i2c_slave_mqueue_callback]
  refine ⟨trivial, trivial, trivial, trivial, ?_, ?_, ?_, ?_, ?_, ?_, trivial, trivial, trivial⟩
  · simp only [slot_store_byte, slot_store_len, length_store_len, hcl, and_self, if_true]
  · rw [List.getElem?_set_self (by omega)]
  · intro ha
    apply Nat.mod_eq_of_lt
    rw [Nat.shiftLeft_eq]
    omega
  · intro i hi
    rw [List.getElem?_set_ne (Ne.symm hi)]
  · intro j hj
    have : ¬ (mq.curr = j) := fun e => hj e.symm
    simp only [slot_store_byte, slot_store_len, this, false_and, if_false]
  · simp only [length_store_byte, length_store_len]

/-- After an oversized transaction, a new start clears the flag and leaves
header and length 1 in the slot, the stale bytes behind them. -/
theorem start_of_transaction_witness :
    (i2c_slave_mqueue_callback ⟨8, 4, 0x42⟩
      (run ⟨8, 4, 0x42⟩ (i2c_slave_mqueue_probe ⟨8, 4, 0x42⟩ (fun _ => 0))
        (transaction [1, 2, 3, 4, 5, 6, 7, 8])).1 I2C_SLAVE_WRITE_REQUESTED 0).mq.truncated
      = false ∧
    slot (i2c_slave_mqueue_callback ⟨8, 4, 0x42⟩
      (run ⟨8, 4, 0x42⟩ (i2c_slave_mqueue_probe ⟨8, 4, 0x42⟩ (fun _ => 0))
        (transaction [1, 2, 3, 4, 5, 6, 7, 8])).1 I2C_SLAVE_WRITE_REQUESTED 0).mq.queue 0 =
      ⟨1, [0x84, 1, 2, 3, 4, 5, 6, 7]⟩ :=
  have h := start_of_transaction ⟨8, 4, 0x42⟩
    (run ⟨8, 4, 0x42⟩ (i2c_slave_mqueue_probe ⟨8, 4, 0x42⟩ (fun _ => 0))
      (transaction [1, 2, 3, 4, 5, 6, 7, 8])).1 0 (by decide) (by decide)
    (Reachable_run _ _ _ (Reachable.probe _))
  ⟨h.2.2.2.1, h.2.2.2.2.1⟩

/-- C15 as stated fails for a one-slot ring: with `MQ_QUEUE_SIZE = 1` the STOP
that commits the transaction `[0x10]` makes slot 0 the current slot again and
sets its length to 0, so the committed slot does not keep its length. -/
theorem commit_step_one_slot :
    (⟨8, 1, 0x42⟩ : mq_config).MQ_QUEUE_SIZE = 2 ^ 0 ∧
    Reachable ⟨8, 1, 0x42⟩
      (i2c_slave_mqueue_callback ⟨8, 1, 0x42⟩
        (i2c_slave_mqueue_callback ⟨8, 1, 0x42⟩ (i2c_slave_mqueue_probe ⟨8, 1, 0x42⟩ (fun _ => 0))
          I2C_SLAVE_WRITE_REQUESTED 0).mq I2C_SLAVE_WRITE_RECEIVED 0x10).mq ∧
    (i2c_slave_mqueue_callback ⟨8, 1, 0x42⟩
        (i2c_slave_mqueue_callback ⟨8, 1, 0x42⟩ (i2c_slave_mqueue_probe ⟨8, 1, 0x42⟩ (fun _ => 0))
          I2C_SLAVE_WRITE_REQUESTED 0).mq I2C_SLAVE_WRITE_RECEIVED 0x10).mq.truncated = false ∧
    (slot (i2c_slave_mqueue_callback ⟨8, 1, 0x42⟩
        (i2c_slave_mqueue_callback ⟨8, 1, 0x42⟩ (i2c_slave_mqueue_probe ⟨8, 1, 0x42⟩ (fun _ => 0))
          I2C_SLAVE_WRITE_REQUESTED 0).mq I2C_SLAVE_WRITE_RECEIVED 0x10).mq.queue 0).len = 2 ∧
    (slot (i2c_slave_mqueue_callback ⟨8, 1, 0x42⟩
      (i2c_slave_mqueue_callback ⟨8, 1, 0x42⟩
        (i2c_slave_mqueue_callback ⟨8, 1, 0x42⟩ (i2c_slave_mqueue_probe ⟨8, 1, 0x42⟩ (fun _ => 0))
          I2C_SLAVE_WRITE_REQUESTED 0).mq I2C_SLAVE_WRITE_RECEIVED 0x10).mq
      I2C_SLAVE_STOP 0).mq.queue 0).len = 0 :=
  ⟨by decide, Reachable.event _ _ _ (Reachable.event _ _ _ (Reachable.probe _)), by decide,
    by decide, by decide⟩

/-- C15, amended. Commit step: with at least 2 slots (a power of two), in a
reachable state with truncated clear and at least 2 bytes in the current slot,
however many messages are pending, STOP returns 0, advances `in` to
`(in + 1) mod N`, makes that slot the current slot with length 0, advances
`out` by one slot exactly when the new `in` equals `out`, notifies exactly once
and changes nothing else: the flag, the buffer of every slot and every slot
other than the new current one, the committed slot included, are as before. -/
theorem commit_step (cfg : mq_config) (k : Nat) (mq : mq_queue) (v : Nat)
    (hN : cfg.MQ_QUEUE_SIZE = 2 ^ k) (h2 : 2 ≤ cfg.MQ_QUEUE_SIZE) (hr : Reachable cfg mq)
    (ht : mq.truncated = false) (hl : 2 ≤ (slot mq.queue mq.curr).len) :
    (i2c_slave_mqueue_callback cfg mq I2C_SLAVE_STOP v).ret = 0 ∧
    (i2c_slave_mqueue_callback cfg mq I2C_SLAVE_STOP v).val = v ∧
    (i2c_slave_mqueue_callback cfg mq I2C_SLAVE_STOP v).notify = 1 ∧
    (i2c_slave_mqueue_callback cfg mq I2C_SLAVE_STOP v).mq.in_ =
      (mq.in_ + 1) % cfg.MQ_QUEUE_SIZE ∧
    (i2c_slave_mqueue_callback cfg mq I2C_SLAVE_STOP v).mq.curr =
      (mq.in_ + 1) % cfg.MQ_QUEUE_SIZE ∧
    (slot (i2c_slave_mqueue_callback cfg mq I2C_SLAVE_STOP v).mq.queue
      ((mq.in_ + 1) % cfg.MQ_QUEUE_SIZE)).len = 0 ∧
    (i2c_slave_mqueue_callback cfg mq I2C_SLAVE_STOP v).mq.out =
      (if (mq.in_ + 1) % cfg.MQ_QUEUE_SIZE = mq.out then (mq.out + 1) % cfg.MQ_QUEUE_SIZE
        else mq.out) ∧
    (i2c_slave_mqueue_callback cfg mq I2C_SLAVE_STOP v).mq.truncated = false ∧
    (i2c_slave_mqueue_callback cfg mq I2C_SLAVE_STOP v).mq.queue.length = mq.queue.length ∧
    (∀ j, (slot (i2c_slave_mqueue_callback cfg mq I2C_SLAVE_STOP v).mq.queue j).buf =
      (slot mq.queue j).buf) ∧
    (∀ j, j ≠ (mq.in_ + 1) % cfg.MQ_QUEUE_SIZE →
      slot (i2c_slave_mqueue_callback cfg mq I2C_SLAVE_STOP v).mq.queue j = slot mq.queue j) ∧
    slot (i2c_slave_mqueue_callback cfg mq I2C_SLAVE_STOP v).mq.queue mq.in_ =
      slot mq.queue mq.in_ := by
  have hpos : 0 < cfg.MQ_QUEUE_SIZE := by omega
  obtain ⟨a, b⟩ := idx_of_Reachable cfg mq hpos hr
  have hd : ¬ (mq.truncated = true ∨ (slot mq.queue mq.curr).len < 2) := by
    rw [ht]; simp; omega
  have en := MQ_QUEUE_NEXT_eq_mod cfg k mq.in_ hN
  have eo := MQ_QUEUE_NEXT_eq_mod cfg k mq.out hN
  have hne := MQ_QUEUE_NEXT_ne_self cfg k mq.in_ hN h2 a
  have hcb : i2c_slave_mqueue_callback cfg mq I2C_SLAVE_STOP v =
      ⟨0, { mq with
              in_ := MQ_QUEUE_NEXT cfg mq.in_
              curr := MQ_QUEUE_NEXT cfg mq.in_
              queue := store_len mq.queue (MQ_QUEUE_NEXT cfg mq.in_) 0
              out := if mq.out = MQ_QUEUE_NEXT cfg mq.in_ then MQ_QUEUE_NEXT cfg mq.out
                else mq.out }, v, 1⟩ := by
    simp only [i2c_slave_mqueue_callback, hd, if_false]
  have hoth : ∀ j, j ≠ MQ_QUEUE_NEXT cfg mq.in_ →
      slot (store_len mq.queue (MQ_QUEUE_NEXT cfg mq.in_) 0) j = slot mq.queue j := by
    intro j hj
    have : ¬ (MQ_QUEUE_NEXT cfg mq.in_ = j) := fun e => hj e.symm
    simp only [slot_store_len, this, false_and, if_false]
  rw [hcb, ← en, ← eo]
  refine ⟨rfl, rfl, rfl, rfl, rfl, ?_, ?_, ht, ?_, ?_, hoth, ?_⟩
  · show (slot (store_len mq.queue (MQ_QUEUE_NEXT cfg mq.in_) 0) (MQ_QUEUE_NEXT cfg mq.in_)).len = 0
    rw [slot_store_len]
    split_ifs with hc
    · rfl
    · have hq : ¬ (MQ_QUEUE_NEXT cfg mq.in_ < mq.queue.length) := by simpa using hc
      simp [slot, List.getD_eq_getElem?_getD, List.getElem?_eq_none (Nat.le_of_not_lt hq)]
  · show (if mq.out = MQ_QUEUE_NEXT cfg mq.in_ then MQ_QUEUE_NEXT cfg mq.out else mq.out) = _
    by_cases he : mq.out = MQ_QUEUE_NEXT cfg mq.in_
    · rw [if_pos he, if_pos he.symm]
    · rw [if_neg he, if_neg (fun e => he e.symm)]
  · exact length_store_len _ _ _
  · intro j
    show (slot (store_len mq.queue (MQ_QUEUE_NEXT cfg mq.in_) 0) j).buf = _
    rw [slot_store_len]
    split_ifs with hc
    · rw [hc.1]
    · rfl
  · exact hoth _ (fun e => hne e.symm)

/-- With 4 slots the STOP committing `[0x10]` moves `in` to 1 and leaves the
committed slot 0 with its 2 bytes. -/
theorem commit_step_witness :
    (i2c_slave_mqueue_callback ⟨8, 4, 0x42⟩
      (i2c_slave_mqueue_callback ⟨8, 4, 0x42⟩
        (i2c_slave_mqueue_callback ⟨8, 4, 0x42⟩ (i2c_slave_mqueue_probe ⟨8, 4, 0x42⟩ (fun _ => 0))
          I2C_SLAVE_WRITE_REQUESTED 0).mq I2C_SLAVE_WRITE_RECEIVED 0x10).mq
      I2C_SLAVE_STOP 0).notify = 1 ∧
    slot (i2c_slave_mqueue_callback ⟨8, 4, 0x42⟩
      (i2c_slave_mqueue_callback ⟨8, 4, 0x42⟩
        (i2c_slave_mqueue_callback ⟨8, 4, 0x42⟩ (i2c_slave_mqueue_probe ⟨8, 4, 0x42⟩ (fun _ => 0))
          I2C_SLAVE_WRITE_REQUESTED 0).mq I2C_SLAVE_WRITE_RECEIVED 0x10).mq
      I2C_SLAVE_STOP 0).mq.queue 0 = ⟨2, [0x84, 0x10, 0, 0, 0, 0, 0, 0]⟩ :=
  have h := commit_step ⟨8, 4, 0x42⟩ 2
    (i2c_slave_mqueue_callback ⟨8, 4, 0x42⟩
      (i2c_slave_mqueue_callback ⟨8, 4, 0x42⟩ (i2c_slave_mqueue_probe ⟨8, 4, 0x42⟩ (fun _ => 0))
        I2C_SLAVE_WRITE_REQUESTED 0).mq I2C_SLAVE_WRITE_RECEIVED 0x10).mq 0
    (by decide) (by decide)
    (Reachable.event _ _ _ (Reachable.event _ _ _ (Reachable.probe _))) (by decide) (by decide)
  ⟨h.2.2.1, h.2.2.2.2.2.2.2.2.2.2.2⟩

/-- C16. Requests that are not writes: for every state and every event other than
WRITE_REQUESTED, WRITE_RECEIVED and STOP, the callback leaves 0xFF in `*val`,
returns 0, leaves the whole queue unchanged and notifies nobody. -/
theorem other_events_answer_ff (cfg : mq_config) (mq : mq_queue) (e : i2c_slave_event)
    (v : Nat) (h1 : e ≠ I2C_SLAVE_WRITE_REQUESTED) (h2 : e ≠ I2C_SLAVE_WRITE_RECEIVED)
    (h3 : e ≠ I2C_SLAVE_STOP) :
    i2c_slave_mqueue_callback cfg mq e v = ⟨0, mq, 0xFF, 0⟩ := by
  cases e
  · rfl
  · exact absurd rfl h1
  · rfl
  · exact absurd rfl h2
  · exact absurd rfl h3

/-- A read request in the middle of a transaction is answered with 0xFF and
changes nothing. -/
theorem other_events_answer_ff_witness :
    i2c_slave_mqueue_callback ⟨8, 4, 0x42⟩
      (i2c_slave_mqueue_callback ⟨8, 4, 0x42⟩ (i2c_slave_mqueue_probe ⟨8, 4, 0x42⟩ (fun _ => 0))
        I2C_SLAVE_WRITE_REQUESTED 0).mq I2C_SLAVE_READ_REQUESTED 7 =
      ⟨0, (i2c_slave_mqueue_callback ⟨8, 4, 0x42⟩
        (i2c_slave_mqueue_probe ⟨8, 4, 0x42⟩ (fun _ => 0)) I2C_SLAVE_WRITE_REQUESTED 0).mq,
        0xFF, 0⟩ :=
  other_events_answer_ff _ _ I2C_SLAVE_READ_REQUESTED 7 (by decide) (by decide) (by decide)

/-- C17 as stated fails: with 2 slots and one message pending, the STOP that
commits a second message makes the new `in` equal to `out` and advances `out`
from 0 to 1. -/
theorem stop_moves_out :
    Reachable ⟨8, 2, 0x42⟩
      (run ⟨8, 2, 0x42⟩ (i2c_slave_mqueue_probe ⟨8, 2, 0x42⟩ (fun _ => 0))
        (transaction [1] ++ [.event I2C_SLAVE_WRITE_REQUESTED 0,
          .event I2C_SLAVE_WRITE_RECEIVED 2])).1 ∧
    (run ⟨8, 2, 0x42⟩ (i2c_slave_mqueue_probe ⟨8, 2, 0x42⟩ (fun _ => 0))
        (transaction [1] ++ [.event I2C_SLAVE_WRITE_REQUESTED 0,
          .event I2C_SLAVE_WRITE_RECEIVED 2])).1.out = 0 ∧
    (i2c_slave_mqueue_callback ⟨8, 2, 0x42⟩
      (run ⟨8, 2, 0x42⟩ (i2c_slave_mqueue_probe ⟨8, 2, 0x42⟩ (fun _ => 0))
        (transaction [1] ++ [.event I2C_SLAVE_WRITE_REQUESTED 0,
          .event I2C_SLAVE_WRITE_RECEIVED 2])).1 I2C_SLAVE_STOP 0).mq.out = 1 :=
  ⟨Reachable_run _ _ _ (Reachable.probe _), by decide, by decide⟩

/-- C17, amended. The read index under bus events: for every state and every
event, `out` after the callback equals `out` before, except for a STOP that
commits (truncated clear, at least 2 bytes in the current slot) and whose new
write index `MQ_QUEUE_NEXT(in)` equals `out`; that STOP advances `out` by one
slot, flushing the oldest message. -/
theorem callback_read_index (cfg : mq_config) (mq : mq_queue) (e : i2c_slave_event) (v : Nat) :
    ((e = I2C_SLAVE_STOP ∧ mq.truncated = false ∧ 2 ≤ (slot mq.queue mq.curr).len ∧
        MQ_QUEUE_NEXT cfg mq.in_ = mq.out) →
      (i2c_slave_mqueue_callback cfg mq e v).mq.out = MQ_QUEUE_NEXT cfg mq.out) ∧
    (¬ (e = I2C_SLAVE_STOP ∧ mq.truncated = false ∧ 2 ≤ (slot mq.queue mq.curr).len ∧
        MQ_QUEUE_NEXT cfg mq.in_ = mq.out) →
      (i2c_slave_mqueue_callback cfg mq e v).mq.out = mq.out) := by
  constructor
  · rintro ⟨rfl, ht, hl, he⟩
    have hd : ¬ (mq.truncated = true ∨ (slot mq.queue mq.curr).len < 2) := by
      rw [ht]; simp; omega
    simp only [i2c_slave_mqueue_callback, hd, if_false, he, if_true]
  · intro hn
    cases e
    · rfl
    · rfl
    · rfl
    · simp only [i2c_slave_mqueue_callback]
      split_ifs <;> rfl
    · by_cases hd : mq.truncated = true ∨ (slot mq.queue mq.curr).len < 2
      · simp only [i2c_slave_mqueue_callback, hd, if_true]
      · have ht : mq.truncated = false := by
          cases h : mq.truncated
          · rfl
          · exact absurd (Or.inl h) hd
        have hl : 2 ≤ (slot mq.queue mq.curr).len := by
          by_contra hc
          exact hd (Or.inr (by omega))
        have he : ¬ (mq.out = MQ_QUEUE_NEXT cfg mq.in_) :=
          fun e => hn ⟨rfl, ht, hl, e.symm⟩
        simp only [i2c_slave_mqueue_callback, hd, if_false, he]

/-- C18 as stated fails for a ring of one slot: right after a truncated
transaction, a header-only transaction and an empty read, the well-formed
transaction `[0x10, 0x20]` notifies, yet no message is pending after it and a
read with `count = 8` returns 0 and copies nothing. -/
theorem transaction_lost_one_slot :
    notifications (run ⟨8, 1, 0x42⟩
      (run ⟨8, 1, 0x42⟩ (i2c_slave_mqueue_probe ⟨8, 1, 0x42⟩ (fun _ => 0))
        (transaction [1, 2, 3, 4, 5, 6, 7, 8] ++ transaction [] ++ [.read [] 0 8])).1
      (transaction [0x10, 0x20])).2 = 1 ∧
    pending ⟨8, 1, 0x42⟩ (run ⟨8, 1, 0x42⟩
      (run ⟨8, 1, 0x42⟩ (i2c_slave_mqueue_probe ⟨8, 1, 0x42⟩ (fun _ => 0))
        (transaction [1, 2, 3, 4, 5, 6, 7, 8] ++ transaction [] ++ [.read [] 0 8])).1
      (transaction [0x10, 0x20])).1 = [] ∧
    i2c_slave_mqueue_bin_read ⟨8, 1, 0x42⟩ (run ⟨8, 1, 0x42⟩
      (run ⟨8, 1, 0x42⟩ (i2c_slave_mqueue_probe ⟨8, 1, 0x42⟩ (fun _ => 0))
        (transaction [1, 2, 3, 4, 5, 6, 7, 8] ++ transaction [] ++ [.read [] 0 8])).1
      (transaction [0x10, 0x20])).1 [9, 9, 9, 9] 0 8 =
      ⟨0, (run ⟨8, 1, 0x42⟩
        (run ⟨8, 1, 0x42⟩ (i2c_slave_mqueue_probe ⟨8, 1, 0x42⟩ (fun _ => 0))
          (transaction [1, 2, 3, 4, 5, 6, 7, 8] ++ transaction [] ++ [.read [] 0 8])).1
        (transaction [0x10, 0x20])).1, [9, 9, 9, 9], 0⟩ := by
  decide

/-- C18, amended. Errors are not sticky in a ring of at least two slots: from
every reachable state, in particular right after a truncated transaction, a
header-only transaction, an empty read or an -EOVERFLOW read, a well-formed
transaction (payload of `1 ≤ k ≤ cap - 1` bytes) is committed: it notifies once
and is the newest pending message, header followed by the payload; and once
reads have removed every older message, a read with `count ≥ k + 1` returns
`k + 1` and delivers exactly header and payload. -/
theorem errors_not_sticky (cfg : mq_config) (k : Nat) (mq : mq_queue) (bs : List Nat)
    (hN : cfg.MQ_QUEUE_SIZE = 2 ^ k) (hN2 : 2 ≤ cfg.MQ_QUEUE_SIZE) (hr : Reachable cfg mq)
    (h1 : 1 ≤ bs.length) (h2 : bs.length + 1 ≤ cfg.MQ_MSGBUF_SIZE) :
    notifications (run cfg mq (transaction bs)).2 = 1 ∧
    pending cfg (run cfg mq (transaction bs)).1 =
      keep_last (cfg.MQ_QUEUE_SIZE - 1 - 1) (pending cfg mq) ++ [(cfg.addr <<< 1) % 256 :: bs] ∧
    ∀ (rs : List mq_op) (buf : List Nat) (pos count : Nat),
      (∀ op ∈ rs, op.reads_at_least 0) →
      rs.length + 1 = (pending cfg (run cfg mq (transaction bs)).1).length →
      bs.length + 1 ≤ count →
      pending cfg (run cfg (run cfg mq (transaction bs)).1 rs).1 =
        [(cfg.addr <<< 1) % 256 :: bs] ∧
      (i2c_slave_mqueue_bin_read cfg (run cfg (run cfg mq (transaction bs)).1 rs).1
        buf pos count).ret = (bs.length : Int) + 1 ∧
      (i2c_slave_mqueue_bin_read cfg (run cfg (run cfg mq (transaction bs)).1 rs).1
        buf pos count).buf = ((cfg.addr <<< 1) % 256 :: bs) ++ buf.drop (bs.length + 1) := by
  have hpos : 0 < cfg.MQ_QUEUE_SIZE := by omega
  have hcap : 1 ≤ cfg.MQ_MSGBUF_SIZE := by omega
  have hwf := WF_of_Reachable cfg mq hpos hcap hr
  have hwf1 := WF_run cfg mq (transaction bs) hpos hcap hwf
  have hp := transaction_pending cfg mq k bs hN hwf h1 h2
  rw [keep_last_snoc _ _ _ (by omega)] at hp
  have hp' : pending cfg (run cfg mq (transaction bs)).1 =
      keep_last (cfg.MQ_QUEUE_SIZE - 1 - 1) (pending cfg mq) ++ [(cfg.addr <<< 1) % 256 :: bs] :=
    hp
  refine ⟨?_, hp', ?_⟩
  · rw [(abs_run cfg mq k (transaction bs) hN hcap hwf).2]
    exact fifo_transaction_notifies cfg _ bs h1 h2
  · intro rs buf pos count hrs hlen hc
    have hwf2 := WF_run cfg _ rs hpos hcap hwf1
    have hdrop : pending cfg (run cfg (run cfg mq (transaction bs)).1 rs).1 =
        [(cfg.addr <<< 1) % 256 :: bs] := by
      have e := (abs_run cfg _ k rs hN hcap hwf1).1
      rw [fifo_reads_drop cfg _ rs hrs] at e
      have e2 := congrArg fifo.pending e
      simp only [abs] at e2
      rw [e2, hp']
      rw [hp'] at hlen
      simp only [List.length_append, List.length_singleton, Nat.add_right_cancel_iff] at hlen
      rw [hlen, List.drop_left]
    have hrd := bin_read_pending_cons cfg _ k buf pos count _ _ hN hwf2 hdrop
    obtain ⟨hret, hbuf⟩ := hrd.2.2.1 (by simpa using hc)
    refine ⟨hdrop, ?_, ?_⟩
    · rw [hret]; simp
    · rw [hbuf]; simp

/-- After an oversized transaction, a header-only transaction and an empty
read, the transaction `[0x10, 0x20]` is committed and read back whole. -/
theorem errors_not_sticky_witness :
    (i2c_slave_mqueue_bin_read ⟨8, 4, 0x42⟩
      (run ⟨8, 4, 0x42⟩
        (run ⟨8, 4, 0x42⟩
          (run ⟨8, 4, 0x42⟩ (i2c_slave_mqueue_probe ⟨8, 4, 0x42⟩ (fun _ => 0))
            (transaction [1, 2, 3, 4, 5, 6, 7, 8] ++ transaction [] ++ [.read [] 0 8])).1
          (transaction [0x10, 0x20])).1 []).1 [9, 9, 9, 9] 0 8).buf = [0x84, 0x10, 0x20, 9] :=
  by
  have h := errors_not_sticky ⟨8, 4, 0x42⟩ 2
      (run ⟨8, 4, 0x42⟩ (i2c_slave_mqueue_probe ⟨8, 4, 0x42⟩ (fun _ => 0))
        (transaction [1, 2, 3, 4, 5, 6, 7, 8] ++ transaction [] ++ [.read [] 0 8])).1
      [0x10, 0x20] (by decide) (by decide) (Reachable_run _ _ _ (Reachable.probe _))
      (by decide) (by decide)
  have h2 := (h.2.2 [] [9, 9, 9, 9] 0 8 (by simp) (by decide) (by decide)).2.2
  have h3 : ((((⟨8, 4, 0x42⟩ : mq_config).addr <<< 1) % 256 :: [0x10, 0x20]) ++
        List.drop ([0x10, 0x20].length + 1) [9, 9, 9, 9]) = [0x84, 0x10, 0x20, 9] := by decide
  rw [h3] at h2
  exact h2

/-- C19 as stated fails for an address of more than 7 bits: with own address
0x80 the committed message `[0x10]` is read back with first byte 0, and
shifting that byte right by one bit gives 0, not 0x80. -/
theorem header_loses_high_bits :
    (i2c_slave_mqueue_bin_read ⟨8, 4, 0x80⟩
      (run ⟨8, 4, 0x80⟩ (i2c_slave_mqueue_probe ⟨8, 4, 0x80⟩ (fun _ => 0))
        (transaction [0x10])).1 [9, 9, 9] 0 8).buf = [0, 0x10, 9] ∧
    ((i2c_slave_mqueue_bin_read ⟨8, 4, 0x80⟩
      (run ⟨8, 4, 0x80⟩ (i2c_slave_mqueue_probe ⟨8, 4, 0x80⟩ (fun _ => 0))
        (transaction [0x10])).1 [9, 9, 9] 0 8).buf.headD 0) >>> 1 ≠
      (⟨8, 4, 0x80⟩ : mq_config).addr := by
  decide

/-- C19, amended. The header byte identifies a 7-bit endpoint: from a reachable
state, after a transaction that began with WRITE_REQUESTED and carried the
bytes `bs`, every pending message is one that was pending before or is the low
8 bits of `addr << 1` followed by `bs`, and such a message is pending when the
payload has between 1 and `cap - 1` bytes and the ring at least 2 slots;
shifting that first byte right by one bit gives `addr mod 128`, which is `addr`
for every 7-bit address, and then the byte is `addr << 1` itself. -/
theorem header_identifies_endpoint (cfg : mq_config) (k : Nat) (mq : mq_queue) (bs : List Nat)
    (hN : cfg.MQ_QUEUE_SIZE = 2 ^ k) (hcap : 1 ≤ cfg.MQ_MSGBUF_SIZE) (hr : Reachable cfg mq) :
    (∀ m ∈ pending cfg (run cfg mq (transaction bs)).1,
      m ∈ pending cfg mq ∨ m = (cfg.addr <<< 1) % 256 :: bs) ∧
    (2 ≤ cfg.MQ_QUEUE_SIZE → 1 ≤ bs.length → bs.length + 1 ≤ cfg.MQ_MSGBUF_SIZE →
      (pending cfg (run cfg mq (transaction bs)).1).getLast? =
        some ((cfg.addr <<< 1) % 256 :: bs)) ∧
    ((cfg.addr <<< 1) % 256) >>> 1 = cfg.addr % 128 ∧
    (cfg.addr < 128 →
      (cfg.addr <<< 1) % 256 = cfg.addr <<< 1 ∧ ((cfg.addr <<< 1) % 256) >>> 1 = cfg.addr) := by
  have hpos : 0 < cfg.MQ_QUEUE_SIZE := by rw [hN]; positivity
  have hwf := WF_of_Reachable cfg mq hpos hcap hr
  have hp : pending cfg (run cfg mq (transaction bs)).1 =
      if 1 ≤ bs.length ∧ bs.length + 1 ≤ cfg.MQ_MSGBUF_SIZE then
        keep_last (cfg.MQ_QUEUE_SIZE - 1) (pending cfg mq ++ [header cfg :: bs])
      else pending cfg mq := by
    have e := congrArg fifo.pending (abs_run cfg mq k (transaction bs) hN hcap hwf).1
    rw [fifo_transaction_any cfg _ bs hcap] at e
    exact e
  have hsh : ((cfg.addr <<< 1) % 256) >>> 1 = cfg.addr % 128 := by
    rw [Nat.shiftLeft_eq, Nat.shiftRight_eq_div_pow]
    omega
  refine ⟨?_, ?_, hsh, ?_⟩
  · intro m hm
    rw [hp] at hm
    split_ifs at hm
    · rcases List.mem_append.1 (mem_keep_last _ _ _ hm) with h | h
      · exact Or.inl h
      · exact Or.inr (by simpa [header] using h)
    · exact Or.inl hm
  · intro h2 h1 hk
    rw [hp, if_pos ⟨h1, hk⟩, keep_last_snoc _ _ _ (by omega)]
    simp [header]
  · intro ha
    have e : (cfg.addr <<< 1) % 256 = cfg.addr <<< 1 := by
      apply Nat.mod_eq_of_lt
      rw [Nat.shiftLeft_eq]
      omega
    refine ⟨e, ?_⟩
    rw [hsh]
    omega

/-- With address 0x42 the committed message `[0x10, 0x20]` starts with 0x84, and
0x84 shifted right by one bit is 0x42. -/
theorem header_identifies_endpoint_witness :
    (pending ⟨8, 4, 0x42⟩
      (run ⟨8, 4, 0x42⟩ (i2c_slave_mqueue_probe ⟨8, 4, 0x42⟩ (fun _ => 0))
        (transaction [0x10, 0x20])).1).getLast? =
      some (((⟨8, 4, 0x42⟩ : mq_config).addr <<< 1) % 256 :: [0x10, 0x20]) ∧
    (((⟨8, 4, 0x42⟩ : mq_config).addr <<< 1) % 256 = 0x84 ∧ 0x84 >>> 1 = 0x42) :=
  ⟨(header_identifies_endpoint ⟨8, 4, 0x42⟩ 2 (i2c_slave_mqueue_probe ⟨8, 4, 0x42⟩ (fun _ => 0))
      [0x10, 0x20] (by decide) (by decide) (Reachable.probe _)).2.1
      (by decide) (by decide) (by decide),
    by decide⟩

/-- C21. Length invariant: with at least one slot and a capacity of at least 1,
in every reachable state every slot has `len ≤ cap` and a buffer of `cap` bytes,
so that no event stores a byte at a position at or beyond `cap`: the callback
with every buffer store bounds-checked has a result for every event, the very
result of the callback; the byte stored is found afterwards at position 0 (the
header) or at the old `len < cap` (a byte received), and no buffer changes its
size. -/
theorem length_invariant (cfg : mq_config) (mq : mq_queue) (hN : 0 < cfg.MQ_QUEUE_SIZE)
    (hcap : 1 ≤ cfg.MQ_MSGBUF_SIZE) (hr : Reachable cfg mq) :
    (∀ i, (slot mq.queue i).len ≤ cfg.MQ_MSGBUF_SIZE) ∧
    (∀ i, i < cfg.MQ_QUEUE_SIZE → (slot mq.queue i).buf.length = cfg.MQ_MSGBUF_SIZE) ∧
    (∀ (e : i2c_slave_event) (v : Nat),
      i2c_slave_mqueue_callback_checked cfg mq e v =
        some (i2c_slave_mqueue_callback cfg mq e v)) ∧
    (∀ v : Nat,
      (slot (i2c_slave_mqueue_callback cfg mq I2C_SLAVE_WRITE_REQUESTED v).mq.queue
        mq.curr).buf[0]? = some ((cfg.addr <<< 1) % 256)) ∧
    (∀ v : Nat, (slot mq.queue mq.curr).len < cfg.MQ_MSGBUF_SIZE →
      (slot (i2c_slave_mqueue_callback cfg mq I2C_SLAVE_WRITE_RECEIVED v).mq.queue
        mq.curr).buf[(slot mq.queue mq.curr).len]? = some v) ∧
    (∀ (e : i2c_slave_event) (v i : Nat),
      (slot (i2c_slave_mqueue_callback cfg mq e v).mq.queue i).buf.length =
        (slot mq.queue i).buf.length) := by
  have hwf := WF_of_Reachable cfg mq hN hcap hr
  refine ⟨?_, hwf.buf_len, ?_, ?_, ?_, ?_⟩
  · intro i
    by_cases hi : i < cfg.MQ_QUEUE_SIZE
    · exact hwf.len_le i hi
    · have : slot mq.queue i = ⟨0, []⟩ := by
        have hq : mq.queue.length ≤ i := by rw [hwf.qlen]; omega
        simp [slot, List.getD_eq_getElem?_getD, List.getElem?_eq_none hq]
      rw [this]
      exact Nat.zero_le _
  · intro e v
    exact callback_checked_of_WF cfg mq e v hcap hwf
  · intro v
    exact (callback_stored_byte cfg mq v hcap hwf).1
  · intro v hl
    exact (callback_stored_byte cfg mq v hcap hwf).2 hl
  · intro e v i
    exact callback_buf_length cfg mq e v i

/-- After header and 6 bytes the current slot holds `len = 7` of `cap = 8`: the
byte 0x55 received next is stored inside the buffer, at position 7; after that
the slot is full and a further byte is refused without any store. -/
theorem length_invariant_witness :
    i2c_slave_mqueue_callback_checked ⟨8, 4, 0x42⟩
      (run ⟨8, 4, 0x42⟩ (i2c_slave_mqueue_probe ⟨8, 4, 0x42⟩ (fun _ => 0))
        ((transaction [1, 2, 3, 4, 5, 6]).dropLast)).1 I2C_SLAVE_WRITE_RECEIVED 0x55 =
      some (i2c_slave_mqueue_callback ⟨8, 4, 0x42⟩
        (run ⟨8, 4, 0x42⟩ (i2c_slave_mqueue_probe ⟨8, 4, 0x42⟩ (fun _ => 0))
          ((transaction [1, 2, 3, 4, 5, 6]).dropLast)).1 I2C_SLAVE_WRITE_RECEIVED 0x55) ∧
    (slot (i2c_slave_mqueue_callback ⟨8, 4, 0x42⟩
        (run ⟨8, 4, 0x42⟩ (i2c_slave_mqueue_probe ⟨8, 4, 0x42⟩ (fun _ => 0))
          ((transaction [1, 2, 3, 4, 5, 6]).dropLast)).1 I2C_SLAVE_WRITE_RECEIVED 0x55).mq.queue
      0).buf = [0x84, 1, 2, 3, 4, 5, 6, 0x55] ∧
    (i2c_slave_mqueue_callback_checked ⟨8, 4, 0x42⟩
      (run ⟨8, 4, 0x42⟩ (i2c_slave_mqueue_probe ⟨8, 4, 0x42⟩ (fun _ => 0))
        ((transaction [1, 2, 3, 4, 5, 6, 7]).dropLast)).1 I2C_SLAVE_WRITE_RECEIVED 0x55).map
      cb_result.ret = some (-EINVAL) := by
  refine ⟨?_, by decide, by decide⟩
  exact (length_invariant ⟨8, 4, 0x42⟩
    (run ⟨8, 4, 0x42⟩ (i2c_slave_mqueue_probe ⟨8, 4, 0x42⟩ (fun _ => 0))
      ((transaction [1, 2, 3, 4, 5, 6]).dropLast)).1 (by decide) (by decide)
    (Reachable_run _ _ _ (Reachable.probe _))).2.2.1 I2C_SLAVE_WRITE_RECEIVED 0x55

/-- C22. Current-slot invariant: in every state reachable from the probed queue
the slot being filled is the slot at the write index, `curr = in`, so
`mq->curr` is `queue[in]`; with at least one slot it is one of the
`MQ_QUEUE_SIZE` allocated slots. -/
theorem current_slot_invariant (cfg : mq_config) (mq : mq_queue) (hr : Reachable cfg mq) :
    mq.curr = mq.in_ ∧ slot mq.queue mq.curr = slot mq.queue mq.in_ ∧
    mq.queue.length = cfg.MQ_QUEUE_SIZE ∧
    (0 < cfg.MQ_QUEUE_SIZE → mq.curr < mq.queue.length) := by
  have h := curr_of_Reachable cfg mq hr
  have hq := qlen_of_Reachable cfg mq hr
  refine ⟨h, by rw [h], hq, fun hN => ?_⟩
  rw [h, hq]
  exact (idx_of_Reachable cfg mq hN hr).1

/-- After three commits with 4 slots the current slot index and the write index
are both 3. -/
theorem current_slot_invariant_witness :
    (run ⟨8, 4, 0x42⟩ (i2c_slave_mqueue_probe ⟨8, 4, 0x42⟩ (fun _ => 0))
      (commits [[1], [2], [3]])).1.curr =
    (run ⟨8, 4, 0x42⟩ (i2c_slave_mqueue_probe ⟨8, 4, 0x42⟩ (fun _ => 0))
      (commits [[1], [2], [3]])).1.in_ ∧
    (run ⟨8, 4, 0x42⟩ (i2c_slave_mqueue_probe ⟨8, 4, 0x42⟩ (fun _ => 0))
      (commits [[1], [2], [3]])).1.in_ = 3 :=
  ⟨(current_slot_invariant ⟨8, 4, 0x42⟩
      (run ⟨8, 4, 0x42⟩ (i2c_slave_mqueue_probe ⟨8, 4, 0x42⟩ (fun _ => 0))
        (commits [[1], [2], [3]])).1 (Reachable_run _ _ _ (Reachable.probe _))).1,
    by decide⟩

/-- C23. Effective retention of the ring: for a power-of-two slot count
`N ≥ 2`, in every reachable state at most `N - 1` messages are pending; and from
a reachable state with an empty ring, after `m ≥ N - 1` well-formed transactions
and no read in between, `N - 1` successive reads asking for at least the
capacity deliver exactly the last `N - 1` committed messages in commit order,
after which nothing is pending and a further read returns 0. -/
theorem effective_retention (cfg : mq_config) (k : Nat) (mq : mq_queue)
    (payloads : List (List Nat)) (rs : List mq_op)
    (hN : cfg.MQ_QUEUE_SIZE = 2 ^ k) (h2 : 2 ≤ cfg.MQ_QUEUE_SIZE)
    (hr : Reachable cfg mq) (he : mq.out = mq.in_)
    (hp : ∀ p ∈ payloads, 1 ≤ p.length ∧ p.length + 1 ≤ cfg.MQ_MSGBUF_SIZE)
    (hm : cfg.MQ_QUEUE_SIZE - 1 ≤ payloads.length)
    (hrs : ∀ op ∈ rs, op.reads_at_least cfg.MQ_MSGBUF_SIZE)
    (hrl : rs.length = cfg.MQ_QUEUE_SIZE - 1) :
    (∀ s, Reachable cfg s → pending_count cfg s ≤ cfg.MQ_QUEUE_SIZE - 1 ∧
      (pending cfg s).length ≤ cfg.MQ_QUEUE_SIZE - 1) ∧
    (run cfg (run cfg mq (commits payloads)).1 rs).2.map delivered =
      ((payloads.drop (payloads.length - (cfg.MQ_QUEUE_SIZE - 1))).map
        fun p => some ((cfg.addr <<< 1) % 256 :: p)) ∧
    pending cfg (run cfg (run cfg mq (commits payloads)).1 rs).1 = [] ∧
    ∀ (buf : List Nat) (pos count : Nat),
      i2c_slave_mqueue_bin_read cfg (run cfg (run cfg mq (commits payloads)).1 rs).1
        buf pos count =
      ⟨0, (run cfg (run cfg mq (commits payloads)).1 rs).1, buf, 0⟩ := by
  have hpos : 0 < cfg.MQ_QUEUE_SIZE := by omega
  have hne : payloads ≠ [] := by
    intro h
    rw [h] at hm
    simp at hm
    omega
  obtain ⟨p0, hp0⟩ := List.exists_mem_of_ne_nil _ hne
  have hcap : 1 ≤ cfg.MQ_MSGBUF_SIZE := by
    have := hp p0 hp0
    omega
  have hwf := WF_of_Reachable cfg mq hpos hcap hr
  have hwf2 := WF_run cfg _ rs hpos hcap (WF_run cfg mq (commits payloads) hpos hcap hwf)
  have hkl : keep_last (cfg.MQ_QUEUE_SIZE - 1) (payloads.map fun p => header cfg :: p) =
      (payloads.drop (payloads.length - (cfg.MQ_QUEUE_SIZE - 1))).map
        fun p => header cfg :: p := by
    unfold keep_last
    rw [List.length_map, ← List.map_drop]
  have hlen : rs.length =
      (keep_last (cfg.MQ_QUEUE_SIZE - 1) (payloads.map fun p => header cfg :: p)).length := by
    rw [hkl, List.length_map, List.length_drop, hrl]
    omega
  obtain ⟨c1, c2⟩ := commits_then_reads cfg k mq payloads rs hN hcap hwf
    (pending_of_empty cfg mq hwf he) hp hrs hlen
  refine ⟨?_, ?_, c2, fun buf pos count => bin_read_pending_nil cfg _ buf pos count hwf2 c2⟩
  · intro s hs
    have := pending_count_lt cfg s hpos
    rw [pending_length]
    omega
  · rw [c1, hkl, List.map_map]
    rfl

/-- With 4 slots and 6 commits on the probed queue, three reads deliver the last
3 messages. -/
theorem effective_retention_witness :
    (run ⟨8, 4, 0x42⟩
      (run ⟨8, 4, 0x42⟩ (i2c_slave_mqueue_probe ⟨8, 4, 0x42⟩ (fun _ => 0))
        (commits [[1], [2], [3], [4], [5], [6]])).1
      [.read [] 0 8, .read [] 0 8, .read [] 0 8]).2.map delivered =
      [some [0x84, 4], some [0x84, 5], some [0x84, 6]] := by
  have h := effective_retention ⟨8, 4, 0x42⟩ 2
    (i2c_slave_mqueue_probe ⟨8, 4, 0x42⟩ (fun _ => 0)) [[1], [2], [3], [4], [5], [6]]
    [.read [] 0 8, .read [] 0 8, .read [] 0 8]
    (by decide) (by decide) (Reachable.probe _) (by decide) (by decide) (by decide)
    (by simp [mq_op.reads_at_least]) (by decide)
  have h2 := h.2.1
  have h3 : ((([[1], [2], [3], [4], [5], [6]] : List (List Nat)).drop
      (([[1], [2], [3], [4], [5], [6]] : List (List Nat)).length -
        ((⟨8, 4, 0x42⟩ : mq_config).MQ_QUEUE_SIZE - 1))).map
      fun p => some (((⟨8, 4, 0x42⟩ : mq_config).addr <<< 1) % 256 :: p)) =
      [some [0x84, 4], some [0x84, 5], some [0x84, 6]] := by decide
  rw [h3] at h2
  exact h2

/-- C24. Refinement of an abstract drop-oldest FIFO: under the abstraction `abs`
(the messages in the slots `out .. in - 1`, the bytes of the slot being filled,
the truncated flag) the probed queue is the empty abstract FIFO, every bus event
and every read in a reachable state is matched by the step of the abstract
bounded list with the same observable result, and so for every sequence of calls
from the probed queue the return values, delivered bytes and notifications of
driver and abstract list coincide; the abstract commit appends at the tail and
drops the head when more than `MQ_QUEUE_SIZE - 1` messages would be held. -/
theorem refines_bounded_fifo (cfg : mq_config) (k : Nat) (heap : Nat → Nat) (ops : List mq_op)
    (hN : cfg.MQ_QUEUE_SIZE = 2 ^ k) (hcap : 1 ≤ cfg.MQ_MSGBUF_SIZE) :
    abs cfg (i2c_slave_mqueue_probe cfg heap) = ⟨[], [], false⟩ ∧
    (run cfg (i2c_slave_mqueue_probe cfg heap) ops).2 = (fifo_run cfg ⟨[], [], false⟩ ops).2 ∧
    abs cfg (run cfg (i2c_slave_mqueue_probe cfg heap) ops).1 =
      (fifo_run cfg ⟨[], [], false⟩ ops).1 ∧
    (∀ (mq : mq_queue) (op : mq_op), Reachable cfg mq →
      fifo_step cfg (abs cfg mq) op = (abs cfg (step cfg mq op).1, (step cfg mq op).2)) ∧
    (∀ (mq : mq_queue) (c : List Nat), Reachable cfg mq →
      (abs cfg mq).pending.length ≤ cfg.MQ_QUEUE_SIZE - 1 ∧
      keep_last (cfg.MQ_QUEUE_SIZE - 1) ((abs cfg mq).pending ++ [c]) =
        if cfg.MQ_QUEUE_SIZE - 1 < ((abs cfg mq).pending ++ [c]).length then
          ((abs cfg mq).pending ++ [c]).tail
        else (abs cfg mq).pending ++ [c]) := by
  have hpos : 0 < cfg.MQ_QUEUE_SIZE := by rw [hN]; positivity
  have hwf := WF_probe cfg heap hpos
  have h0 : abs cfg (i2c_slave_mqueue_probe cfg heap) = ⟨[], [], false⟩ := by
    have hp := abs_probe cfg heap hpos
    have hc : (abs cfg (i2c_slave_mqueue_probe cfg heap)).cur = [] := by
      simp [abs, i2c_slave_mqueue_probe, slot, message, List.getD_eq_getElem?_getD, hpos]
    have ht : (abs cfg (i2c_slave_mqueue_probe cfg heap)).truncated = false := rfl
    generalize abs cfg (i2c_slave_mqueue_probe cfg heap) = a at hp hc ht
    cases a
    simp only at hp hc ht
    rw [hp, hc, ht]
  obtain ⟨e1, e2⟩ := abs_run cfg _ k ops hN hcap hwf
  rw [h0] at e1 e2
  refine ⟨h0, e2, e1, ?_, ?_⟩
  · intro mq op hr
    exact sim_step cfg mq k op hN hcap (WF_of_Reachable cfg mq hpos hcap hr)
  · intro mq c hr
    have hl : (abs cfg mq).pending.length ≤ cfg.MQ_QUEUE_SIZE - 1 := by
      have := pending_count_lt cfg mq hpos
      simp only [abs, pending_length]
      omega
    refine ⟨hl, ?_⟩
    split_ifs with hc
    · simp only [List.length_append, List.length_singleton] at hc
      have e : ((abs cfg mq).pending ++ [c]).length - (cfg.MQ_QUEUE_SIZE - 1) = 1 := by
        simp only [List.length_append, List.length_singleton]
        omega
      unfold keep_last
      rw [e, List.drop_one]
    · exact keep_last_of_le _ _ (by omega)

/-- On a schedule with an oversized transaction, an eviction and a too-small
read, driver and abstract list report the same results. -/
theorem refines_bounded_fifo_witness :
    (run ⟨8, 2, 0x42⟩ (i2c_slave_mqueue_probe ⟨8, 2, 0x42⟩ (fun _ => 0))
      (transaction [1, 2, 3, 4, 5, 6, 7, 8] ++ commits [[1], [2, 3]] ++
        [.read [] 0 2, .read [] 0 8])).2 =
    (fifo_run ⟨8, 2, 0x42⟩ ⟨[], [], false⟩
      (transaction [1, 2, 3, 4, 5, 6, 7, 8] ++ commits [[1], [2, 3]] ++
        [.read [] 0 2, .read [] 0 8])).2 := by
  have h := refines_bounded_fifo ⟨8, 2, 0x42⟩ 1 (fun _ => 0)
    (transaction [1, 2, 3, 4, 5, 6, 7, 8] ++ commits [[1], [2, 3]] ++
      [.read [] 0 2, .read [] 0 8]) (by decide) (by decide)
  exact h.2.1

/-- C25. Pending messages are well-formed, so a zero return means empty: with a
power-of-two slot count and a capacity of at least 1, in every reachable state
every pending slot (the slots `out`, `out + 1`, .. up to but excluding `in`,
cyclically) has `2 ≤ len ≤ cap` and is not the current slot; hence the read
returns 0 exactly when the ring was empty, and otherwise returns -EOVERFLOW or a
value between 2 and `cap`. -/
theorem pending_well_formed (cfg : mq_config) (k : Nat) (mq : mq_queue) (buf : List Nat)
    (pos count : Nat) (hN : cfg.MQ_QUEUE_SIZE = 2 ^ k) (hcap : 1 ≤ cfg.MQ_MSGBUF_SIZE)
    (hr : Reachable cfg mq) :
    (∀ i, i < pending_count cfg mq →
      2 ≤ (slot mq.queue ((mq.out + i) % cfg.MQ_QUEUE_SIZE)).len ∧
      (slot mq.queue ((mq.out + i) % cfg.MQ_QUEUE_SIZE)).len ≤ cfg.MQ_MSGBUF_SIZE ∧
      (mq.out + i) % cfg.MQ_QUEUE_SIZE ≠ mq.curr) ∧
    ((i2c_slave_mqueue_bin_read cfg mq buf pos count).ret = 0 ↔ mq.out = mq.in_) ∧
    (mq.out ≠ mq.in_ →
      (i2c_slave_mqueue_bin_read cfg mq buf pos count).ret = -EOVERFLOW ∨
      (2 ≤ (i2c_slave_mqueue_bin_read cfg mq buf pos count).ret ∧
        (i2c_slave_mqueue_bin_read cfg mq buf pos count).ret ≤ (cfg.MQ_MSGBUF_SIZE : Int))) := by
  have hpos : 0 < cfg.MQ_QUEUE_SIZE := by rw [hN]; positivity
  have hwf := WF_of_Reachable cfg mq hpos hcap hr
  have h2 := pending_two cfg k mq hN hcap hr
  have hslots : ∀ i, i < pending_count cfg mq →
      2 ≤ (slot mq.queue ((mq.out + i) % cfg.MQ_QUEUE_SIZE)).len ∧
      (slot mq.queue ((mq.out + i) % cfg.MQ_QUEUE_SIZE)).len ≤ cfg.MQ_MSGBUF_SIZE ∧
      (mq.out + i) % cfg.MQ_QUEUE_SIZE ≠ mq.curr := by
    intro i hi
    have hlt : (mq.out + i) % cfg.MQ_QUEUE_SIZE < cfg.MQ_QUEUE_SIZE := Nat.mod_lt _ hpos
    have hm : message (slot mq.queue ((mq.out + i) % cfg.MQ_QUEUE_SIZE)) ∈ pending cfg mq := by
      unfold pending
      exact List.mem_map.2 ⟨i, List.mem_range.2 hi, rfl⟩
    have := h2 _ hm
    rw [message_length cfg mq hwf _ hlt] at this
    refine ⟨this, hwf.len_le _ hlt, ?_⟩
    rw [hwf.curr_eq]
    exact idx_ne_in cfg mq hwf i hi
  have hout : mq.out ≠ mq.in_ → 2 ≤ (slot mq.queue mq.out).len ∧
      (slot mq.queue mq.out).len ≤ cfg.MQ_MSGBUF_SIZE := by
    intro hne
    have hc : 0 < pending_count cfg mq := by
      have := (pending_count_eq_zero_iff cfg mq hwf).not.2 hne
      omega
    have := hslots 0 hc
    rw [Nat.add_zero, Nat.mod_eq_of_lt hwf.out_lt] at this
    exact ⟨this.1, this.2.1⟩
  refine ⟨hslots, ?_, ?_⟩
  · constructor
    · intro h0
      by_contra hne
      obtain ⟨ha, _⟩ := hout hne
      by_cases hc : (slot mq.queue mq.out).len ≤ count
      · rw [bin_read_fit cfg mq buf pos count hne hc] at h0
        simp only at h0
        omega
      · rw [bin_read_too_small cfg mq buf pos count hne hc] at h0
        simp [EOVERFLOW] at h0
    · intro he
      rw [bin_read_of_empty cfg mq buf pos count he]
  · intro hne
    obtain ⟨ha, hb⟩ := hout hne
    by_cases hc : (slot mq.queue mq.out).len ≤ count
    · rw [bin_read_fit cfg mq buf pos count hne hc]
      right
      simp only
      omega
    · rw [bin_read_too_small cfg mq buf pos count hne hc]
      left
      rfl

/-- With `[0x84, 0x10, 0x20]` pending, a read of 8 bytes returns 3, not 0, and the
ring was not empty. -/
theorem pending_well_formed_witness :
    ((i2c_slave_mqueue_bin_read ⟨8, 4, 0x42⟩
      (run ⟨8, 4, 0x42⟩ (i2c_slave_mqueue_probe ⟨8, 4, 0x42⟩ (fun _ => 0))
        (transaction [0x10, 0x20])).1 [] 0 8).ret = 0 ↔
      (run ⟨8, 4, 0x42⟩ (i2c_slave_mqueue_probe ⟨8, 4, 0x42⟩ (fun _ => 0))
        (transaction [0x10, 0x20])).1.out =
      (run ⟨8, 4, 0x42⟩ (i2c_slave_mqueue_probe ⟨8, 4, 0x42⟩ (fun _ => 0))
        (transaction [0x10, 0x20])).1.in_) ∧
    (i2c_slave_mqueue_bin_read ⟨8, 4, 0x42⟩
      (run ⟨8, 4, 0x42⟩ (i2c_slave_mqueue_probe ⟨8, 4, 0x42⟩ (fun _ => 0))
        (transaction [0x10, 0x20])).1 [] 0 8).ret = 3 :=
  ⟨(pending_well_formed ⟨8, 4, 0x42⟩ 2
      (run ⟨8, 4, 0x42⟩ (i2c_slave_mqueue_probe ⟨8, 4, 0x42⟩ (fun _ => 0))
        (transaction [0x10, 0x20])).1 [] 0 8 (by decide) (by decide)
      (Reachable_run _ _ _ (Reachable.probe _))).2.1,
    by decide⟩

/-- C26. Index range and wrap-around: for a power-of-two slot count `N`,
`MQ_QUEUE_NEXT(x)` is `(x + 1) mod N` and lies below `N`; and in every
reachable state `in` and `out` lie in `0 .. N-1` and the queue has `N` slots, so
`queue[in]` and `queue[out]` are allocated slots. -/
theorem index_range (cfg : mq_config) (k : Nat) (mq : mq_queue)
    (hN : cfg.MQ_QUEUE_SIZE = 2 ^ k) (hr : Reachable cfg mq) :
    (∀ x, MQ_QUEUE_NEXT cfg x = (x + 1) % cfg.MQ_QUEUE_SIZE) ∧
    (∀ x, MQ_QUEUE_NEXT cfg x < cfg.MQ_QUEUE_SIZE) ∧
    mq.in_ < cfg.MQ_QUEUE_SIZE ∧ mq.out < cfg.MQ_QUEUE_SIZE ∧
    mq.queue.length = cfg.MQ_QUEUE_SIZE ∧
    mq.in_ < mq.queue.length ∧ mq.out < mq.queue.length := by
  have hpos : 0 < cfg.MQ_QUEUE_SIZE := by rw [hN]; positivity
  obtain ⟨a, b⟩ := idx_of_Reachable cfg mq hpos hr
  have hq := qlen_of_Reachable cfg mq hr
  exact ⟨fun x => MQ_QUEUE_NEXT_eq_mod cfg k x hN, fun x => MQ_QUEUE_NEXT_lt cfg x hpos,
    a, b, hq, hq ▸ a, hq ▸ b⟩

/-- With 4 slots, after 5 commits and a read the indices have wrapped to
`in = 1` and `out = 3`. -/
theorem index_range_witness :
    MQ_QUEUE_NEXT ⟨8, 4, 0x42⟩ 3 = (3 + 1) % (⟨8, 4, 0x42⟩ : mq_config).MQ_QUEUE_SIZE ∧
    (run ⟨8, 4, 0x42⟩ (i2c_slave_mqueue_probe ⟨8, 4, 0x42⟩ (fun _ => 0))
      (commits [[1], [2], [3], [4], [5]] ++ [.read [] 0 8])).1.in_ <
        (⟨8, 4, 0x42⟩ : mq_config).MQ_QUEUE_SIZE ∧
    (run ⟨8, 4, 0x42⟩ (i2c_slave_mqueue_probe ⟨8, 4, 0x42⟩ (fun _ => 0))
      (commits [[1], [2], [3], [4], [5]] ++ [.read [] 0 8])).1.in_ = 1 ∧
    (run ⟨8, 4, 0x42⟩ (i2c_slave_mqueue_probe ⟨8, 4, 0x42⟩ (fun _ => 0))
      (commits [[1], [2], [3], [4], [5]] ++ [.read [] 0 8])).1.out = 3 := by
  have h := index_range ⟨8, 4, 0x42⟩ 2
    (run ⟨8, 4, 0x42⟩ (i2c_slave_mqueue_probe ⟨8, 4, 0x42⟩ (fun _ => 0))
      (commits [[1], [2], [3], [4], [5]] ++ [.read [] 0 8])).1 (by decide)
    (Reachable_run _ _ _ (Reachable.probe _))
  have h1 := h.1 3
  have h2 := h.2.2.1
  exact ⟨h1, h2, by decide, by decide⟩

/-- C27. STOP is idempotent: in every state, reachable or not, a second STOP right
after a STOP returns 0, leaves the queue exactly as the first STOP left it and
notifies nobody, so it never commits; handling STOP twice gives the same queue
as handling it once. -/
theorem stop_idempotent (cfg : mq_config) (mq : mq_queue) (v w : Nat) :
    i2c_slave_mqueue_callback cfg (i2c_slave_mqueue_callback cfg mq I2C_SLAVE_STOP v).mq
        I2C_SLAVE_STOP w =
      ⟨0, (i2c_slave_mqueue_callback cfg mq I2C_SLAVE_STOP v).mq, w, 0⟩ ∧
    (run cfg mq [.event I2C_SLAVE_STOP v, .event I2C_SLAVE_STOP w]).1 =
      (run cfg mq [.event I2C_SLAVE_STOP v]).1 := by
  have h := stop_after_stop cfg mq v w
  refine ⟨h, ?_⟩
  simp only [run, step, h]

/-- C28. Frame of the read: in every state and for every `count` and `pos`, the
read changes no part of the queue but `out`, its result does not depend on
`pos`, and when it returns 0 or -EOVERFLOW the destination is as it was. -/
theorem read_frame (cfg : mq_config) (mq : mq_queue) (buf : List Nat) (pos count : Nat) :
    (i2c_slave_mqueue_bin_read cfg mq buf pos count).mq =
      { mq with out := (i2c_slave_mqueue_bin_read cfg mq buf pos count).mq.out } ∧
    (∀ pos1, i2c_slave_mqueue_bin_read cfg mq buf pos1 count =
      i2c_slave_mqueue_bin_read cfg mq buf pos count) ∧
    ((i2c_slave_mqueue_bin_read cfg mq buf pos count).ret = 0 ∨
        (i2c_slave_mqueue_bin_read cfg mq buf pos count).ret = -EOVERFLOW →
      (i2c_slave_mqueue_bin_read cfg mq buf pos count).buf = buf) := by
  refine ⟨?_, fun _ => rfl, ?_⟩
  · simp only [i2c_slave_mqueue_bin_read]
    split_ifs <;> rfl
  · by_cases h1 : mq.out ≠ mq.in_
    · by_cases h2 : (slot mq.queue mq.out).len ≤ count
      · rw [bin_read_fit cfg mq buf pos count h1 h2]
        intro h
        simp only [EOVERFLOW] at h
        have h0 : (slot mq.queue mq.out).len = 0 := by omega
        simp [memcpy, h0]
      · rw [bin_read_too_small cfg mq buf pos count h1 h2]
        intro _; trivial
    · rw [bin_read_of_empty cfg mq buf pos count (not_not.1 h1)]
      intro _; trivial

end Mqueue

/-! ## The claims about the UART DMA channel set-up -/

namespace Udma

/-- The range check lets through exactly the channel numbers up to 14: the
release succeeds for those and no others. -/
theorem free_chan_range_check (u : aspeed_udma) (ch_no : Nat) (is_tx : Bool) :
    (aspeed_udma_free_chan u ch_no is_tx).1 = 0 ↔ ch_no ≤ 14 := by
  unfold aspeed_udma_free_chan UDMA_MAX_CHANNEL
  by_cases h : ch_no > 14
  · rw [if_pos h]
    simp only [EINVAL]
    constructor
    · intro h1
      exact absurd h1 (by decide)
    · intro h1
      omega
  · rw [if_neg h]
    constructor
    · intro _
      omega
    · intro _
      rfl

/-- C29, evaluated where it fails. Channel number 14 passes the range check of
all three entry points (the release returns 0, the control sets bit 14 of the
enable register, the request gets past the check), yet 14 is not an index of
the 14-entry descriptor arrays, so the request's store to `tx_chs[14]` or
`rx_chs[14]` falls outside the array; channel 13, the last valid one, is
configured. -/
theorem channel_14_passes_range_check :
    ¬ (14 > UDMA_MAX_CHANNEL) ∧
    udma_zero.tx_chs.length = 14 ∧ udma_zero.rx_chs.length = 14 ∧
    (aspeed_udma_free_chan udma_zero 14 true).1 = 0 ∧
    (aspeed_udma_chan_ctrl ⟨0, 1, 2⟩ udma_zero 14 0 true).regs UDMA_TX_DMA_EN = 1 <<< 14 ∧
    chan_store udma_zero.tx_chs 14 ⟨0x1000, 0x2000, 0x400, 0, 0, false⟩ = none ∧
    (aspeed_udma_request_chan udma_zero 14 0x1000 0x2000 false false 0x400 0 0 false true).isSome
      = false ∧
    (aspeed_udma_request_chan udma_zero 14 0x1000 0x2000 false false 0x400 0 0 false false).isSome
      = false ∧
    (aspeed_udma_request_chan udma_zero 13 0x1000 0x2000 false false 0x400 0 0 false true).isSome
      = true := by
  decide

/-- C30, evaluated where it fails. The request returns 0 on every path that
returns: for channel 15, for a null or error ring buffer, for an unsupported
size and for a busy channel the body leaves -EINVAL or -EBUSY in `retval`, and
the function still returns 0. -/
theorem request_chan_returns_zero :
    (∀ (u : aspeed_udma) (ch_no addr rb : Nat) (rb_bad buf_bad : Bool) (rb_sz cb id : Nat)
        (dis_tmout is_tx : Bool),
      ((aspeed_udma_request_chan u ch_no addr rb rb_bad buf_bad rb_sz cb id dis_tmout
        is_tx).map Prod.fst).getD 0 = 0) ∧
    (aspeed_udma_request_chan_retval udma_zero 15 0x1000 0x2000 false false 0x400 0 0 false
        true).map Prod.fst = some (-EINVAL) ∧
    (aspeed_udma_request_chan udma_zero 15 0x1000 0x2000 false false 0x400 0 0 false
        true).map Prod.fst = some 0 ∧
    (aspeed_udma_request_chan_retval udma_zero 3 0x1000 0 true false 0x400 0 0 false
        true).map Prod.fst = some (-EINVAL) ∧
    (aspeed_udma_request_chan udma_zero 3 0x1000 0 true false 0x400 0 0 false
        true).map Prod.fst = some 0 ∧
    (aspeed_udma_request_chan_retval udma_zero 3 0x1000 0x2000 false false 0x401 0 0 false
        true).map Prod.fst = some (-EINVAL) ∧
    (aspeed_udma_request_chan udma_zero 3 0x1000 0x2000 false false 0x401 0 0 false
        true).map Prod.fst = some 0 ∧
    (aspeed_udma_request_chan_retval (writel udma_zero (1 <<< 3) UDMA_TX_DMA_INT_EN) 3 0x1000
        0x2000 false false 0x400 0 0 false true).map Prod.fst = some (-EBUSY) ∧
    (aspeed_udma_request_chan (writel udma_zero (1 <<< 3) UDMA_TX_DMA_INT_EN) 3 0x1000
        0x2000 false false 0x400 0 0 false true).map Prod.fst = some 0 := by
  refine ⟨?_, by decide, by decide, by decide, by decide, by decide, by decide, by decide,
    by decide⟩
  intro u ch_no addr rb rb_bad buf_bad rb_sz cb id dis_tmout is_tx
  unfold aspeed_udma_request_chan
  cases aspeed_udma_request_chan_retval u ch_no addr rb rb_bad buf_bad rb_sz cb id dis_tmout
    is_tx <;> rfl

end Udma
